import Mathlib

/-!
Digraph: adjacency-map digraph with basic / intermediate / advanced reductions.

Shallow embedding of `src/digraph/digraph.h`.

* `std::map<T, std::set<T>>` is a key-ordered association list
  `List (T × List T)`; `std::set<T>` is an ascending list.  The type
  invariant of the containers (strictly ascending keys, strictly ascending
  sets) is the predicate `WF`.
* `std::map::at` on an absent key throws; every function that uses it
  returns `Except Fault _`.
* The self re-entrant drivers and the depth-first search carry a recursion
  budget; the public entry points supply the budget and the theorems show
  that it is never exhausted.
* The counts `num_vertices` and `num_edges` are natural numbers: the `int`
  results of the source are taken to be within range.
-/

namespace Digraph

/-- Ways in which a call can fail to return a value. -/
inductive Fault where
  /-- A call of `std::map::at` on a key that is not in the map. -/
  | missing_key
  /-- The expression `graph.begin()->first` on a map without any key: the source reads
      through the end iterator without a guard, which has no defined result. -/
  | empty_graph
  /-- The recursion budget of the model is exhausted (the call would not return). -/
  | out_of_fuel
  deriving DecidableEq, Repr

deriving instance DecidableEq for Except

/-- The representation `std::map<T, std::set<T>> graph`. -/
abbrev Graph (T : Type) := List (T × List T)

/-- The representation `std::map<T, bool> visited`. -/
abbrev Visited (T : Type) := List (T × Bool)

section Containers

variable {T : Type} [LinearOrder T]

/-- Model of `std::set<T>::insert`: ordered insertion without duplicates. -/
def set_insert (v : T) : List T → List T
  | [] => [v]
  | x :: xs =>
    if v < x then v :: x :: xs
    else if v = x then x :: xs
    else x :: set_insert v xs

/-- The erase loop of `remove_edge`: drop every element equal to `v`. -/
def set_erase (v : T) (s : List T) : List T :=
  s.filter (fun x => decide (x ≠ v))

/-- Model of `std::map::find`: the value stored under `u`, if any. -/
def map_find {β : Type} (m : List (T × β)) (u : T) : Option β :=
  match m with
  | [] => none
  | (k, b) :: rest => if u = k then some b else map_find rest u

/-- Model of `std::map::at`: the value stored under `u`, or a missing-key fault. -/
def map_at {β : Type} (m : List (T × β)) (u : T) : Except Fault β :=
  match map_find m u with
  | some b => .ok b
  | none => .error .missing_key

/-- Model of `std::map::insert`: ordered insertion, keeping an existing entry. -/
def map_insert {β : Type} (m : List (T × β)) (u : T) (b : β) : List (T × β) :=
  match m with
  | [] => [(u, b)]
  | (k, a) :: rest =>
    if u < k then (u, b) :: (k, a) :: rest
    else if u = k then (k, a) :: rest
    else (k, a) :: map_insert rest u b

/-- Model of `m.at(u) = b`: overwrite the value stored under `u`, or a missing-key fault. -/
def map_assign {β : Type} (m : List (T × β)) (u : T) (b : β) : Except Fault (List (T × β)) :=
  match map_find m u with
  | some _ => .ok (m.map (fun kv => if kv.1 = u then (kv.1, b) else kv))
  | none => .error .missing_key

/-- Model of `std::map::erase(u)`. -/
def map_erase {β : Type} (m : List (T × β)) (u : T) : List (T × β) :=
  m.filter (fun kv => decide (kv.1 ≠ u))

/-- A loop with early exit: the first element on which `f` answers true (or faults)
    decides; false when the list is exhausted. -/
def first_true {α : Type} (f : α → Except Fault Bool) : List α → Except Fault Bool
  | [] => .ok false
  | x :: xs =>
    match f x with
    | .error e => .error e
    | .ok true => .ok true
    | .ok false => first_true f xs

end Containers

section Operations

variable {T : Type} [LinearOrder T]

/-- Model of `Digraph::contains_vertex`. -/
def contains_vertex (g : Graph T) (u : T) : Bool :=
  (map_find g u).isSome

/-- Model of `Digraph::edge`. -/
def edge (g : Graph T) (u v : T) : Bool :=
  match map_find g u with
  | none => false
  | some adj_set => decide (v ∈ adj_set)

/-- Model of `Digraph::insert_vertex`. -/
def insert_vertex (g : Graph T) (u : T) : Graph T :=
  if !contains_vertex g u then map_insert g u [] else g

/-- Model of `Digraph::insert_edge`. -/
def insert_edge (g : Graph T) (u v : T) : Except Fault (Graph T) :=
  if !edge g u v || !edge g v u then
    let g1 := if !contains_vertex g u then insert_vertex g u else g
    let g2 := if !contains_vertex g1 v then insert_vertex g1 v else g1
    match map_at g2 u with
    | .error e => .error e
    | .ok s => map_assign g2 u (set_insert v s)
  else .ok g

/-- Model of `Digraph::remove_edge`: both directions are erased when either is present. -/
def remove_edge (g : Graph T) (u v : T) : Except Fault (Graph T) :=
  if edge g u v || edge g v u then
    match map_at g u with
    | .error e => .error e
    | .ok u_set =>
      match (if v ∈ u_set then map_assign g u (set_erase v u_set) else .ok g) with
      | .error e => .error e
      | .ok g1 =>
        match map_at g1 v with
        | .error e => .error e
        | .ok v_set =>
          if u ∈ v_set then map_assign g1 v (set_erase u v_set) else .ok g1
  else .ok g

/-- Model of `Digraph::predecessors`: the keys, in ascending order, whose set contains `u`. -/
def predecessors (g : Graph T) (u : T) : List T :=
  (g.filter (fun kv => decide (u ∈ kv.2))).map Prod.fst

/-- Model of `Digraph::successors`. -/
def successors (g : Graph T) (u : T) : List T :=
  match map_find g u with
  | some s => s
  | none => []

/-- A `for` loop that applies a fallible update for every element of a set. -/
def for_each {α : Type} (f : Graph T → α → Except Fault (Graph T)) :
    List α → Graph T → Except Fault (Graph T)
  | [], g => .ok g
  | x :: xs, g =>
    match f g x with
    | .error e => .error e
    | .ok g1 => for_each f xs g1

/-- Model of `Digraph::remove_vertex`. -/
def remove_vertex (g : Graph T) (u : T) : Except Fault (Graph T) :=
  let preds := predecessors g u
  let succs := successors g u
  match for_each (fun h s => remove_edge h u s) succs g with
  | .error e => .error e
  | .ok g1 =>
    match for_each (fun h p => remove_edge h p u) preds g1 with
    | .error e => .error e
    | .ok g2 => .ok (map_erase g2 u)

/-- Model of `Digraph::num_vertices`. -/
def num_vertices (g : Graph T) : Nat := g.length

/-- Model of `Digraph::num_edges`. -/
def num_edges (g : Graph T) : Nat :=
  (g.map (fun kv => kv.2.length)).sum

/-- Model of `Digraph::in_degree`. -/
def in_degree (g : Graph T) (u : T) : Nat := (predecessors g u).length

/-- Model of `Digraph::out_degree`. -/
def out_degree (g : Graph T) (u : T) : Nat := (successors g u).length

/-- Model of `Digraph::loop`. -/
def loop (g : Graph T) (u : T) : Bool :=
  match map_find g u with
  | none => false
  | some adj_set => decide (u ∈ adj_set)

/-- Model of `Digraph::sink`. -/
def sink (g : Graph T) (u : T) : Bool :=
  if out_degree g u = 0 then true else false

/-- Model of `Digraph::bypass`. -/
def bypass (g : Graph T) (u : T) : Bool :=
  if (out_degree g u = 1 ∧ in_degree g u > 0) ∨ (in_degree g u = 1 ∧ out_degree g u > 0)
  then true else false

/-- Model of `Digraph::apply_cyclic`; `visited` is passed by value, so every branch of the
    search works on its own copy. -/
def apply_cyclic (g : Graph T) : Nat → T → T → Visited T → Except Fault Bool
  | 0, _, _, _ => .error .out_of_fuel
  | fuel + 1, u, v, visited =>
    match map_at visited u with
    | .error e => .error e
    | .ok true => .ok true
    | .ok false =>
      match map_at visited v with
      | .error e => .error e
      | .ok true => .ok false
      | .ok false =>
        match map_assign visited v true with
        | .error e => .error e
        | .ok visited1 =>
          first_true (fun i => apply_cyclic g fuel u i visited1) (successors g v)

/-- Model of `Digraph::cyclic`. -/
def cyclic (g : Graph T) (u v : T) : Except Fault Bool :=
  apply_cyclic g (num_vertices g + 1) u v (g.map (fun kv => (kv.1, false)))

/-- Model of `Digraph::acyclic`. -/
def acyclic (g : Graph T) (u v : T) : Except Fault Bool :=
  match cyclic g u v with
  | .error e => .error e
  | .ok c => if c then .ok false else .ok true

/-- Model of `Digraph::basic_reduction_apply2`. -/
def basic_reduction_apply2 (g : Graph T) (u : T) : Except Fault (Bool × Graph T) :=
  if loop g u || sink g u then
    match remove_vertex g u with
    | .error e => .error e
    | .ok g1 => .ok (true, g1)
  else .ok (false, g)

/-- The two rewiring loops of `Digraph::apply_intermediate_reduction2`: with a single
    successor every predecessor gets an edge to it, otherwise with a single predecessor
    it gets an edge to every successor. -/
def intermediate_rewire (g : Graph T) (u : T) : Except Fault (Graph T) :=
  let s := successors g u
  let p := predecessors g u
  if s.length = 1 ∧ p.length > 0 then
    match s with
    | replace :: _ => for_each (fun h k => insert_edge h k replace) p g
    | [] => .ok g
  else if p.length = 1 ∧ s.length > 0 then
    match p with
    | replace :: _ => for_each (fun h k => insert_edge h replace k) s g
    | [] => .ok g
  else .ok g

/-- Model of `Digraph::apply_intermediate_reduction2`. -/
def apply_intermediate_reduction2 (g : Graph T) (u : T) : Except Fault (Bool × Graph T) :=
  if bypass g u && !loop g u then
    match intermediate_rewire g u with
    | .error e => .error e
    | .ok g1 =>
      match remove_vertex g1 u with
      | .error e => .error e
      | .ok g2 => .ok (true, g2)
  else .ok (false, g)

/-- The `for` loop of `Digraph::apply_advanced_reduction2` over the successors of `u`. -/
def apply_advanced_reduction2_scan (g : Graph T) (u : T) : List T → Except Fault (Bool × Graph T)
  | [] => .ok (false, g)
  | k :: ks =>
    match acyclic g u k with
    | .error e => .error e
    | .ok true =>
      match remove_edge g u k with
      | .error e => .error e
      | .ok g1 => .ok (true, g1)
    | .ok false => apply_advanced_reduction2_scan g u ks

/-- Model of `Digraph::apply_advanced_reduction2`. -/
def apply_advanced_reduction2 (g : Graph T) (u : T) : Except Fault (Bool × Graph T) :=
  apply_advanced_reduction2_scan g u (successors g u)

/-- Model of `Digraph::loop_sink_exists`. -/
def loop_sink_exists (g : Graph T) : Bool :=
  g.any (fun kv => loop g kv.1 || sink g kv.1)

/-- Model of `Digraph::bypass_exists`. -/
def bypass_exists (g : Graph T) : Bool :=
  g.any (fun kv => bypass g kv.1 && !loop g kv.1)

/-- The inner `for` loop shared by `acyclic_exists` and `acyclic_vertex`: is some edge
    out of `graph.at(u)` acyclic? -/
def acyclic_edge_scan (g : Graph T) (u : T) : Except Fault Bool :=
  match map_at g u with
  | .error e => .error e
  | .ok s => first_true (fun k => acyclic g u k) s

/-- Model of `Digraph::acyclic_exists`. -/
def acyclic_exists (g : Graph T) : Except Fault Bool :=
  first_true (fun kv : T × List T => acyclic_edge_scan g kv.1) g

/-- Model of `Digraph::acyclic_vertex`. -/
def acyclic_vertex (g : Graph T) (u : T) : Except Fault Bool :=
  if out_degree g u ≠ 0 then acyclic_edge_scan g u else .ok false

/-- The `for` scan of `apply_advanced_reduction`: the first key for which
    `acyclic_vertex` answers true. -/
def first_acyclic_vertex (g : Graph T) : List (T × List T) → Except Fault (Option T)
  | [] => .ok none
  | kv :: rest =>
    match acyclic_vertex g kv.1 with
    | .error e => .error e
    | .ok true => .ok (some kv.1)
    | .ok false => first_acyclic_vertex g rest

/-- Model of `Digraph::basic_reduction_apply`.  The `for` scan inside the `while` returns
    from the function at the first loop or sink; a scan that found none while
    `loop_sink_exists` holds would repeat forever. -/
def basic_reduction_apply : Nat → Graph T → T → Except Fault (Bool × Graph T)
  | 0, _, _ => .error .out_of_fuel
  | fuel + 1, g, u =>
    match basic_reduction_apply2 g u with
    | .error e => .error e
    | .ok (applied, g1) =>
      if loop_sink_exists g1 then
        match g1.find? (fun kv => loop g1 kv.1 || sink g1 kv.1) with
        | some kv => basic_reduction_apply fuel g1 kv.1
        | none => .error .out_of_fuel
      else .ok (applied, g1)

/-- Model of `Digraph::apply_intermediate_reduction`. -/
def apply_intermediate_reduction : Nat → Graph T → T → Except Fault (Bool × Graph T)
  | 0, _, _ => .error .out_of_fuel
  | fuel + 1, g, u =>
    match apply_intermediate_reduction2 g u with
    | .error e => .error e
    | .ok (applied, g1) =>
      if bypass_exists g1 then
        match g1.find? (fun kv => bypass g1 kv.1 && !loop g1 kv.1) with
        | some kv => apply_intermediate_reduction fuel g1 kv.1
        | none => .error .out_of_fuel
      else .ok (applied, g1)

/-- Model of `Digraph::apply_advanced_reduction`. -/
def apply_advanced_reduction : Nat → Graph T → T → Except Fault (Bool × Graph T)
  | 0, _, _ => .error .out_of_fuel
  | fuel + 1, g, u =>
    match apply_advanced_reduction2 g u with
    | .error e => .error e
    | .ok (applied, g1) =>
      match acyclic_exists g1 with
      | .error e => .error e
      | .ok false => .ok (applied, g1)
      | .ok true =>
        match first_acyclic_vertex g1 g1 with
        | .error e => .error e
        | .ok (some w) => apply_advanced_reduction fuel g1 w
        | .ok none => .error .out_of_fuel

/-- Model of `Digraph::basic_reduction`: starts at `graph.begin()->first`, which is read
    without a guard; on a map without any key that read is marked `empty_graph`. -/
def basic_reduction (g : Graph T) : Except Fault (Bool × Graph T) :=
  match g with
  | [] => .error .empty_graph
  | (u, _) :: _ => basic_reduction_apply (num_vertices g + 1) g u

/-- Model of `Digraph::intermediate_reduction`: starts at `graph.begin()->first`, which is read
    without a guard; on a map without any key that read is marked `empty_graph`. -/
def intermediate_reduction (g : Graph T) : Except Fault (Bool × Graph T) :=
  match g with
  | [] => .error .empty_graph
  | (u, _) :: _ => apply_intermediate_reduction (num_vertices g + 1) g u

/-- Model of `Digraph::advanced_reduction`: starts at `graph.begin()->first`, which is read
    without a guard; on a map without any key that read is marked `empty_graph`. -/
def advanced_reduction (g : Graph T) : Except Fault (Bool × Graph T) :=
  match g with
  | [] => .error .empty_graph
  | (u, _) :: _ => apply_advanced_reduction (num_edges g + 1) g u

end Operations

section Specification

variable {T : Type} [LinearOrder T]

/-- The keys of the map, in iteration order. -/
def keys (g : Graph T) : List T := g.map Prod.fst

/-- The container invariant of `std::map<T, std::set<T>>`: keys strictly ascending,
    every successor set strictly ascending. -/
def WF (g : Graph T) : Prop :=
  (keys g).Sorted (fun a b => a < b) ∧ ∀ kv ∈ g, kv.2.Sorted (fun a b => a < b)

/-- Invariant I1: every vertex that occurs in a successor set is a key. -/
def I1 (g : Graph T) : Prop :=
  ∀ kv ∈ g, ∀ v ∈ kv.2, contains_vertex g v = true

instance (g : Graph T) : Decidable (WF g) := by
  unfold WF; infer_instance

instance (g : Graph T) : Decidable (I1 g) := by
  unfold I1; infer_instance

/-- There is a directed path of length `≥ 0` from `a` to `b`. -/
def Reach (g : Graph T) (a b : T) : Prop :=
  Relation.ReflTransGen (fun x y => edge g x y = true) a b

/-- There is a directed path of length `≥ 1` from `a` to `b`. -/
def Reach1 (g : Graph T) (a b : T) : Prop :=
  Relation.TransGen (fun x y => edge g x y = true) a b

/-- Rewrite every successor set, keeping the keys. -/
def map_entry (f : T → List T → List T) (g : Graph T) : Graph T :=
  g.map (fun kv => (kv.1, f kv.1 kv.2))

/-- The graph without the edges `(u, v)` and `(v, u)`. -/
def erase_pair (g : Graph T) (u v : T) : Graph T :=
  map_entry
    (fun k s => (if k = v then set_erase u else id) ((if k = u then set_erase v else id) s)) g

/-- The graph without the vertex `u` and without every edge incident to it. -/
def clear_vertex (g : Graph T) (u : T) : Graph T :=
  map_entry (fun _ s => set_erase u s) (map_erase g u)

/-- The graph with `v` added to the successor set of the key `u`. -/
def add_succ (g : Graph T) (u v : T) : Graph T :=
  map_entry (fun k s => if k = u then set_insert v s else s) g

/-- The `visited` map with `v` marked. -/
def mark (vis : Visited T) (v : T) : Visited T :=
  vis.map (fun kv => (kv.1, if kv.1 = v then true else kv.2))

/-- The number of entries of `visited` that are still false. -/
def unmarked (vis : Visited T) : Nat :=
  vis.countP (fun kv => !kv.2)

/-- A directed path from `a` to `b` that enters only vertices which `vis` holds as
    false. -/
def Avoid (g : Graph T) (vis : Visited T) (a b : T) : Prop :=
  Relation.ReflTransGen (fun x y => edge g x y = true ∧ map_find vis y = some false) a b

/-- The graph after the rewiring loops of `apply_intermediate_reduction2` at `u`, before
    `u` is removed: every predecessor gets the single successor, or the single
    predecessor gets every successor. -/
def rewire (g : Graph T) (u : T) : Graph T :=
  let s := successors g u
  let p := predecessors g u
  if s.length = 1 ∧ p.length > 0 then
    match s with
    | replace :: _ => p.foldl (fun h k => add_succ h k replace) g
    | [] => g
  else if p.length = 1 ∧ s.length > 0 then
    match p with
    | replace :: _ => s.foldl (fun h k => add_succ h replace k) g
    | [] => g
  else g

/-- One basic reduction: `basic_reduction_apply2` removes a key that is a loop or a sink. -/
def BasicStep (g g1 : Graph T) : Prop :=
  ∃ u, contains_vertex g u = true ∧ basic_reduction_apply2 g u = .ok (true, g1)

/-- One intermediate reduction: `apply_intermediate_reduction2` bypasses a key. -/
def IntermediateStep (g g1 : Graph T) : Prop :=
  ∃ u, contains_vertex g u = true ∧ apply_intermediate_reduction2 g u = .ok (true, g1)

/-- One advanced reduction: `apply_advanced_reduction2` removes an acyclic edge of a key. -/
def AdvancedStep (g g1 : Graph T) : Prop :=
  ∃ u, contains_vertex g u = true ∧ apply_advanced_reduction2 g u = .ok (true, g1)

end Specification

section Scenario

/-- The fourteen vertices of `test.cpp`, inserted into the empty graph. -/
def test_vertices : Graph Nat :=
  (List.range 14).foldl insert_vertex []

/-- The `insert_edge` calls of `test.cpp`, in program order. -/
def test_edges : List (Nat × Nat) :=
  [(0, 5), (1, 0), (1, 2), (1, 6), (1, 7), (3, 2), (3, 4), (3, 8), (3, 9), (4, 10), (4, 13),
   (5, 1), (6, 11), (7, 3), (8, 13), (9, 13), (10, 4), (11, 5), (11, 7), (11, 11), (11, 12),
   (12, 7), (12, 13)]

/-- The graph that `test.cpp` builds before its first `basic_reduction`. -/
def test_graph : Except Fault (Graph Nat) :=
  for_each (fun h e => insert_edge h e.1 e.2) test_edges test_vertices

/-- The graph with the edge `0 -> 1` only, on the keys `0` and `1`. -/
def arrow_graph : Graph Nat := [(0, [1]), (1, [])]

/-- A two-cycle `0 <-> 1` with a pendant edge `1 -> 2`. -/
def cycle_tail_graph : Graph Nat := [(0, [1]), (1, [0, 2]), (2, [])]

end Scenario

section Sequences

variable {T : Type} [LinearOrder T]

/-- The four modifiers of the graph store. -/
inductive StoreOp (T : Type) where
  | insert_vertex (u : T)
  | insert_edge (u v : T)
  | remove_vertex (u : T)
  | remove_edge (u v : T)
  deriving DecidableEq, Repr

/-- A call of the public interface that changes the graph. -/
inductive Op (T : Type) where
  | store (s : StoreOp T)
  | basic_reduction
  | intermediate_reduction
  | advanced_reduction
  deriving DecidableEq, Repr

/-- One call of a modifier. -/
def apply_store (g : Graph T) : StoreOp T → Except Fault (Graph T)
  | .insert_vertex u => .ok (insert_vertex g u)
  | .insert_edge u v => insert_edge g u v
  | .remove_vertex u => remove_vertex g u
  | .remove_edge u v => remove_edge g u v

/-- The graph that a reduction leaves behind (its boolean result is dropped). -/
def graph_after (r : Except Fault (Bool × Graph T)) : Except Fault (Graph T) :=
  match r with
  | .error e => .error e
  | .ok (_, g1) => .ok g1

/-- One call of a modifier or of a reduction. -/
def apply_op (g : Graph T) : Op T → Except Fault (Graph T)
  | .store s => apply_store g s
  | .basic_reduction => graph_after (basic_reduction g)
  | .intermediate_reduction => graph_after (intermediate_reduction g)
  | .advanced_reduction => graph_after (advanced_reduction g)

/-- A sequence of modifier calls, from left to right. -/
def run_store (ops : List (StoreOp T)) (g : Graph T) : Except Fault (Graph T) :=
  for_each apply_store ops g

/-- A sequence of calls, from left to right. -/
def run_ops (ops : List (Op T)) (g : Graph T) : Except Fault (Graph T) :=
  for_each apply_op ops g

/-- The ordered pairs `(u, v)` with `v` in the successor set of `u`, in iteration order. -/
def edge_pairs (g : Graph T) : List (T × T) :=
  g.flatMap (fun kv => kv.2.map (fun v => (kv.1, v)))

/-- The reference adjacency model: a vertex set and a set of ordered pairs. -/
structure RefModel (T : Type) where
  verts : Finset T
  edges : Finset (T × T)

/-- The reference model without any vertex. -/
def RefModel.empty : RefModel T := ⟨∅, ∅⟩

/-- Reference semantics of the four modifiers, following section 4.1 of the
    specification.  `insert_vertex(u)` adds `u` if absent.  `insert_edge(u, v)` ensures
    that `u` and `v` exist and adds the pair `(u, v)`.  `remove_vertex(u)` removes every
    pair `(u, s)` and `(p, u)` and then `u`, and is a no-op if `u` is absent.
    `remove_edge(u, v)` removes both `(u, v)` and `(v, u)` if either is present. -/
def RefModel.step (m : RefModel T) : StoreOp T → RefModel T
  | .insert_vertex u => ⟨insert u m.verts, m.edges⟩
  | .insert_edge u v => ⟨insert v (insert u m.verts), insert (u, v) m.edges⟩
  | .remove_vertex u =>
    if u ∈ m.verts then ⟨m.verts.erase u, m.edges.filter (fun e => e.1 ≠ u ∧ e.2 ≠ u)⟩
    else m
  | .remove_edge u v =>
    if (u, v) ∈ m.edges ∨ (v, u) ∈ m.edges then ⟨m.verts, (m.edges.erase (u, v)).erase (v, u)⟩
    else m

/-- The reference model after a sequence of modifiers. -/
def RefModel.run (ops : List (StoreOp T)) (m : RefModel T) : RefModel T :=
  ops.foldl RefModel.step m

/-- The reference model that a graph represents. -/
def abstraction (g : Graph T) : RefModel T :=
  ⟨(keys g).toFinset, (edge_pairs g).toFinset⟩

/-- Model of `Digraph::graphviz`; `value` is the conversion of a vertex to text. -/
def graphviz (value : T → String) (g : Graph T) : String :=
  let header := "digraph \x7b\n"
  let body_v := g.foldl (fun acc kv => acc ++ (" " ++ value kv.1 ++ ";\n")) ""
  let body_a := g.foldl
    (fun acc kv =>
      kv.2.foldl (fun acc2 v => acc2 ++ (" " ++ value kv.1 ++ " -> " ++ value v ++ ";\n")) acc)
    ""
  let footer := "\x7d\n"
  header ++ body_v ++ body_a ++ footer

end Sequences

section StringScenario

/-- The overload `to_string(const std::string&)`: a string is its own text. -/
def string_value (s : String) : String := s

/-- The graph built from the empty graph by `insert_vertex("a")` and
    `insert_edge("a", "b")`. -/
def ab_graph : Except Fault (Graph String) :=
  insert_edge (insert_vertex [] "a") "a" "b"

end StringScenario

section Canonical

variable {T : Type} [LinearOrder T]

/-- A set `S` of vertices of `g` in which no vertex has a self-edge in `g` and every
    vertex has at least one successor in `S`. -/
def LoopSinkFree (g : Graph T) (S : T → Prop) : Prop :=
  (∀ a, S a → contains_vertex g a = true) ∧
  (∀ a, S a → edge g a a = false) ∧
  (∀ a, S a → ∃ c, S c ∧ edge g a c = true)

/-- The graph `g1` is the subgraph of `g` induced by its own keys. -/
def InducedBy (g g1 : Graph T) : Prop :=
  (∀ a, contains_vertex g1 a = true → contains_vertex g a = true) ∧
  ∀ a c, edge g1 a c = true ↔
    contains_vertex g1 a = true ∧ contains_vertex g1 c = true ∧ edge g a c = true

/-- A chain of three sinks `0 -> 1 -> 2` next to the two-cycle `3 <-> 4`. -/
def chain_cycle_graph : Graph Nat := [(0, [1]), (1, [2]), (2, []), (3, [4]), (4, [3])]

end Canonical

/-! Lemmas and theorems. -/

section ContainerLemmas
variable {T : Type} [LinearOrder T]

theorem mem_set_insert (v x : T) (s : List T) : x ∈ set_insert v s ↔ x = v ∨ x ∈ s := by
  induction s with
  | nil => simp [set_insert]
  | cons y ys ih =>
    unfold set_insert
    split_ifs with h1 h2
    · simp
    · subst h2; simp
    · simp [ih]; tauto

theorem set_insert_of_mem {v : T} {s : List T} (hs : s.Sorted (fun a b => a < b)) (hv : v ∈ s) :
    set_insert v s = s := by
  induction s with
  | nil => simp at hv
  | cons y ys ih =>
    have hs' := List.sorted_cons.mp hs
    unfold set_insert
    rcases List.mem_cons.mp hv with rfl | hmem
    · simp
    · have hlt : y < v := hs'.1 v hmem
      rw [if_neg (not_lt.mpr hlt.le), if_neg (ne_of_gt hlt), ih hs'.2 hmem]

theorem set_insert_sorted (v : T) {s : List T} (hs : s.Sorted (fun a b => a < b)) :
    (set_insert v s).Sorted (fun a b => a < b) := by
  induction s with
  | nil => simp [set_insert]
  | cons y ys ih =>
    have hs' := List.sorted_cons.mp hs
    unfold set_insert
    split_ifs with h1 h2
    · exact List.sorted_cons.mpr ⟨fun b hb => by
        rcases List.mem_cons.mp hb with rfl | hb
        · exact h1
        · exact lt_trans h1 (hs'.1 b hb), hs⟩
    · exact hs
    · refine List.sorted_cons.mpr ⟨fun b hb => ?_, ih hs'.2⟩
      rcases (mem_set_insert v b ys).mp hb with rfl | hb
      · exact lt_of_le_of_ne (not_lt.mp h1) (Ne.symm h2)
      · exact hs'.1 b hb

theorem mem_set_erase (v x : T) (s : List T) : x ∈ set_erase v s ↔ x ∈ s ∧ x ≠ v := by
  simp [set_erase]

theorem set_erase_of_not_mem {v : T} {s : List T} (hv : v ∉ s) : set_erase v s = s := by
  unfold set_erase
  rw [List.filter_eq_self]
  intro a ha
  simp only [ne_eq, decide_not, Bool.not_eq_true', decide_eq_false_iff_not]
  rintro rfl; exact hv ha

theorem set_erase_sorted (v : T) {s : List T} (hs : s.Sorted (fun a b => a < b)) :
    (set_erase v s).Sorted (fun a b => a < b) :=
  List.Pairwise.filter _ hs

theorem set_erase_idem (v : T) (s : List T) : set_erase v (set_erase v s) = set_erase v s := by
  simp [set_erase]

theorem set_erase_length_le (v : T) (s : List T) : (set_erase v s).length ≤ s.length :=
  List.length_filter_le _ _

theorem set_erase_length_lt {v : T} {s : List T} (hv : v ∈ s) :
    (set_erase v s).length < s.length := by
  unfold set_erase
  induction s with
  | nil => simp at hv
  | cons y ys ih =>
    by_cases hy : y = v
    · subst hy
      simp only [ne_eq, not_true_eq_false, decide_False, Bool.false_eq_true, not_false_eq_true,
        List.filter_cons_of_neg, List.length_cons]
      exact Nat.lt_succ_of_le (List.length_filter_le _ _)
    · have hv' : v ∈ ys := by
        rcases List.mem_cons.mp hv with h | h
        · exact absurd h.symm hy
        · exact h
      have := ih hv'
      simp [List.filter_cons, hy]
      simpa using this

/-! ### `map_find` -/

theorem map_find_mem {β : Type} {m : List (T × β)} {u : T} {b : β}
    (h : map_find m u = some b) : (u, b) ∈ m := by
  induction m with
  | nil => simp [map_find] at h
  | cons kv rest ih =>
    obtain ⟨k, a⟩ := kv
    unfold map_find at h
    split_ifs at h with hk
    · cases h; subst hk; simp
    · exact List.mem_cons_of_mem _ (ih h)

theorem map_find_isSome {β : Type} (m : List (T × β)) (u : T) :
    (map_find m u).isSome = true ↔ u ∈ m.map Prod.fst := by
  induction m with
  | nil => simp [map_find]
  | cons kv rest ih =>
    obtain ⟨k, a⟩ := kv
    unfold map_find
    split_ifs with hk
    · simp [hk]
    · simp [ih, hk]

theorem map_find_eq_none {β : Type} (m : List (T × β)) (u : T) :
    map_find m u = none ↔ u ∉ m.map Prod.fst := by
  rw [← map_find_isSome]
  cases map_find m u <;> simp

theorem map_find_of_mem {β : Type} {m : List (T × β)} (hnd : (m.map Prod.fst).Nodup)
    {u : T} {b : β} (h : (u, b) ∈ m) : map_find m u = some b := by
  induction m with
  | nil => simp at h
  | cons kv rest ih =>
    obtain ⟨k, a⟩ := kv
    simp only [List.map_cons, List.nodup_cons] at hnd
    unfold map_find
    rcases List.mem_cons.mp h with heq | hmem
    · cases heq; simp
    · have hne : u ≠ k := by
        rintro rfl
        exact hnd.1 (List.mem_map_of_mem Prod.fst hmem)
      rw [if_neg hne]; exact ih hnd.2 hmem

theorem map_find_map {β : Type} (m : List (T × β)) (f : T → β → β) (x : T) :
    map_find (m.map (fun kv => (kv.1, f kv.1 kv.2))) x = (map_find m x).map (f x) := by
  induction m with
  | nil => simp [map_find]
  | cons kv rest ih =>
    obtain ⟨k, a⟩ := kv
    simp only [List.map_cons, map_find]
    split_ifs with hk
    · subst hk; simp
    · exact ih

theorem map_find_erase {β : Type} (m : List (T × β)) (u x : T) :
    map_find (map_erase m u) x = if x = u then none else map_find m x := by
  induction m with
  | nil => simp [map_find, map_erase]
  | cons kv rest ih =>
    obtain ⟨k, a⟩ := kv
    unfold map_erase at ih ⊢
    by_cases hk : k = u
    · subst hk
      simp only [ne_eq, not_true_eq_false, decide_False, Bool.false_eq_true, not_false_eq_true,
        List.filter_cons_of_neg]
      rw [ih]
      split_ifs with hx
      · rfl
      · simp [map_find, hx]
    · simp only [ne_eq, hk, not_false_eq_true, decide_True, List.filter_cons_of_pos]
      unfold map_find
      split_ifs with h1 h2 h3
      · subst h1; exact absurd h2 hk
      · rfl
      · rw [ih, if_pos h3]
      · rw [ih, if_neg h3]

theorem map_find_insert {β : Type} (m : List (T × β)) (u : T) (b : β) (x : T)
    (hu : map_find m u = none) :
    map_find (map_insert m u b) x = if x = u then some b else map_find m x := by
  induction m with
  | nil => simp [map_find, map_insert]
  | cons kv rest ih =>
    obtain ⟨k, a⟩ := kv
    unfold map_find at hu
    split_ifs at hu with hk
    unfold map_insert
    rw [if_neg hk]
    by_cases h1 : u < k
    · rw [if_pos h1]
      by_cases h2 : x = u
      · subst h2; simp [map_find]
      · simp [map_find, h2]
    · rw [if_neg h1]
      by_cases h2 : x = u
      · subst h2
        simp only [map_find]
        rw [if_neg hk, ih hu, if_pos rfl]
        simp
      · simp only [map_find]
        by_cases h3 : x = k
        · rw [if_pos h3, if_neg h2, if_pos h3]
        · rw [if_neg h3, ih hu, if_neg h2, if_neg h2, if_neg h3]

theorem keys_map_insert {β : Type} (m : List (T × β)) (u : T) (b : β) (x : T) :
    x ∈ (map_insert m u b).map Prod.fst ↔ x = u ∨ x ∈ m.map Prod.fst := by
  induction m with
  | nil => simp [map_insert]
  | cons kv rest ih =>
    obtain ⟨k, a⟩ := kv
    unfold map_insert
    split_ifs with h1 h2
    · simp
    · subst h2; simp
    · simp only [List.map_cons, List.mem_cons, ih]; tauto

theorem map_insert_sorted {β : Type} (m : List (T × β)) (u : T) (b : β)
    (hs : (m.map Prod.fst).Sorted (fun a b => a < b)) :
    ((map_insert m u b).map Prod.fst).Sorted (fun a b => a < b) := by
  induction m with
  | nil => simp [map_insert]
  | cons kv rest ih =>
    obtain ⟨k, a⟩ := kv
    simp only [List.map_cons] at hs
    have hs' := List.sorted_cons.mp hs
    unfold map_insert
    split_ifs with h1 h2
    · simp only [List.map_cons]
      exact List.sorted_cons.mpr ⟨fun c hc => by
        rcases List.mem_cons.mp hc with rfl | hc
        · exact h1
        · exact lt_trans h1 (hs'.1 c hc), hs⟩
    · exact hs
    · simp only [List.map_cons]
      refine List.sorted_cons.mpr ⟨fun c hc => ?_, ih hs'.2⟩
      rcases (keys_map_insert rest u b c).mp hc with rfl | hc
      · exact lt_of_le_of_ne (not_lt.mp h1) (Ne.symm h2)
      · exact hs'.1 c hc

theorem mem_map_insert {β : Type} (m : List (T × β)) (u : T) (b : β) (kv : T × β) :
    kv ∈ map_insert m u b → kv = (u, b) ∨ kv ∈ m := by
  induction m with
  | nil => simp [map_insert]
  | cons e rest ih =>
    obtain ⟨k, a⟩ := e
    unfold map_insert
    split_ifs with h1 h2
    · simp
    · intro h; exact Or.inr h
    · simp only [List.mem_cons]
      rintro (h | h)
      · exact Or.inr (Or.inl h)
      · rcases ih h with h | h
        · exact Or.inl h
        · exact Or.inr (Or.inr h)

theorem map_insert_length {β : Type} (m : List (T × β)) (u : T) (b : β)
    (hu : map_find m u = none) : (map_insert m u b).length = m.length + 1 := by
  induction m with
  | nil => simp [map_insert]
  | cons kv rest ih =>
    obtain ⟨k, a⟩ := kv
    unfold map_find at hu
    split_ifs at hu with hk
    unfold map_insert
    rw [if_neg hk]
    split_ifs with h1
    · simp
    · simp [ih hu]

theorem map_erase_of_not_mem {β : Type} {m : List (T × β)} {u : T}
    (hu : u ∉ m.map Prod.fst) : map_erase m u = m := by
  unfold map_erase
  rw [List.filter_eq_self]
  intro kv hkv
  simp only [ne_eq, decide_not, Bool.not_eq_true', decide_eq_false_iff_not]
  intro h
  exact hu (h ▸ List.mem_map_of_mem Prod.fst hkv)

theorem map_erase_cons_self {β : Type} (rest : List (T × β)) (k : T) (a : β) :
    map_erase ((k, a) :: rest) k = map_erase rest k := by
  simp [map_erase]

theorem map_erase_cons_ne {β : Type} (rest : List (T × β)) {k u : T} (a : β) (hk : k ≠ u) :
    map_erase ((k, a) :: rest) u = (k, a) :: map_erase rest u := by
  simp [map_erase, hk]

theorem map_erase_length {β : Type} {m : List (T × β)} {u : T}
    (hnd : (m.map Prod.fst).Nodup) (hu : u ∈ m.map Prod.fst) :
    (map_erase m u).length + 1 = m.length := by
  induction m with
  | nil => simp at hu
  | cons kv rest ih =>
    obtain ⟨k, a⟩ := kv
    simp only [List.map_cons, List.nodup_cons] at hnd
    by_cases hk : k = u
    · subst hk
      rw [map_erase_cons_self, map_erase_of_not_mem hnd.1]; simp
    · have hu' : u ∈ rest.map Prod.fst := by
        simp only [List.map_cons, List.mem_cons] at hu
        rcases hu with h | h
        · exact absurd h.symm hk
        · exact h
      rw [map_erase_cons_ne _ _ hk]
      simp [ih hnd.2 hu']

end ContainerLemmas

section GraphLemmas
variable {T : Type} [LinearOrder T]

theorem WF.nodup_keys {g : Graph T} (h : WF g) : (g.map Prod.fst).Nodup :=
  (List.Sorted.nodup h.1 : (keys g).Nodup)

theorem contains_vertex_iff (g : Graph T) (u : T) :
    contains_vertex g u = true ↔ u ∈ keys g := by
  unfold contains_vertex keys
  exact map_find_isSome g u

theorem edge_iff (g : Graph T) (u v : T) :
    edge g u v = true ↔ ∃ s, map_find g u = some s ∧ v ∈ s := by
  unfold edge
  cases h : map_find g u with
  | none => simp
  | some s => simp

theorem loop_eq_edge (g : Graph T) (u : T) : loop g u = edge g u u := rfl

theorem edge_contains_left {g : Graph T} {u v : T} (h : edge g u v = true) :
    contains_vertex g u = true := by
  obtain ⟨s, hs, _⟩ := (edge_iff g u v).mp h
  simp [contains_vertex, hs]

theorem I1.edge_contains_right {g : Graph T} (hI : I1 g) {u v : T} (h : edge g u v = true) :
    contains_vertex g v = true := by
  obtain ⟨s, hs, hv⟩ := (edge_iff g u v).mp h
  exact hI (u, s) (map_find_mem hs) v hv

theorem I1_of_edges {g : Graph T} (hwf : WF g)
    (h : ∀ u v, edge g u v = true → contains_vertex g v = true) : I1 g := by
  intro kv hkv v hv
  obtain ⟨k, s⟩ := kv
  exact h k v ((edge_iff g k v).mpr ⟨s, map_find_of_mem hwf.nodup_keys hkv, hv⟩)

theorem mem_successors (g : Graph T) (u v : T) :
    v ∈ successors g u ↔ edge g u v = true := by
  unfold successors edge
  cases map_find g u <;> simp

theorem mem_predecessors {g : Graph T} (hwf : WF g) (u p : T) :
    p ∈ predecessors g u ↔ edge g p u = true := by
  unfold predecessors
  rw [edge_iff]
  simp only [List.mem_map, List.mem_filter, decide_eq_true_eq, Prod.exists, exists_and_right,
    exists_eq_right]
  constructor
  · rintro ⟨s, hmem, hu⟩
    exact ⟨s, map_find_of_mem hwf.nodup_keys hmem, hu⟩
  · rintro ⟨s, hs, hu⟩
    exact ⟨s, map_find_mem hs, hu⟩

theorem WF.successors_sorted {g : Graph T} (hwf : WF g) (u : T) :
    (successors g u).Sorted (fun a b => a < b) := by
  unfold successors
  cases h : map_find g u with
  | none => exact List.sorted_nil
  | some s => exact hwf.2 (u, s) (map_find_mem h)

theorem WF.predecessors_sorted {g : Graph T} (hwf : WF g) (u : T) :
    (predecessors g u).Sorted (fun a b => a < b) := by
  unfold predecessors
  have h1 : (g.map Prod.fst).Sorted (fun a b => a < b) := hwf.1
  rw [List.Sorted, List.pairwise_map] at h1 ⊢
  exact List.Pairwise.filter _ h1

/-! ### Entry-wise rewriting of a graph -/

theorem map_find_map_entry (f : T → List T → List T) (g : Graph T) (x : T) :
    map_find (map_entry f g) x = (map_find g x).map (f x) :=
  map_find_map g f x

theorem keys_map_entry (f : T → List T → List T) (g : Graph T) :
    keys (map_entry f g) = keys g := by
  unfold keys map_entry
  rw [List.map_map]
  rfl

theorem length_map_entry (f : T → List T → List T) (g : Graph T) :
    (map_entry f g).length = g.length := by
  simp [map_entry]

theorem WF_map_entry {g : Graph T} (hwf : WF g) (f : T → List T → List T)
    (hf : ∀ k s, s.Sorted (fun a b => a < b) → (f k s).Sorted (fun a b => a < b)) :
    WF (map_entry f g) := by
  refine ⟨by rw [keys_map_entry]; exact hwf.1, ?_⟩
  intro kv hkv
  obtain ⟨e, he, rfl⟩ := List.mem_map.mp hkv
  exact hf _ _ (hwf.2 e he)

theorem edge_map_entry (f : T → List T → List T) (g : Graph T) (a b : T) :
    edge (map_entry f g) a b = true ↔ ∃ s, map_find g a = some s ∧ b ∈ f a s := by
  rw [edge_iff, map_find_map_entry]
  cases map_find g a <;> simp

theorem contains_map_entry (f : T → List T → List T) (g : Graph T) (a : T) :
    contains_vertex (map_entry f g) a = contains_vertex g a := by
  unfold contains_vertex
  rw [map_find_map_entry]
  cases map_find g a <;> rfl

theorem map_entry_map_entry (f1 f2 : T → List T → List T) (g : Graph T) :
    map_entry f2 (map_entry f1 g) = map_entry (fun k s => f2 k (f1 k s)) g := by
  simp [map_entry, List.map_map, Function.comp_def]

theorem map_entry_congr {f1 f2 : T → List T → List T} {g : Graph T}
    (h : ∀ kv ∈ g, f1 kv.1 kv.2 = f2 kv.1 kv.2) : map_entry f1 g = map_entry f2 g := by
  unfold map_entry
  apply List.map_congr_left
  intro kv hkv
  rw [h kv hkv]

theorem map_entry_id {f : T → List T → List T} {g : Graph T}
    (h : ∀ kv ∈ g, f kv.1 kv.2 = kv.2) : map_entry f g = g := by
  unfold map_entry
  conv_rhs => rw [← List.map_id g]
  apply List.map_congr_left
  intro kv hkv
  rw [h kv hkv]; rfl

/-- Function `map_assign` rewrites the entry of the key. -/
theorem map_assign_eq {g : Graph T} {u : T} {s0 : List T} (s : List T)
    (hu : map_find g u = some s0) :
    map_assign g u s = .ok (map_entry (fun k t => if k = u then s else t) g) := by
  unfold map_assign map_entry
  rw [hu]
  simp only
  congr 1
  apply List.map_congr_left
  intro kv _
  split_ifs <;> rfl

end GraphLemmas

section RemoveEdge
variable {T : Type} [LinearOrder T]

theorem WF.entry_eq {g : Graph T} (hwf : WF g) {u : T} {s0 : List T}
    (hu : map_find g u = some s0) {kv : T × List T} (hkv : kv ∈ g) (hk : kv.1 = u) :
    kv.2 = s0 := by
  obtain ⟨k, s⟩ := kv
  simp only at hk
  subst hk
  have := map_find_of_mem hwf.nodup_keys hkv
  rw [hu] at this
  exact (Option.some.inj this).symm

/-- The guarded erase-and-store step of `remove_edge`. -/
theorem erase_step_eq {g : Graph T} (hwf : WF g) {u : T} (v : T) {s0 : List T}
    (hu : map_find g u = some s0) :
    (if v ∈ s0 then map_assign g u (set_erase v s0) else .ok g) =
      .ok (map_entry (fun k s => (if k = u then set_erase v else id) s) g) := by
  split_ifs with hv
  · rw [map_assign_eq _ hu]
    congr 1
    apply map_entry_congr
    intro kv hkv
    by_cases hk : kv.1 = u
    · simp only [hk, if_true]
      rw [← hwf.entry_eq hu hkv hk]
    · simp [hk]
  · congr 1
    symm
    apply map_entry_id
    intro kv hkv
    by_cases hk : kv.1 = u
    · simp only [hk, if_true]
      rw [hwf.entry_eq hu hkv hk, set_erase_of_not_mem hv]
    · simp [hk]

theorem keys_erase_pair (g : Graph T) (u v : T) : keys (erase_pair g u v) = keys g :=
  keys_map_entry _ g

theorem mem_erase_pair_entry (u v k b : T) (s : List T) :
    b ∈ (if k = v then set_erase u else id) ((if k = u then set_erase v else id) s) ↔
      b ∈ s ∧ ¬(k = u ∧ b = v) ∧ ¬(k = v ∧ b = u) := by
  split_ifs with h1 h2 h2 <;> simp only [id, mem_set_erase] <;> tauto

theorem WF_erase_pair {g : Graph T} (hwf : WF g) (u v : T) : WF (erase_pair g u v) := by
  apply WF_map_entry hwf
  intro k s hs
  split_ifs <;>
    first
      | exact hs
      | exact set_erase_sorted _ hs
      | exact set_erase_sorted _ (set_erase_sorted _ hs)

theorem contains_erase_pair (g : Graph T) (u v a : T) :
    contains_vertex (erase_pair g u v) a = contains_vertex g a :=
  contains_map_entry _ g a

theorem edge_erase_pair (g : Graph T) (u v a b : T) :
    edge (erase_pair g u v) a b = true ↔
      edge g a b = true ∧ ¬(a = u ∧ b = v) ∧ ¬(a = v ∧ b = u) := by
  unfold erase_pair
  rw [edge_map_entry, edge_iff]
  simp only [mem_erase_pair_entry]
  constructor
  · rintro ⟨s, hs, hb, h⟩
    exact ⟨⟨s, hs, hb⟩, h⟩
  · rintro ⟨⟨s, hs, hb⟩, h⟩
    exact ⟨s, hs, hb, h⟩

theorem I1_erase_pair {g : Graph T} (hwf : WF g) (hI : I1 g) (u v : T) :
    I1 (erase_pair g u v) := by
  apply I1_of_edges (WF_erase_pair hwf u v)
  intro a b hab
  rw [contains_erase_pair]
  exact hI.edge_contains_right ((edge_erase_pair g u v a b).mp hab).1

/-- Without either edge the symmetric erase changes nothing. -/
theorem erase_pair_of_no_edge {g : Graph T} (hwf : WF g) {u v : T}
    (h1 : edge g u v = false) (h2 : edge g v u = false) : erase_pair g u v = g := by
  apply map_entry_id
  intro kv hkv
  obtain ⟨k, s⟩ := kv
  have hks := map_find_of_mem hwf.nodup_keys hkv
  have e1 : k = u → v ∉ s := by
    rintro rfl hv
    have : edge g k v = true := (edge_iff g k v).mpr ⟨s, hks, hv⟩
    rw [h1] at this; exact Bool.noConfusion this
  have e2 : k = v → u ∉ s := by
    rintro rfl hv
    have : edge g k u = true := (edge_iff g k u).mpr ⟨s, hks, hv⟩
    rw [h2] at this; exact Bool.noConfusion this
  show (if k = v then set_erase u else id) ((if k = u then set_erase v else id) s) = s
  split_ifs with c1 c2 c2
  · show set_erase u (set_erase v s) = s
    rw [set_erase_of_not_mem (e1 c2), set_erase_of_not_mem (e2 c1)]
  · exact set_erase_of_not_mem (e2 c1)
  · exact set_erase_of_not_mem (e1 c2)
  · rfl

/-- Function `remove_edge` between two keys never faults and computes `erase_pair`. -/
theorem remove_edge_eq {g : Graph T} (hwf : WF g) {u v : T}
    (hu : contains_vertex g u = true) (hv : contains_vertex g v = true) :
    remove_edge g u v = .ok (erase_pair g u v) := by
  unfold remove_edge
  split_ifs with he
  · unfold contains_vertex at hu hv
    obtain ⟨su, hsu⟩ := Option.isSome_iff_exists.mp hu
    obtain ⟨sv, hsv⟩ := Option.isSome_iff_exists.mp hv
    simp only [map_at, hsu]
    rw [erase_step_eq hwf v hsu]
    simp only
    have hwf1 : WF (map_entry (fun k s => (if k = u then set_erase v else id) s) g) := by
      apply WF_map_entry hwf
      intro k s hs
      by_cases h1 : k = u <;> simp only [h1, if_true, if_false, id]
      · exact set_erase_sorted _ hs
      · exact hs
    have hf1 : map_find (map_entry (fun k s => (if k = u then set_erase v else id) s) g) v
        = some ((if v = u then set_erase v else id) sv) := by
      rw [map_find_map_entry, hsv]; rfl
    rw [hf1]
    simp only
    rw [erase_step_eq hwf1 u hf1, map_entry_map_entry]
    rfl
  · simp only [Bool.or_eq_true, not_or, Bool.not_eq_true] at he
    rw [erase_pair_of_no_edge hwf he.1 he.2]

/-- Under I1, `remove_edge` never faults, whatever its arguments. -/
theorem remove_edge_ok {g : Graph T} (hwf : WF g) (hI : I1 g) (u v : T) :
    remove_edge g u v = .ok (erase_pair g u v) := by
  by_cases he : edge g u v = true ∨ edge g v u = true
  · have hu : contains_vertex g u = true := by
      rcases he with h | h
      · exact edge_contains_left h
      · exact hI.edge_contains_right h
    have hv : contains_vertex g v = true := by
      rcases he with h | h
      · exact hI.edge_contains_right h
      · exact edge_contains_left h
    exact remove_edge_eq hwf hu hv
  · simp only [not_or, Bool.not_eq_true] at he
    unfold remove_edge
    rw [he.1, he.2, erase_pair_of_no_edge hwf he.1 he.2]
    rfl

end RemoveEdge

section RemoveVertex
variable {T : Type} [LinearOrder T]

theorem erase_pair_comm (g : Graph T) (u v : T) : erase_pair g u v = erase_pair g v u := by
  apply map_entry_congr
  intro kv _
  show (if kv.1 = v then set_erase u else id) ((if kv.1 = u then set_erase v else id) kv.2) =
    (if kv.1 = u then set_erase v else id) ((if kv.1 = v then set_erase u else id) kv.2)
  split_ifs with h1 h2 h2
  · rw [← h1, ← h2]
  · rfl
  · rfl
  · rfl

theorem for_each_remove_edge {α : Type} (a b : α → T) (L : List α) :
    ∀ g : Graph T, WF g → I1 g →
      for_each (fun h x => remove_edge h (a x) (b x)) L g =
        .ok (L.foldl (fun h x => erase_pair h (a x) (b x)) g) := by
  induction L with
  | nil => intro g _ _; rfl
  | cons x xs ih =>
    intro g hwf hI
    simp only [for_each, List.foldl_cons]
    rw [remove_edge_ok hwf hI]
    exact ih _ (WF_erase_pair hwf _ _) (I1_erase_pair hwf hI _ _)

theorem map_erase_map_entry (f : T → List T → List T) (g : Graph T) (u : T) :
    map_erase (map_entry f g) u = map_entry f (map_erase g u) := by
  unfold map_erase map_entry
  rw [List.filter_map]
  rfl

theorem mem_map_erase {g : Graph T} {u : T} {kv : T × List T} :
    kv ∈ map_erase g u ↔ kv ∈ g ∧ kv.1 ≠ u := by
  simp [map_erase]

theorem map_erase_fold (u : T) (L : List T) :
    ∀ h : Graph T, map_erase (L.foldl (fun h x => erase_pair h x u) h) u =
      map_entry (fun k t => if k ∈ L then set_erase u t else t) (map_erase h u) := by
  induction L with
  | nil =>
    intro h
    simp only [List.foldl_nil, List.not_mem_nil, if_false]
    exact (map_entry_id (fun _ _ => rfl)).symm
  | cons x xs ih =>
    intro h
    rw [List.foldl_cons, ih]
    unfold erase_pair
    rw [map_erase_map_entry, map_entry_map_entry]
    apply map_entry_congr
    intro kv hkv
    have hk : kv.1 ≠ u := (mem_map_erase.mp hkv).2
    simp only [List.mem_cons]
    rw [if_neg hk]
    by_cases h1 : kv.1 = x
    · simp only [h1, true_or, if_true, id]
      split_ifs
      · exact set_erase_idem _ _
      · rfl
    · simp only [h1, false_or, if_false, id]

theorem clear_vertex_fold {g : Graph T} (hwf : WF g) (u : T) :
    map_erase ((predecessors g u).foldl (fun h p => erase_pair h p u)
      ((successors g u).foldl (fun h s => erase_pair h u s) g)) u = clear_vertex g u := by
  have hcomm : (fun (h : Graph T) s => erase_pair h u s) = (fun h s => erase_pair h s u) := by
    funext h s; exact erase_pair_comm h u s
  rw [hcomm, map_erase_fold, map_erase_fold, map_entry_map_entry]
  apply map_entry_congr
  intro kv hkv
  obtain ⟨k, t⟩ := kv
  have hmem : (k, t) ∈ g := (mem_map_erase.mp hkv).1
  have hfind := map_find_of_mem hwf.nodup_keys hmem
  simp only
  by_cases hp : k ∈ predecessors g u
  · rw [if_pos hp]
    split_ifs
    · exact set_erase_idem _ _
    · rfl
  · rw [if_neg hp]
    have hu : u ∉ t := by
      intro hut
      exact hp ((mem_predecessors hwf u k).mpr ((edge_iff g k u).mpr ⟨t, hfind, hut⟩))
    rw [set_erase_of_not_mem hu]
    split_ifs <;> rfl

/-- Function `remove_vertex` on a well-formed graph that satisfies I1 computes `clear_vertex`. -/
theorem remove_vertex_eq {g : Graph T} (hwf : WF g) (hI : I1 g) (u : T) :
    remove_vertex g u = .ok (clear_vertex g u) := by
  unfold remove_vertex
  have e1 := for_each_remove_edge (fun _ : T => u) (fun x : T => x) (successors g u) g hwf hI
  simp only at e1 ⊢
  rw [e1]
  simp only
  have hfold : ∀ (L : List T) (h : Graph T), WF h → I1 h →
      WF (L.foldl (fun h s => erase_pair h u s) h) ∧ I1 (L.foldl (fun h s => erase_pair h u s) h) := by
    intro L
    induction L with
    | nil => intro h h1 h2; exact ⟨h1, h2⟩
    | cons x xs ih =>
      intro h h1 h2
      exact ih _ (WF_erase_pair h1 _ _) (I1_erase_pair h1 h2 _ _)
  obtain ⟨hwf1, hI1⟩ := hfold (successors g u) g hwf hI
  have e2 := for_each_remove_edge (fun x : T => x) (fun _ : T => u) (predecessors g u) _ hwf1 hI1
  simp only at e2
  rw [e2]
  simp only
  rw [clear_vertex_fold hwf]

/-! ### Properties of `clear_vertex` -/

theorem map_find_clear_vertex (g : Graph T) (u x : T) :
    map_find (clear_vertex g u) x =
      if x = u then none else (map_find g x).map (set_erase u) := by
  unfold clear_vertex
  rw [map_find_map_entry, map_find_erase]
  split_ifs <;> rfl

theorem contains_clear_vertex (g : Graph T) (u x : T) :
    contains_vertex (clear_vertex g u) x = true ↔ contains_vertex g x = true ∧ x ≠ u := by
  unfold contains_vertex
  rw [map_find_clear_vertex]
  split_ifs with h
  · simp [h]
  · cases map_find g x <;> simp [h]

theorem edge_clear_vertex (g : Graph T) (u a b : T) :
    edge (clear_vertex g u) a b = true ↔ edge g a b = true ∧ a ≠ u ∧ b ≠ u := by
  rw [edge_iff, edge_iff, map_find_clear_vertex]
  split_ifs with h
  · simp [h]
  · cases map_find g a with
    | none => simp
    | some s => simp [mem_set_erase, h]

theorem keys_clear_vertex (g : Graph T) (u : T) :
    keys (clear_vertex g u) = (keys g).filter (fun k => decide (k ≠ u)) := by
  unfold clear_vertex
  rw [keys_map_entry]
  unfold keys map_erase
  rw [List.filter_map]
  rfl

theorem WF_map_erase {g : Graph T} (hwf : WF g) (u : T) : WF (map_erase g u) := by
  constructor
  · have h1 : (g.map Prod.fst).Sorted (fun a b => a < b) := hwf.1
    unfold keys map_erase
    rw [List.Sorted, List.pairwise_map] at h1 ⊢
    exact List.Pairwise.filter _ h1
  · intro kv hkv
    exact hwf.2 kv (mem_map_erase.mp hkv).1

theorem WF_clear_vertex {g : Graph T} (hwf : WF g) (u : T) : WF (clear_vertex g u) :=
  WF_map_entry (WF_map_erase hwf u) _ (fun _ _ hs => set_erase_sorted _ hs)

theorem I1_clear_vertex {g : Graph T} (hwf : WF g) (hI : I1 g) (u : T) :
    I1 (clear_vertex g u) := by
  apply I1_of_edges (WF_clear_vertex hwf u)
  intro a b hab
  obtain ⟨h1, _, h3⟩ := (edge_clear_vertex g u a b).mp hab
  exact (contains_clear_vertex g u b).mpr ⟨hI.edge_contains_right h1, h3⟩

theorem length_clear_vertex {g : Graph T} (hwf : WF g) {u : T}
    (hu : contains_vertex g u = true) : (clear_vertex g u).length + 1 = g.length := by
  unfold clear_vertex
  rw [length_map_entry]
  exact map_erase_length hwf.nodup_keys ((contains_vertex_iff g u).mp hu)

/-- Clearing a vertex that is not a key changes nothing (I1 keeps it out of every set). -/
theorem clear_vertex_of_not_contains {g : Graph T} (hI : I1 g) {u : T}
    (hu : contains_vertex g u = false) : clear_vertex g u = g := by
  unfold clear_vertex
  have hk : u ∉ g.map Prod.fst := by
    intro h
    rw [(contains_vertex_iff g u).mpr h] at hu
    exact Bool.noConfusion hu
  rw [map_erase_of_not_mem hk]
  apply map_entry_id
  intro kv hkv
  apply set_erase_of_not_mem
  intro hmem
  rw [hI kv hkv u hmem] at hu
  exact Bool.noConfusion hu

end RemoveVertex

section Insert
variable {T : Type} [LinearOrder T]

theorem insert_vertex_of_contains {g : Graph T} {u : T} (h : contains_vertex g u = true) :
    insert_vertex g u = g := by
  simp [insert_vertex, h]

theorem map_find_insert_vertex (g : Graph T) (u x : T) :
    map_find (insert_vertex g u) x =
      if x = u ∧ contains_vertex g u = false then some [] else map_find g x := by
  unfold insert_vertex
  by_cases h : contains_vertex g u = true
  · simp [h]
  · simp only [Bool.not_eq_true] at h
    have hn : map_find g u = none := by
      unfold contains_vertex at h
      cases hm : map_find g u with
      | none => rfl
      | some s => rw [hm] at h; exact Bool.noConfusion h
    simp only [h, Bool.not_false, if_true, and_true]
    exact map_find_insert g u [] x hn

theorem contains_insert_vertex (g : Graph T) (u x : T) :
    contains_vertex (insert_vertex g u) x = true ↔ contains_vertex g x = true ∨ x = u := by
  unfold contains_vertex
  rw [map_find_insert_vertex]
  split_ifs with h
  · simp [h.1]
  · constructor
    · exact Or.inl
    · rintro (h1 | rfl)
      · exact h1
      · by_cases hc : contains_vertex g x = true
        · exact hc
        · simp only [Bool.not_eq_true] at hc
          exact absurd ⟨rfl, hc⟩ h

theorem edge_insert_vertex (g : Graph T) (u a b : T) :
    edge (insert_vertex g u) a b = edge g a b := by
  unfold edge
  rw [map_find_insert_vertex]
  split_ifs with h
  · obtain ⟨rfl, h2⟩ := h
    unfold contains_vertex at h2
    cases hm : map_find g a with
    | none => simp
    | some s => rw [hm] at h2; exact Bool.noConfusion h2
  · rfl

theorem WF_insert_vertex {g : Graph T} (hwf : WF g) (u : T) : WF (insert_vertex g u) := by
  unfold insert_vertex
  split_ifs
  · refine ⟨map_insert_sorted g u [] hwf.1, ?_⟩
    intro kv hkv
    rcases mem_map_insert g u [] kv hkv with rfl | h
    · exact List.sorted_nil
    · exact hwf.2 kv h
  · exact hwf

theorem I1_insert_vertex {g : Graph T} (hwf : WF g) (hI : I1 g) (u : T) :
    I1 (insert_vertex g u) := by
  apply I1_of_edges (WF_insert_vertex hwf u)
  intro a b hab
  rw [edge_insert_vertex] at hab
  exact (contains_insert_vertex g u b).mpr (Or.inl (hI.edge_contains_right hab))

theorem length_insert_vertex (g : Graph T) (u : T) :
    (insert_vertex g u).length = if contains_vertex g u then g.length else g.length + 1 := by
  unfold insert_vertex
  by_cases h : contains_vertex g u = true
  · simp [h]
  · simp only [Bool.not_eq_true] at h
    simp only [h, Bool.not_false, if_true, Bool.false_eq_true, if_false]
    apply map_insert_length
    unfold contains_vertex at h
    cases hm : map_find g u with
    | none => rfl
    | some s => rw [hm] at h; exact Bool.noConfusion h

/-! ### `add_succ` -/

theorem WF_add_succ {g : Graph T} (hwf : WF g) (u v : T) : WF (add_succ g u v) := by
  apply WF_map_entry hwf
  intro k s hs
  split_ifs
  · exact set_insert_sorted v hs
  · exact hs

theorem contains_add_succ (g : Graph T) (u v a : T) :
    contains_vertex (add_succ g u v) a = contains_vertex g a :=
  contains_map_entry _ g a

theorem keys_add_succ (g : Graph T) (u v : T) : keys (add_succ g u v) = keys g :=
  keys_map_entry _ g

theorem length_add_succ (g : Graph T) (u v : T) : (add_succ g u v).length = g.length :=
  length_map_entry _ g

theorem edge_add_succ (g : Graph T) (u v a b : T) :
    edge (add_succ g u v) a b = true ↔
      edge g a b = true ∨ (a = u ∧ b = v ∧ contains_vertex g u = true) := by
  unfold add_succ
  rw [edge_map_entry, edge_iff]
  unfold contains_vertex
  constructor
  · rintro ⟨s, hs, hb⟩
    split_ifs at hb with h
    · rcases (mem_set_insert v b s).mp hb with rfl | hb
      · right; subst h; simp [hs]
      · exact Or.inl ⟨s, hs, hb⟩
    · exact Or.inl ⟨s, hs, hb⟩
  · rintro (⟨s, hs, hb⟩ | ⟨rfl, rfl, hc⟩)
    · refine ⟨s, hs, ?_⟩
      split_ifs
      · exact (mem_set_insert v b s).mpr (Or.inr hb)
      · exact hb
    · obtain ⟨s, hs⟩ := Option.isSome_iff_exists.mp hc
      refine ⟨s, hs, ?_⟩
      rw [if_pos rfl]
      exact (mem_set_insert b b s).mpr (Or.inl rfl)

theorem I1_add_succ {g : Graph T} (hwf : WF g) (hI : I1 g) {u v : T}
    (hv : contains_vertex g v = true) : I1 (add_succ g u v) := by
  apply I1_of_edges (WF_add_succ hwf u v)
  intro a b hab
  rw [contains_add_succ]
  rcases (edge_add_succ g u v a b).mp hab with h | ⟨_, rfl, _⟩
  · exact hI.edge_contains_right h
  · exact hv

theorem add_succ_of_edge {g : Graph T} (hwf : WF g) {u v : T} (h : edge g u v = true) :
    add_succ g u v = g := by
  apply map_entry_id
  intro kv hkv
  split_ifs with hk
  · obtain ⟨s, hs, hv⟩ := (edge_iff g u v).mp h
    rw [hwf.entry_eq hs hkv hk]
    exact set_insert_of_mem (hwf.2 (u, s) (map_find_mem hs)) hv
  · rfl

/-- Function `insert_edge` never faults: it adds the two vertices and then the successor. -/
theorem insert_edge_eq {g : Graph T} (hwf : WF g) (u v : T) :
    insert_edge g u v = .ok (add_succ (insert_vertex (insert_vertex g u) v) u v) := by
  unfold insert_edge
  have e1 : (if (!contains_vertex g u) = true then insert_vertex g u else g) = insert_vertex g u := by
    split_ifs with h
    · rfl
    · simp only [Bool.not_eq_true, Bool.not_eq_false'] at h
      exact (insert_vertex_of_contains h).symm
  have e2 : (if (!contains_vertex (insert_vertex g u) v) = true
      then insert_vertex (insert_vertex g u) v else insert_vertex g u)
        = insert_vertex (insert_vertex g u) v := by
    split_ifs with h
    · rfl
    · simp only [Bool.not_eq_true, Bool.not_eq_false'] at h
      exact (insert_vertex_of_contains h).symm
  by_cases hc : (!edge g u v || !edge g v u) = true
  · rw [if_pos hc]
    simp only [e1, e2]
    have hu : contains_vertex (insert_vertex (insert_vertex g u) v) u = true :=
      (contains_insert_vertex _ _ _).mpr
        (Or.inl ((contains_insert_vertex _ _ _).mpr (Or.inr rfl)))
    obtain ⟨s, hs⟩ := Option.isSome_iff_exists.mp hu
    have hwf2 : WF (insert_vertex (insert_vertex g u) v) :=
      WF_insert_vertex (WF_insert_vertex hwf u) v
    simp only [map_at, hs]
    rw [map_assign_eq _ hs]
    congr 1
    apply map_entry_congr
    intro kv hkv
    by_cases hk : kv.1 = u
    · simp only [hk, if_true]
      rw [hwf2.entry_eq hs hkv hk]
    · simp only [hk, if_false]
  · rw [if_neg hc]
    have h1 : edge g u v = true := by
      cases h : edge g u v with
      | true => rfl
      | false => rw [h] at hc; simp at hc
    have h2 : edge g v u = true := by
      cases h : edge g v u with
      | true => rfl
      | false => rw [h] at hc; simp at hc
    have hu : contains_vertex g u = true := edge_contains_left h1
    have hv : contains_vertex g v = true := edge_contains_left h2
    rw [insert_vertex_of_contains hu, insert_vertex_of_contains hv, add_succ_of_edge hwf h1]

end Insert

section Search
variable {T : Type} [LinearOrder T]

theorem first_true_ok {α : Type} (f : α → Except Fault Bool) (L : List α)
    (h : ∀ x ∈ L, ∃ b, f x = .ok b) :
    ∃ b, first_true f L = .ok b ∧ (b = true ↔ ∃ x ∈ L, f x = .ok true) := by
  induction L with
  | nil => exact ⟨false, rfl, by simp⟩
  | cons x xs ih =>
    obtain ⟨b, hb⟩ := h x (List.mem_cons_self _ _)
    cases b with
    | true =>
      refine ⟨true, ?_, ?_⟩
      · simp [first_true, hb]
      · simp only [true_iff]
        exact ⟨x, List.mem_cons_self _ _, hb⟩
    | false =>
      obtain ⟨b', hb', hiff⟩ := ih (fun y hy => h y (List.mem_cons_of_mem _ hy))
      refine ⟨b', ?_, ?_⟩
      · simp [first_true, hb, hb']
      · rw [hiff]
        constructor
        · rintro ⟨y, hy, hfy⟩
          exact ⟨y, List.mem_cons_of_mem _ hy, hfy⟩
        · rintro ⟨y, hy, hfy⟩
          rcases List.mem_cons.mp hy with rfl | hy
          · rw [hb] at hfy; cases hfy
          · exact ⟨y, hy, hfy⟩

theorem map_find_mark (vis : Visited T) (v x : T) :
    map_find (mark vis v) x =
      if x = v then (map_find vis x).map (fun _ => true) else map_find vis x := by
  unfold mark
  rw [map_find_map vis (fun k b => if k = v then true else b) x]
  split_ifs with h
  · rfl
  · cases map_find vis x <;> rfl

theorem map_assign_mark {vis : Visited T} {v : T} {b : Bool} (h : map_find vis v = some b) :
    map_assign vis v true = .ok (mark vis v) := by
  unfold map_assign mark
  rw [h]
  simp only
  congr 1
  apply List.map_congr_left
  intro kv _
  split_ifs with hk
  · rfl
  · rfl

theorem unmarked_mark_le (vis : Visited T) (v : T) : unmarked (mark vis v) ≤ unmarked vis := by
  unfold unmarked mark
  induction vis with
  | nil => simp
  | cons kv rest ih =>
    obtain ⟨k, b⟩ := kv
    simp only [List.map_cons, List.countP_cons]
    have : (if (!(if k = v then true else b)) = true then 1 else 0) ≤
        (if (!b) = true then 1 else 0) := by
      by_cases hk : k = v <;> cases b <;> simp [hk]
    omega

theorem unmarked_mark_lt {vis : Visited T} {v : T} (h : map_find vis v = some false) :
    unmarked (mark vis v) < unmarked vis := by
  induction vis with
  | nil => simp [map_find] at h
  | cons kv rest ih =>
    obtain ⟨k, b⟩ := kv
    unfold map_find at h
    have hle := unmarked_mark_le rest v
    unfold unmarked mark at ih hle ⊢
    simp only [List.map_cons, List.countP_cons]
    split_ifs at h with hk
    · cases h
      subst hk
      simp only [if_true, Bool.not_true, Bool.false_eq_true, if_false, Bool.not_false]
      omega
    · have := ih h
      have : (if (!(if k = v then true else b)) = true then 1 else 0) ≤
          (if (!b) = true then 1 else 0) := by
        by_cases hk : k = v <;> cases b <;> simp [hk]
      omega

theorem unmarked_init (g : Graph T) :
    unmarked (g.map (fun kv => (kv.1, false))) = g.length := by
  unfold unmarked
  induction g with
  | nil => rfl
  | cons kv rest ih => simp [List.countP_cons, ih]

theorem map_find_init (g : Graph T) (x : T) :
    map_find (g.map (fun kv => (kv.1, false))) x =
      if contains_vertex g x then some false else none := by
  unfold contains_vertex
  induction g with
  | nil => simp [map_find]
  | cons kv rest ih =>
    obtain ⟨k, s⟩ := kv
    simp only [List.map_cons, map_find]
    split_ifs with h1 h2 h2
    · rfl
    · simp at h2
    · rw [ih, if_pos h2]
    · rw [ih, if_neg h2]

theorem Avoid.mono {g : Graph T} {vis vis1 : Visited T}
    (h : ∀ y, map_find vis1 y = some false → map_find vis y = some false) {a b : T}
    (hab : Avoid g vis1 a b) : Avoid g vis a b :=
  Relation.ReflTransGen.mono (fun _ y hxy => ⟨hxy.1, h y hxy.2⟩) hab

theorem Avoid.reach {g : Graph T} {vis : Visited T} {a b : T} (hab : Avoid g vis a b) :
    Reach g a b :=
  Relation.ReflTransGen.mono (fun _ _ hxy => hxy.1) hab

/-- Path surgery: a path from `v` to `u ≠ v` leaves `v` for the last time through some
    successor, and from there on avoids `v`. -/
theorem Avoid.split {g : Graph T} {vis : Visited T} {u v : T} (huv : u ≠ v) {x : T}
    (hx : Avoid g vis x u) :
    (∃ s, edge g v s = true ∧ map_find (mark vis v) s = some false ∧ Avoid g (mark vis v) s u) ∨
      (x ≠ v ∧ Avoid g (mark vis v) x u) := by
  induction hx using Relation.ReflTransGen.head_induction_on with
  | refl => exact Or.inr ⟨huv, Relation.ReflTransGen.refl⟩
  | @head a c hxy _ ih =>
    rcases ih with hA | ⟨hcv, hc⟩
    · exact Or.inl hA
    · have hmc : map_find (mark vis v) c = some false := by
        rw [map_find_mark, if_neg hcv]; exact hxy.2
      by_cases hav : a = v
      · subst hav
        exact Or.inl ⟨c, hxy.1, hmc, hc⟩
      · exact Or.inr ⟨hav, Relation.ReflTransGen.head ⟨hxy.1, hmc⟩ hc⟩

end Search

section SearchSpec
variable {T : Type} [LinearOrder T]

theorem out_degree_pos_iff (g : Graph T) (u : T) :
    0 < out_degree g u ↔ ∃ s, edge g u s = true := by
  unfold out_degree
  rw [List.length_pos_iff_exists_mem]
  simp only [mem_successors]

/-- The search answers true exactly when `u` is already marked, or `u` can be reached from
    the unmarked `v` through unmarked vertices and has a successor from which the mark on
    `u` is then seen. -/
theorem apply_cyclic_spec {g : Graph T} (hI : I1 g) :
    ∀ (fuel : Nat) (vis : Visited T) (u v : T),
      (∀ x, contains_vertex g x = true → (map_find vis x).isSome = true) →
      contains_vertex g u = true → contains_vertex g v = true →
      unmarked vis < fuel →
      ∃ b, apply_cyclic g fuel u v vis = .ok b ∧
        (b = true ↔ map_find vis u = some true ∨
          (map_find vis u = some false ∧ map_find vis v = some false ∧
            Avoid g vis v u ∧ 0 < out_degree g u)) := by
  intro fuel
  induction fuel with
  | zero => intro vis u v _ _ _ h; exact absurd h (Nat.not_lt_zero _)
  | succ fuel ih =>
    intro vis u v hdom hu hv hfuel
    obtain ⟨bu, hbu⟩ := Option.isSome_iff_exists.mp (hdom u hu)
    obtain ⟨bv, hbv⟩ := Option.isSome_iff_exists.mp (hdom v hv)
    unfold apply_cyclic
    simp only [map_at, hbu]
    cases bu with
    | true => exact ⟨true, rfl, by simp⟩
    | false =>
      simp only [hbv]
      cases bv with
      | true => exact ⟨false, rfl, by simp⟩
      | false =>
        simp only [map_assign_mark hbv]
        have hdom1 : ∀ x, contains_vertex g x = true → (map_find (mark vis v) x).isSome = true := by
          intro x hx
          rw [map_find_mark]
          have := hdom x hx
          split_ifs
          · cases hm : map_find vis x with
            | none => rw [hm] at this; exact this
            | some _ => rfl
          · exact this
        have hfuel1 : unmarked (mark vis v) < fuel :=
          Nat.lt_of_lt_of_le (unmarked_mark_lt hbv) (Nat.lt_succ_iff.mp hfuel)
        have hrec : ∀ s ∈ successors g v, ∃ b, apply_cyclic g fuel u s (mark vis v) = .ok b ∧
            (b = true ↔ map_find (mark vis v) u = some true ∨
              (map_find (mark vis v) u = some false ∧ map_find (mark vis v) s = some false ∧
                Avoid g (mark vis v) s u ∧ 0 < out_degree g u)) := by
          intro s hs
          exact ih (mark vis v) u s hdom1 hu
            (hI.edge_contains_right ((mem_successors g v s).mp hs)) hfuel1
        obtain ⟨b, hb, hiff⟩ := first_true_ok (fun i => apply_cyclic g fuel u i (mark vis v))
          (successors g v) (fun s hs => ⟨_, (hrec s hs).choose_spec.1⟩)
        refine ⟨b, hb, ?_⟩
        rw [hiff]
        have hmono : ∀ y, map_find (mark vis v) y = some false → map_find vis y = some false := by
          intro y hy
          rw [map_find_mark] at hy
          split_ifs at hy with hyv
          · cases hm : map_find vis y <;> rw [hm] at hy <;> simp at hy
          · exact hy
        constructor
        · rintro ⟨s, hs, hst⟩
          right
          obtain ⟨b', hb', hiff'⟩ := hrec s hs
          rw [hst] at hb'
          have hb't : b' = true := by cases hb'; rfl
          have hsv : edge g v s = true := (mem_successors g v s).mp hs
          refine ⟨trivial, trivial, ?_, ?_⟩
          · rcases hiff'.mp hb't with h1 | ⟨_, h2, h3, _⟩
            · rw [map_find_mark] at h1
              split_ifs at h1 with huv
              · rw [huv]; exact Relation.ReflTransGen.refl
              · rw [hbu] at h1; cases h1
            · exact Relation.ReflTransGen.head ⟨hsv, hmono s h2⟩ (Avoid.mono hmono h3)
          · rcases hiff'.mp hb't with h1 | ⟨_, _, _, h4⟩
            · rw [map_find_mark] at h1
              split_ifs at h1 with huv
              · rw [huv]; exact (out_degree_pos_iff g v).mpr ⟨s, hsv⟩
              · rw [hbu] at h1; cases h1
            · exact h4
        · rintro (h | ⟨_, _, hav, hdeg⟩)
          · cases h
          · by_cases huv : u = v
            · subst huv
              obtain ⟨s, hs⟩ := (out_degree_pos_iff g u).mp hdeg
              have hs' : s ∈ successors g u := (mem_successors g u s).mpr hs
              obtain ⟨b', hb', hiff'⟩ := hrec s hs'
              have : b' = true := by
                apply hiff'.mpr
                left
                rw [map_find_mark, if_pos rfl, hbu]; rfl
              subst this
              exact ⟨s, hs', hb'⟩
            · rcases Avoid.split huv hav with ⟨s, hs1, hs2, hs3⟩ | ⟨hne, _⟩
              · have hs' : s ∈ successors g v := (mem_successors g v s).mpr hs1
                obtain ⟨b', hb', hiff'⟩ := hrec s hs'
                have : b' = true := by
                  apply hiff'.mpr
                  right
                  refine ⟨?_, hs2, hs3, hdeg⟩
                  rw [map_find_mark, if_neg huv]; exact hbu
                subst this
                exact ⟨s, hs', hb'⟩
              · exact absurd rfl hne

theorem Avoid_init_iff {g : Graph T} (hI : I1 g) (a b : T) :
    Avoid g (g.map (fun kv => (kv.1, false))) a b ↔ Reach g a b := by
  constructor
  · exact Avoid.reach
  · intro h
    refine Relation.ReflTransGen.mono (fun x y hxy => ⟨hxy, ?_⟩) h
    rw [map_find_init, hI.edge_contains_right hxy]
    rfl

/-- Function `cyclic(u, v)` on two keys returns, and answers true exactly when `u` is reachable
    from `v` and `u` has a successor. -/
theorem cyclic_spec {g : Graph T} (hI : I1 g) {u v : T}
    (hu : contains_vertex g u = true) (hv : contains_vertex g v = true) :
    ∃ b, cyclic g u v = .ok b ∧ (b = true ↔ Reach g v u ∧ 0 < out_degree g u) := by
  unfold cyclic
  obtain ⟨b, hb, hiff⟩ := apply_cyclic_spec hI (num_vertices g + 1)
    (g.map (fun kv => (kv.1, false))) u v
    (fun x hx => by rw [map_find_init, hx]; rfl) hu hv
    (by rw [unmarked_init]; exact Nat.lt_succ_self _)
  refine ⟨b, hb, ?_⟩
  rw [hiff, map_find_init, map_find_init, hu, hv, Avoid_init_iff hI]
  simp

theorem acyclic_spec {g : Graph T} (hI : I1 g) {u v : T}
    (hu : contains_vertex g u = true) (hv : contains_vertex g v = true) :
    ∃ b, acyclic g u v = .ok b ∧ (b = true ↔ ¬(Reach g v u ∧ 0 < out_degree g u)) := by
  obtain ⟨c, hc, hiff⟩ := cyclic_spec hI hu hv
  unfold acyclic
  rw [hc]
  cases c with
  | true => exact ⟨false, rfl, by simp only [Bool.false_eq_true, false_iff, not_not]; exact hiff.mp rfl⟩
  | false =>
    refine ⟨true, rfl, ?_⟩
    simp only [true_iff]
    intro h
    have := hiff.mpr h
    cases this

end SearchSpec

section Basic
variable {T : Type} [LinearOrder T]

theorem basic_reduction_apply2_eq {g : Graph T} (hwf : WF g) (hI : I1 g) (u : T) :
    basic_reduction_apply2 g u =
      if (loop g u || sink g u) = true then .ok (true, clear_vertex g u) else .ok (false, g) := by
  unfold basic_reduction_apply2
  rw [remove_vertex_eq hwf hI]

theorem BasicStep_spec {g g1 : Graph T} (hwf : WF g) (hI : I1 g) (h : BasicStep g g1) :
    WF g1 ∧ I1 g1 ∧ g1.length + 1 = g.length := by
  obtain ⟨u, hu, hstep⟩ := h
  rw [basic_reduction_apply2_eq hwf hI] at hstep
  split_ifs at hstep with hls
  · cases hstep
    exact ⟨WF_clear_vertex hwf u, I1_clear_vertex hwf hI u, length_clear_vertex hwf hu⟩
  · cases hstep

theorem mem_keys_of_mem {g : Graph T} {kv : T × List T} (h : kv ∈ g) :
    contains_vertex g kv.1 = true :=
  (contains_vertex_iff g kv.1).mpr (List.mem_map_of_mem Prod.fst h)

theorem exists_mem_of_contains {g : Graph T} {u : T} (h : contains_vertex g u = true) :
    ∃ kv ∈ g, kv.1 = u := by
  have := (contains_vertex_iff g u).mp h
  obtain ⟨kv, hkv, rfl⟩ := List.mem_map.mp this
  exact ⟨kv, hkv, rfl⟩

/-- A scan that is known to succeed returns a key that satisfies the test. -/
theorem find_of_any {g : Graph T} {p : T × List T → Bool} (h : g.any p = true) :
    ∃ kv, g.find? p = some kv ∧ kv ∈ g ∧ p kv = true := by
  cases hf : g.find? p with
  | none =>
    rw [List.find?_eq_none] at hf
    obtain ⟨x, hx, hpx⟩ := List.any_eq_true.mp h
    exact absurd hpx (hf x hx)
  | some kv => exact ⟨kv, rfl, List.mem_of_find?_eq_some hf, List.find?_some hf⟩

/-- The self re-entrant driver of the basic reduction, with enough budget. -/
theorem basic_reduction_apply_spec :
    ∀ (fuel : Nat) (g : Graph T) (u : T), WF g → I1 g → contains_vertex g u = true →
      g.length + (if (loop g u || sink g u) = true then 0 else 1) ≤ fuel →
      ∃ b g1, basic_reduction_apply fuel g u = .ok (b, g1) ∧ WF g1 ∧ I1 g1 ∧
        loop_sink_exists g1 = false ∧ Relation.ReflTransGen BasicStep g g1 ∧
        ((loop g u || sink g u) = true → b = true) ∧
        (b = true → Relation.TransGen BasicStep g g1) ∧ (b = false → g1 = g) := by
  intro fuel
  induction fuel with
  | zero =>
    intro g u _ _ hu hfuel
    obtain ⟨kv, hkv, _⟩ := exists_mem_of_contains hu
    have : 0 < g.length := List.length_pos_of_mem hkv
    omega
  | succ fuel ih =>
    intro g u hwf hI hu hfuel
    unfold basic_reduction_apply
    rw [basic_reduction_apply2_eq hwf hI]
    by_cases hls : (loop g u || sink g u) = true
    · rw [if_pos hls] at hfuel ⊢
      simp only
      have hstep : BasicStep g (clear_vertex g u) :=
        ⟨u, hu, by rw [basic_reduction_apply2_eq hwf hI, if_pos hls]⟩
      obtain ⟨hwf1, hI1, hlen⟩ := BasicStep_spec hwf hI hstep
      by_cases hex : loop_sink_exists (clear_vertex g u) = true
      · rw [if_pos hex]
        obtain ⟨kv, hfind, hmem, hp⟩ := find_of_any hex
        rw [hfind]
        simp only at hp ⊢
        obtain ⟨b, g2, hres, hwf2, hI2, hno, hsteps, hb, _, _⟩ :=
          ih (clear_vertex g u) kv.1 hwf1 hI1 (mem_keys_of_mem hmem)
            (by rw [if_pos hp]; omega)
        have hbt : b = true := hb hp
        subst hbt
        exact ⟨true, g2, hres, hwf2, hI2, hno, Relation.ReflTransGen.head hstep hsteps,
          fun _ => rfl, fun _ => Relation.TransGen.head' hstep hsteps,
          fun h => Bool.noConfusion h⟩
      · rw [if_neg hex]
        simp only [Bool.not_eq_true] at hex
        exact ⟨true, _, rfl, hwf1, hI1, hex, Relation.ReflTransGen.single hstep,
          fun _ => rfl, fun _ => Relation.TransGen.single hstep, fun h => Bool.noConfusion h⟩
    · rw [if_neg hls] at hfuel ⊢
      simp only
      by_cases hex : loop_sink_exists g = true
      · rw [if_pos hex]
        obtain ⟨kv, hfind, hmem, hp⟩ := find_of_any hex
        rw [hfind]
        simp only at hp ⊢
        obtain ⟨b, g2, hres, hwf2, hI2, hno, hsteps, hb, hbt, _⟩ :=
          ih g kv.1 hwf hI (mem_keys_of_mem hmem) (by rw [if_pos hp]; omega)
        have hbt' : b = true := hb hp
        subst hbt'
        exact ⟨true, g2, hres, hwf2, hI2, hno, hsteps, fun _ => rfl, fun _ => hbt rfl,
          fun h => Bool.noConfusion h⟩
      · rw [if_neg hex]
        simp only [Bool.not_eq_true] at hex
        exact ⟨false, g, rfl, hwf, hI, hex, Relation.ReflTransGen.refl,
          fun h => absurd h hls, fun h => Bool.noConfusion h, fun _ => rfl⟩

theorem BasicStep_steps_length {g g1 : Graph T} (hwf : WF g) (hI : I1 g)
    (h : Relation.ReflTransGen BasicStep g g1) : WF g1 ∧ I1 g1 ∧ g1.length ≤ g.length := by
  induction h with
  | refl => exact ⟨hwf, hI, le_refl _⟩
  | tail _ hstep ih =>
    obtain ⟨h1, h2, h3⟩ := ih
    obtain ⟨h4, h5, h6⟩ := BasicStep_spec h1 h2 hstep
    exact ⟨h4, h5, by omega⟩

theorem BasicStep_trans_length {g g1 : Graph T} (hwf : WF g) (hI : I1 g)
    (h : Relation.TransGen BasicStep g g1) : g1.length < g.length := by
  obtain ⟨g0, hsteps, hstep⟩ := Relation.TransGen.tail'_iff.mp h
  obtain ⟨h1, h2, h3⟩ := BasicStep_steps_length hwf hI hsteps
  obtain ⟨_, _, h6⟩ := BasicStep_spec h1 h2 hstep
  omega

theorem basic_reduction_spec {g : Graph T} (hwf : WF g) (hI : I1 g) (hne : g ≠ []) :
    ∃ b g1, basic_reduction g = .ok (b, g1) ∧ WF g1 ∧ I1 g1 ∧
      loop_sink_exists g1 = false ∧ Relation.ReflTransGen BasicStep g g1 ∧
      (b = true → Relation.TransGen BasicStep g g1) ∧ (b = false → g1 = g) := by
  cases g with
  | nil => exact absurd rfl hne
  | cons kv rest =>
    obtain ⟨k, s⟩ := kv
    have hk : contains_vertex ((k, s) :: rest) k = true :=
      mem_keys_of_mem (List.mem_cons_self (k, s) rest)
    obtain ⟨b, g1, h1, h2, h3, h4, h5, _, h7, h8⟩ :=
      basic_reduction_apply_spec (num_vertices ((k, s) :: rest) + 1) ((k, s) :: rest) k hwf hI hk
        (by unfold num_vertices; split_ifs <;> omega)
    exact ⟨b, g1, h1, h2, h3, h4, h5, h7, h8⟩

end Basic

section Intermediate
variable {T : Type} [LinearOrder T]

theorem insert_edge_of_contains {g : Graph T} (hwf : WF g) {u v : T}
    (hu : contains_vertex g u = true) (hv : contains_vertex g v = true) :
    insert_edge g u v = .ok (add_succ g u v) := by
  rw [insert_edge_eq hwf, insert_vertex_of_contains hu, insert_vertex_of_contains hv]

theorem contains_of_keys_eq {g h : Graph T} (hk : keys h = keys g) (x : T) :
    contains_vertex h x = contains_vertex g x := by
  have h1 := contains_vertex_iff h x
  have h2 := contains_vertex_iff g x
  rw [hk] at h1
  cases hh : contains_vertex h x <;> cases hg : contains_vertex g x <;> simp_all

theorem foldl_add_succ_spec {α : Type} (a b : α → T) (g : Graph T) (L : List α)
    (hL : ∀ x ∈ L, contains_vertex g (a x) = true ∧ contains_vertex g (b x) = true) :
    ∀ h : Graph T, WF h → I1 h → keys h = keys g →
      for_each (fun h x => insert_edge h (a x) (b x)) L h =
          .ok (L.foldl (fun h x => add_succ h (a x) (b x)) h) ∧
        WF (L.foldl (fun h x => add_succ h (a x) (b x)) h) ∧
        I1 (L.foldl (fun h x => add_succ h (a x) (b x)) h) ∧
        keys (L.foldl (fun h x => add_succ h (a x) (b x)) h) = keys g := by
  induction L with
  | nil => intro h h1 h2 h3; exact ⟨rfl, h1, h2, h3⟩
  | cons x xs ih =>
    intro h h1 h2 h3
    obtain ⟨hax, hbx⟩ := hL x (List.mem_cons_self _ _)
    have hax' : contains_vertex h (a x) = true := by rw [contains_of_keys_eq h3]; exact hax
    have hbx' : contains_vertex h (b x) = true := by rw [contains_of_keys_eq h3]; exact hbx
    obtain ⟨e1, e2, e3, e4⟩ := ih (fun y hy => hL y (List.mem_cons_of_mem _ hy))
      (add_succ h (a x) (b x)) (WF_add_succ h1 _ _) (I1_add_succ h1 h2 hbx')
      (by rw [keys_add_succ]; exact h3)
    refine ⟨?_, e2, e3, e4⟩
    simp only [for_each, List.foldl_cons]
    rw [insert_edge_of_contains h1 hax' hbx']
    exact e1

/-- The rewiring loops never fault and keep the graph well formed with the same keys. -/
theorem rewire_spec {g : Graph T} (hwf : WF g) (hI : I1 g) (u : T) :
    intermediate_rewire g u = .ok (rewire g u) ∧
    WF (rewire g u) ∧ I1 (rewire g u) ∧ keys (rewire g u) = keys g := by
  unfold intermediate_rewire
  unfold rewire
  simp only
  have hs : ∀ x ∈ successors g u, contains_vertex g x = true := fun x hx =>
    hI.edge_contains_right ((mem_successors g u x).mp hx)
  have hp : ∀ x ∈ predecessors g u, contains_vertex g x = true := fun x hx =>
    edge_contains_left ((mem_predecessors hwf u x).mp hx)
  by_cases c1 : (successors g u).length = 1 ∧ (predecessors g u).length > 0
  · rw [if_pos c1, if_pos c1]
    cases hsu : successors g u with
    | nil => exact ⟨rfl, hwf, hI, rfl⟩
    | cons r rest =>
      simp only
      have hr : contains_vertex g r = true := hs r (by rw [hsu]; exact List.mem_cons_self _ _)
      exact foldl_add_succ_spec (fun k : T => k) (fun _ : T => r) g (predecessors g u)
        (fun x hx => ⟨hp x hx, hr⟩) g hwf hI rfl
  · rw [if_neg c1, if_neg c1]
    by_cases c2 : (predecessors g u).length = 1 ∧ (successors g u).length > 0
    · rw [if_pos c2, if_pos c2]
      cases hpu : predecessors g u with
      | nil => exact ⟨rfl, hwf, hI, rfl⟩
      | cons r rest =>
        simp only
        have hr : contains_vertex g r = true := hp r (by rw [hpu]; exact List.mem_cons_self _ _)
        exact foldl_add_succ_spec (fun _ : T => r) (fun k : T => k) g (successors g u)
          (fun x hx => ⟨hr, hs x hx⟩) g hwf hI rfl
    · rw [if_neg c2, if_neg c2]
      exact ⟨rfl, hwf, hI, rfl⟩

theorem apply_intermediate_reduction2_eq {g : Graph T} (hwf : WF g) (hI : I1 g) (u : T) :
    apply_intermediate_reduction2 g u =
      if (bypass g u && !loop g u) = true then .ok (true, clear_vertex (rewire g u) u)
      else .ok (false, g) := by
  unfold apply_intermediate_reduction2
  obtain ⟨e1, e2, e3, _⟩ := rewire_spec hwf hI u
  rw [e1]
  simp only
  rw [remove_vertex_eq e2 e3]

theorem IntermediateStep_spec {g g1 : Graph T} (hwf : WF g) (hI : I1 g)
    (h : IntermediateStep g g1) : WF g1 ∧ I1 g1 ∧ g1.length + 1 = g.length := by
  obtain ⟨u, hu, hstep⟩ := h
  rw [apply_intermediate_reduction2_eq hwf hI] at hstep
  obtain ⟨_, e2, e3, e4⟩ := rewire_spec hwf hI u
  split_ifs at hstep with hls
  · cases hstep
    have hu' : contains_vertex (rewire g u) u = true := by
      rw [contains_of_keys_eq e4]; exact hu
    have hlen : (rewire g u).length = g.length := by
      have := congrArg List.length e4
      simpa [keys] using this
    exact ⟨WF_clear_vertex e2 u, I1_clear_vertex e2 e3 u,
      by rw [← hlen]; exact length_clear_vertex e2 hu'⟩
  · cases hstep

/-- The self re-entrant driver of the intermediate reduction, with enough budget. -/
theorem apply_intermediate_reduction_spec :
    ∀ (fuel : Nat) (g : Graph T) (u : T), WF g → I1 g → contains_vertex g u = true →
      g.length + (if (bypass g u && !loop g u) = true then 0 else 1) ≤ fuel →
      ∃ b g1, apply_intermediate_reduction fuel g u = .ok (b, g1) ∧ WF g1 ∧ I1 g1 ∧
        bypass_exists g1 = false ∧ Relation.ReflTransGen IntermediateStep g g1 ∧
        ((bypass g u && !loop g u) = true → b = true) ∧
        (b = true → Relation.TransGen IntermediateStep g g1) ∧ (b = false → g1 = g) := by
  intro fuel
  induction fuel with
  | zero =>
    intro g u _ _ hu hfuel
    obtain ⟨kv, hkv, _⟩ := exists_mem_of_contains hu
    have : 0 < g.length := List.length_pos_of_mem hkv
    omega
  | succ fuel ih =>
    intro g u hwf hI hu hfuel
    unfold apply_intermediate_reduction
    rw [apply_intermediate_reduction2_eq hwf hI]
    by_cases hls : (bypass g u && !loop g u) = true
    · rw [if_pos hls] at hfuel ⊢
      simp only
      have hstep : IntermediateStep g (clear_vertex (rewire g u) u) :=
        ⟨u, hu, by rw [apply_intermediate_reduction2_eq hwf hI, if_pos hls]⟩
      obtain ⟨hwf1, hI1, hlen⟩ := IntermediateStep_spec hwf hI hstep
      by_cases hex : bypass_exists (clear_vertex (rewire g u) u) = true
      · rw [if_pos hex]
        obtain ⟨kv, hfind, hmem, hp⟩ := find_of_any hex
        rw [hfind]
        simp only at hp ⊢
        obtain ⟨b, g2, hres, hwf2, hI2, hno, hsteps, hb, _, _⟩ :=
          ih (clear_vertex (rewire g u) u) kv.1 hwf1 hI1 (mem_keys_of_mem hmem)
            (by rw [if_pos hp]; omega)
        have hbt : b = true := hb hp
        subst hbt
        exact ⟨true, g2, hres, hwf2, hI2, hno, Relation.ReflTransGen.head hstep hsteps,
          fun _ => rfl, fun _ => Relation.TransGen.head' hstep hsteps,
          fun h => Bool.noConfusion h⟩
      · rw [if_neg hex]
        simp only [Bool.not_eq_true] at hex
        exact ⟨true, _, rfl, hwf1, hI1, hex, Relation.ReflTransGen.single hstep,
          fun _ => rfl, fun _ => Relation.TransGen.single hstep, fun h => Bool.noConfusion h⟩
    · rw [if_neg hls] at hfuel ⊢
      simp only
      by_cases hex : bypass_exists g = true
      · rw [if_pos hex]
        obtain ⟨kv, hfind, hmem, hp⟩ := find_of_any hex
        rw [hfind]
        simp only at hp ⊢
        obtain ⟨b, g2, hres, hwf2, hI2, hno, hsteps, hb, hbt, _⟩ :=
          ih g kv.1 hwf hI (mem_keys_of_mem hmem) (by rw [if_pos hp]; omega)
        have hbt' : b = true := hb hp
        subst hbt'
        exact ⟨true, g2, hres, hwf2, hI2, hno, hsteps, fun _ => rfl, fun _ => hbt rfl,
          fun h => Bool.noConfusion h⟩
      · rw [if_neg hex]
        simp only [Bool.not_eq_true] at hex
        exact ⟨false, g, rfl, hwf, hI, hex, Relation.ReflTransGen.refl,
          fun h => absurd h hls, fun h => Bool.noConfusion h, fun _ => rfl⟩

theorem IntermediateStep_steps_length {g g1 : Graph T} (hwf : WF g) (hI : I1 g)
    (h : Relation.ReflTransGen IntermediateStep g g1) :
    WF g1 ∧ I1 g1 ∧ g1.length ≤ g.length := by
  induction h with
  | refl => exact ⟨hwf, hI, le_refl _⟩
  | tail _ hstep ih =>
    obtain ⟨h1, h2, h3⟩ := ih
    obtain ⟨h4, h5, h6⟩ := IntermediateStep_spec h1 h2 hstep
    exact ⟨h4, h5, by omega⟩

theorem IntermediateStep_trans_length {g g1 : Graph T} (hwf : WF g) (hI : I1 g)
    (h : Relation.TransGen IntermediateStep g g1) : g1.length < g.length := by
  obtain ⟨g0, hsteps, hstep⟩ := Relation.TransGen.tail'_iff.mp h
  obtain ⟨h1, h2, h3⟩ := IntermediateStep_steps_length hwf hI hsteps
  obtain ⟨_, _, h6⟩ := IntermediateStep_spec h1 h2 hstep
  omega

theorem intermediate_reduction_spec {g : Graph T} (hwf : WF g) (hI : I1 g) (hne : g ≠ []) :
    ∃ b g1, intermediate_reduction g = .ok (b, g1) ∧ WF g1 ∧ I1 g1 ∧
      bypass_exists g1 = false ∧ Relation.ReflTransGen IntermediateStep g g1 ∧
      (b = true → Relation.TransGen IntermediateStep g g1) ∧ (b = false → g1 = g) := by
  cases g with
  | nil => exact absurd rfl hne
  | cons kv rest =>
    obtain ⟨k, s⟩ := kv
    have hk : contains_vertex ((k, s) :: rest) k = true :=
      mem_keys_of_mem (List.mem_cons_self (k, s) rest)
    obtain ⟨b, g1, h1, h2, h3, h4, h5, _, h7, h8⟩ :=
      apply_intermediate_reduction_spec (num_vertices ((k, s) :: rest) + 1) ((k, s) :: rest) k
        hwf hI hk (by unfold num_vertices; split_ifs <;> omega)
    exact ⟨b, g1, h1, h2, h3, h4, h5, h7, h8⟩

end Intermediate

section Advanced
variable {T : Type} [LinearOrder T]

theorem num_edges_cons (kv : T × List T) (g : Graph T) :
    num_edges (kv :: g) = kv.2.length + num_edges g := by
  simp [num_edges]

theorem num_edges_map_entry_le (f : T → List T → List T)
    (hf : ∀ k s, (f k s).length ≤ s.length) (g : Graph T) :
    num_edges (map_entry f g) ≤ num_edges g := by
  induction g with
  | nil => simp [map_entry, num_edges]
  | cons kv rest ih =>
    have : map_entry f (kv :: rest) = (kv.1, f kv.1 kv.2) :: map_entry f rest := rfl
    rw [this, num_edges_cons, num_edges_cons]
    have := hf kv.1 kv.2
    simp only
    omega

theorem num_edges_map_entry_lt (f : T → List T → List T)
    (hf : ∀ k s, (f k s).length ≤ s.length) {g : Graph T} {kv : T × List T} (hkv : kv ∈ g)
    (hlt : (f kv.1 kv.2).length < kv.2.length) :
    num_edges (map_entry f g) < num_edges g := by
  induction g with
  | nil => simp at hkv
  | cons e rest ih =>
    have : map_entry f (e :: rest) = (e.1, f e.1 e.2) :: map_entry f rest := rfl
    rw [this, num_edges_cons, num_edges_cons]
    simp only
    rcases List.mem_cons.mp hkv with rfl | hmem
    · have := num_edges_map_entry_le f hf rest
      omega
    · have := ih hmem
      have := hf e.1 e.2
      omega

theorem num_edges_erase_pair_lt {g : Graph T} {u v : T} (h : edge g u v = true) :
    num_edges (erase_pair g u v) < num_edges g := by
  obtain ⟨s, hs, hv⟩ := (edge_iff g u v).mp h
  have hf : ∀ (k : T) (t : List T),
      ((if k = v then set_erase u else id) ((if k = u then set_erase v else id) t)).length
        ≤ t.length := by
    intro k t
    split_ifs
    · exact le_trans (set_erase_length_le _ _) (set_erase_length_le _ _)
    · exact set_erase_length_le _ _
    · exact set_erase_length_le _ _
    · exact le_refl _
  apply num_edges_map_entry_lt _ hf (map_find_mem hs)
  simp only [if_true]
  split_ifs
  · exact lt_of_le_of_lt (set_erase_length_le _ _) (set_erase_length_lt hv)
  · exact set_erase_length_lt hv

theorem apply_advanced_reduction2_scan_spec {g : Graph T} (hwf : WF g) (hI : I1 g) {u : T} :
    ∀ L : List T, (∀ k ∈ L, edge g u k = true) →
      ∃ b g1, apply_advanced_reduction2_scan g u L = .ok (b, g1) ∧
        (b = true ↔ ∃ k ∈ L, acyclic g u k = .ok true) ∧
        (b = true → ∃ k ∈ L, acyclic g u k = .ok true ∧ g1 = erase_pair g u k) ∧
        (b = false → g1 = g) := by
  intro L
  induction L with
  | nil =>
    intro _
    exact ⟨false, g, rfl, by simp, fun h => Bool.noConfusion h, fun _ => rfl⟩
  | cons k ks ih =>
    intro hL
    have hk : edge g u k = true := hL k (List.mem_cons_self _ _)
    obtain ⟨a, ha, _⟩ := acyclic_spec hI (edge_contains_left hk) (hI.edge_contains_right hk)
    unfold apply_advanced_reduction2_scan
    rw [ha]
    cases a with
    | true =>
      simp only
      rw [remove_edge_ok hwf hI]
      exact ⟨true, _, rfl, by simp [ha], fun _ => ⟨k, List.mem_cons_self _ _, ha, rfl⟩,
        fun h => Bool.noConfusion h⟩
    | false =>
      simp only
      obtain ⟨b, g1, h1, h2, h3, h4⟩ := ih (fun x hx => hL x (List.mem_cons_of_mem _ hx))
      refine ⟨b, g1, h1, ?_, ?_, h4⟩
      · rw [h2]
        constructor
        · rintro ⟨x, hx, hax⟩
          exact ⟨x, List.mem_cons_of_mem _ hx, hax⟩
        · rintro ⟨x, hx, hax⟩
          rcases List.mem_cons.mp hx with rfl | hx
          · rw [ha] at hax; cases hax
          · exact ⟨x, hx, hax⟩
      · intro hb
        obtain ⟨x, hx, hax⟩ := h3 hb
        exact ⟨x, List.mem_cons_of_mem _ hx, hax⟩

/-- The test performed for one key by `acyclic_vertex` and by `acyclic_exists`. -/
theorem acyclic_scan_spec {g : Graph T} (hI : I1 g) {u : T} (hu : contains_vertex g u = true) :
    ∃ b, acyclic_edge_scan g u = .ok b ∧
      (b = true ↔ ∃ k, edge g u k = true ∧ acyclic g u k = .ok true) := by
  obtain ⟨s, hs⟩ := Option.isSome_iff_exists.mp hu
  unfold acyclic_edge_scan
  simp only [map_at, hs]
  have hmem : ∀ k, k ∈ s ↔ edge g u k = true := by
    intro k
    rw [edge_iff]
    constructor
    · intro h; exact ⟨s, hs, h⟩
    · rintro ⟨t, ht, h⟩
      rw [hs] at ht; cases ht; exact h
  obtain ⟨b, hb, hiff⟩ := first_true_ok (fun k => acyclic g u k) s (fun k hk => by
    have hk' := (hmem k).mp hk
    obtain ⟨a, ha, _⟩ := acyclic_spec hI hu (hI.edge_contains_right hk')
    exact ⟨a, ha⟩)
  refine ⟨b, hb, ?_⟩
  rw [hiff]
  constructor
  · rintro ⟨k, hk, h⟩; exact ⟨k, (hmem k).mp hk, h⟩
  · rintro ⟨k, hk, h⟩; exact ⟨k, (hmem k).mpr hk, h⟩

theorem acyclic_vertex_spec {g : Graph T} (hI : I1 g) {u : T}
    (hu : contains_vertex g u = true) :
    ∃ b, acyclic_vertex g u = .ok b ∧
      (b = true ↔ ∃ k, edge g u k = true ∧ acyclic g u k = .ok true) := by
  unfold acyclic_vertex
  by_cases hd : out_degree g u ≠ 0
  · rw [if_pos hd]
    exact acyclic_scan_spec hI hu
  · rw [if_neg hd]
    refine ⟨false, rfl, ?_⟩
    simp only [Bool.false_eq_true, false_iff, not_exists, not_and]
    intro k hk
    have := (out_degree_pos_iff g u).mpr ⟨k, hk⟩
    simp only [ne_eq, not_not] at hd
    omega

theorem acyclic_exists_spec {g : Graph T} (hI : I1 g) :
    ∃ b, acyclic_exists g = .ok b ∧
      (b = true ↔ ∃ u k, edge g u k = true ∧ acyclic g u k = .ok true) := by
  unfold acyclic_exists
  obtain ⟨b, hb, hiff⟩ := first_true_ok
    (fun kv : T × List T => acyclic_edge_scan g kv.1) g
    (fun kv hkv => by
      obtain ⟨a, ha, _⟩ := acyclic_scan_spec hI (mem_keys_of_mem hkv)
      exact ⟨a, ha⟩)
  refine ⟨b, hb, ?_⟩
  rw [hiff]
  constructor
  · rintro ⟨kv, hkv, h⟩
    obtain ⟨a, ha, haiff⟩ := acyclic_scan_spec hI (mem_keys_of_mem hkv)
    rw [ha] at h
    cases h
    obtain ⟨k, hk⟩ := haiff.mp rfl
    exact ⟨kv.1, k, hk⟩
  · rintro ⟨u, k, hk, hak⟩
    obtain ⟨kv, hkv, rfl⟩ := exists_mem_of_contains (edge_contains_left hk)
    obtain ⟨a, ha, haiff⟩ := acyclic_scan_spec hI (mem_keys_of_mem hkv)
    refine ⟨kv, hkv, ?_⟩
    rw [ha, haiff.mpr ⟨k, hk, hak⟩]

theorem first_acyclic_vertex_spec {g : Graph T} (hI : I1 g) :
    ∀ L : List (T × List T), (∀ kv ∈ L, kv ∈ g) →
      ∃ r, first_acyclic_vertex g L = .ok r ∧
        (∀ w, r = some w → contains_vertex g w = true ∧ acyclic_vertex g w = .ok true) ∧
        (r = none → ∀ kv ∈ L, acyclic_vertex g kv.1 = .ok false) := by
  intro L
  induction L with
  | nil =>
    intro _
    refine ⟨none, rfl, ?_, ?_⟩
    · intro w h; cases h
    · intro _ kv h; cases h
  | cons kv rest ih =>
    intro hL
    have hkv := mem_keys_of_mem (hL kv (List.mem_cons_self _ _))
    obtain ⟨a, ha, _⟩ := acyclic_vertex_spec hI hkv
    unfold first_acyclic_vertex
    rw [ha]
    cases a with
    | true =>
      refine ⟨some kv.1, rfl, ?_, ?_⟩
      · intro w hw
        cases hw
        exact ⟨hkv, ha⟩
      · intro h; cases h
    | false =>
      simp only
      obtain ⟨r, hr, h1, h2⟩ := ih (fun x hx => hL x (List.mem_cons_of_mem _ hx))
      refine ⟨r, hr, h1, ?_⟩
      intro hn x hx
      rcases List.mem_cons.mp hx with rfl | hx
      · exact ha
      · exact h2 hn x hx

theorem apply_advanced_reduction2_spec {g : Graph T} (hwf : WF g) (hI : I1 g) {u : T}
    (hu : contains_vertex g u = true) :
    ∃ b g1, apply_advanced_reduction2 g u = .ok (b, g1) ∧
      (b = true ↔ acyclic_vertex g u = .ok true) ∧
      (b = true → ∃ k, edge g u k = true ∧ acyclic g u k = .ok true ∧ g1 = erase_pair g u k) ∧
      (b = false → g1 = g) := by
  unfold apply_advanced_reduction2
  obtain ⟨b, g1, h1, h2, h3, h4⟩ := apply_advanced_reduction2_scan_spec hwf hI
    (successors g u) (fun k hk => (mem_successors g u k).mp hk)
  obtain ⟨a, ha, haiff⟩ := acyclic_vertex_spec hI hu
  refine ⟨b, g1, h1, ?_, ?_, h4⟩
  · rw [h2, ha]
    constructor
    · rintro ⟨k, hk, hak⟩
      rw [haiff.mpr ⟨k, (mem_successors g u k).mp hk, hak⟩]
    · intro h
      cases h
      obtain ⟨k, hk, hak⟩ := haiff.mp rfl
      exact ⟨k, (mem_successors g u k).mpr hk, hak⟩
  · intro hb
    obtain ⟨k, hk, hak, hg⟩ := h3 hb
    exact ⟨k, (mem_successors g u k).mp hk, hak, hg⟩

theorem AdvancedStep_spec {g g1 : Graph T} (hwf : WF g) (hI : I1 g) (h : AdvancedStep g g1) :
    WF g1 ∧ I1 g1 ∧ num_edges g1 < num_edges g ∧ keys g1 = keys g := by
  obtain ⟨u, hu, hstep⟩ := h
  obtain ⟨b, g2, h1, _, h3, _⟩ := apply_advanced_reduction2_spec hwf hI hu
  rw [hstep] at h1
  cases h1
  obtain ⟨k, hk, _, rfl⟩ := h3 rfl
  exact ⟨WF_erase_pair hwf u k, I1_erase_pair hwf hI u k, num_edges_erase_pair_lt hk,
    keys_erase_pair g u k⟩

end Advanced

section AdvancedDriver
variable {T : Type} [LinearOrder T]

/-- The self re-entrant driver of the advanced reduction, with enough budget. -/
theorem apply_advanced_reduction_spec :
    ∀ (fuel : Nat) (g : Graph T) (u : T), WF g → I1 g → contains_vertex g u = true →
      num_edges g + (if acyclic_vertex g u = .ok true then 0 else 1) ≤ fuel →
      ∃ b g1, apply_advanced_reduction fuel g u = .ok (b, g1) ∧ WF g1 ∧ I1 g1 ∧
        acyclic_exists g1 = .ok false ∧ Relation.ReflTransGen AdvancedStep g g1 ∧
        (acyclic_vertex g u = .ok true → b = true) ∧
        (b = true → Relation.TransGen AdvancedStep g g1) ∧ (b = false → g1 = g) := by
  intro fuel
  induction fuel with
  | zero =>
    intro g u hwf hI hu hfuel
    exfalso
    by_cases hav : acyclic_vertex g u = .ok true
    · rw [if_pos hav] at hfuel
      obtain ⟨b, g1, h1, h2, h3, _⟩ := apply_advanced_reduction2_spec hwf hI hu
      have hb : b = true := h2.mpr hav
      subst hb
      have hstep : AdvancedStep g g1 := ⟨u, hu, h1⟩
      have := (AdvancedStep_spec hwf hI hstep).2.2.1
      omega
    · rw [if_neg hav] at hfuel
      omega
  | succ fuel ih =>
    intro g u hwf hI hu hfuel
    unfold apply_advanced_reduction
    obtain ⟨b0, g0, h1, h2, h3, h4⟩ := apply_advanced_reduction2_spec hwf hI hu
    rw [h1]
    simp only
    have hsteps0 : Relation.ReflTransGen AdvancedStep g g0 := by
      cases b0 with
      | true => exact Relation.ReflTransGen.single ⟨u, hu, h1⟩
      | false => rw [h4 rfl]
    have hprops0 : WF g0 ∧ I1 g0 ∧ num_edges g0 + (if b0 = true then 1 else 0) ≤ num_edges g := by
      cases b0 with
      | true =>
        obtain ⟨e1, e2, e3, _⟩ := AdvancedStep_spec hwf hI ⟨u, hu, h1⟩
        exact ⟨e1, e2, by simp only [if_true]; omega⟩
      | false => rw [h4 rfl]; exact ⟨hwf, hI, by simp⟩
    obtain ⟨hwf0, hI0, hlen0⟩ := hprops0
    have hfuel0 : num_edges g0 ≤ fuel := by
      by_cases hav : acyclic_vertex g u = .ok true
      · rw [if_pos hav] at hfuel
        have : b0 = true := h2.mpr hav
        subst this
        simp only [if_true] at hlen0
        omega
      · rw [if_neg hav] at hfuel
        omega
    obtain ⟨e, he, heiff⟩ := acyclic_exists_spec hI0
    rw [he]
    cases e with
    | false =>
      simp only
      refine ⟨b0, g0, rfl, hwf0, hI0, he, hsteps0, fun hav => h2.mpr hav, ?_, h4⟩
      intro hb
      subst hb
      exact Relation.TransGen.single ⟨u, hu, h1⟩
    | true =>
      simp only
      obtain ⟨r, hr, hr1, hr2⟩ := first_acyclic_vertex_spec hI0 g0 (fun _ h => h)
      rw [hr]
      cases r with
      | none =>
        exfalso
        obtain ⟨x, k, hxk, hak⟩ := heiff.mp rfl
        obtain ⟨kv, hkv, rfl⟩ := exists_mem_of_contains (edge_contains_left hxk)
        obtain ⟨a, ha, haiff⟩ := acyclic_vertex_spec hI0 (mem_keys_of_mem hkv)
        have := hr2 rfl kv hkv
        rw [ha] at this
        cases this
        have := haiff.mpr ⟨k, hxk, hak⟩
        cases this
      | some w =>
        simp only
        obtain ⟨hw, hwa⟩ := hr1 w rfl
        obtain ⟨b, g2, hres, hwf2, hI2, hno, hsteps, hb, hbt, _⟩ :=
          ih g0 w hwf0 hI0 hw (by rw [if_pos hwa]; omega)
        have hbt' : b = true := hb hwa
        subst hbt'
        refine ⟨true, g2, hres, hwf2, hI2, hno, hsteps0.trans hsteps, fun _ => rfl, ?_,
          fun h => Bool.noConfusion h⟩
        intro _
        exact Relation.TransGen.trans_right hsteps0 (hbt rfl)

theorem AdvancedStep_steps_edges {g g1 : Graph T} (hwf : WF g) (hI : I1 g)
    (h : Relation.ReflTransGen AdvancedStep g g1) :
    WF g1 ∧ I1 g1 ∧ num_edges g1 ≤ num_edges g ∧ keys g1 = keys g := by
  induction h with
  | refl => exact ⟨hwf, hI, le_refl _, rfl⟩
  | tail _ hstep ih =>
    obtain ⟨h1, h2, h3, h3'⟩ := ih
    obtain ⟨h4, h5, h6, h7⟩ := AdvancedStep_spec h1 h2 hstep
    exact ⟨h4, h5, by omega, h7.trans h3'⟩

theorem AdvancedStep_trans_edges {g g1 : Graph T} (hwf : WF g) (hI : I1 g)
    (h : Relation.TransGen AdvancedStep g g1) : num_edges g1 < num_edges g := by
  obtain ⟨g0, hsteps, hstep⟩ := Relation.TransGen.tail'_iff.mp h
  obtain ⟨h1, h2, h3, _⟩ := AdvancedStep_steps_edges hwf hI hsteps
  obtain ⟨_, _, h6, _⟩ := AdvancedStep_spec h1 h2 hstep
  omega

theorem advanced_reduction_spec {g : Graph T} (hwf : WF g) (hI : I1 g) (hne : g ≠ []) :
    ∃ b g1, advanced_reduction g = .ok (b, g1) ∧ WF g1 ∧ I1 g1 ∧
      acyclic_exists g1 = .ok false ∧ Relation.ReflTransGen AdvancedStep g g1 ∧
      (b = true → Relation.TransGen AdvancedStep g g1) ∧ (b = false → g1 = g) := by
  cases g with
  | nil => exact absurd rfl hne
  | cons kv rest =>
    obtain ⟨k, s⟩ := kv
    have hk : contains_vertex ((k, s) :: rest) k = true :=
      mem_keys_of_mem (List.mem_cons_self (k, s) rest)
    obtain ⟨b, g1, h1, h2, h3, h4, h5, _, h7, h8⟩ :=
      apply_advanced_reduction_spec (num_edges ((k, s) :: rest) + 1) ((k, s) :: rest) k
        hwf hI hk (by split_ifs <;> omega)
    exact ⟨b, g1, h1, h2, h3, h4, h5, h7, h8⟩

end AdvancedDriver

section Claims
variable {T : Type} [LinearOrder T]

/-- C1: on a non-empty graph that satisfies I1, `basic_reduction` returns, and every key
    of the resulting graph has a positive out-degree and no self-edge. -/
theorem basic_reduction_leaves_no_loop_or_sink (g : Graph T) (hwf : WF g) (hI : I1 g)
    (hne : g ≠ []) :
    ∃ b g1, basic_reduction g = .ok (b, g1) ∧
      ∀ u, contains_vertex g1 u = true → 0 < out_degree g1 u ∧ edge g1 u u = false := by
  obtain ⟨b, g1, h1, _, _, h4, _⟩ := basic_reduction_spec hwf hI hne
  refine ⟨b, g1, h1, ?_⟩
  intro u hu
  obtain ⟨kv, hkv, rfl⟩ := exists_mem_of_contains hu
  unfold loop_sink_exists at h4
  have hnot : (loop g1 kv.1 || sink g1 kv.1) = false := by
    cases hc : (loop g1 kv.1 || sink g1 kv.1) with
    | false => rfl
    | true =>
      have : g1.any (fun kv => loop g1 kv.1 || sink g1 kv.1) = true :=
        List.any_eq_true.mpr ⟨kv, hkv, hc⟩
      rw [h4] at this
      cases this
  rw [Bool.or_eq_false_iff] at hnot
  obtain ⟨hl, hs⟩ := hnot
  constructor
  · unfold sink at hs
    split_ifs at hs with h0
    exact Nat.pos_of_ne_zero h0
  · rw [← loop_eq_edge]; exact hl

theorem basic_reduction_leaves_no_loop_or_sink_witness :
    WF cycle_tail_graph ∧ I1 cycle_tail_graph ∧ cycle_tail_graph ≠ [] ∧
      ∃ b g1, basic_reduction cycle_tail_graph = .ok (b, g1) ∧
        ∀ u, contains_vertex g1 u = true → 0 < out_degree g1 u ∧ edge g1 u u = false :=
  ⟨by decide, by decide, by decide,
    basic_reduction_leaves_no_loop_or_sink cycle_tail_graph (by decide) (by decide) (by decide)⟩

/-- C2: the scenario of `test.cpp`: the first `basic_reduction` leaves 8 vertices and 9
    edges with the nine listed edges present; after `remove_edge(4, 10)` a second
    `basic_reduction` leaves 3 vertices and 3 edges, `(0,5)`, `(1,0)` and `(5,1)`. -/
theorem test_scenario :
    ∃ g0 b1 g1 g2 b2 g3,
      test_graph = .ok g0 ∧ basic_reduction g0 = .ok (b1, g1) ∧
      num_vertices g1 = 8 ∧ num_edges g1 = 9 ∧
      (edge g1 0 5 && edge g1 1 0 && edge g1 1 7 && edge g1 3 4 && edge g1 4 10 &&
        edge g1 5 1 && edge g1 7 3 && edge g1 10 4 && edge g1 12 7) = true ∧
      remove_edge g1 4 10 = .ok g2 ∧ basic_reduction g2 = .ok (b2, g3) ∧
      num_vertices g3 = 3 ∧ num_edges g3 = 3 ∧
      (edge g3 0 5 && edge g3 1 0 && edge g3 5 1) = true :=
  ⟨[(0, [5]), (1, [0, 2, 6, 7]), (2, []), (3, [2, 4, 8, 9]), (4, [10, 13]), (5, [1]),
      (6, [11]), (7, [3]), (8, [13]), (9, [13]), (10, [4]), (11, [5, 7, 11, 12]),
      (12, [7, 13]), (13, [])],
    true,
    [(0, [5]), (1, [0, 7]), (3, [4]), (4, [10]), (5, [1]), (7, [3]), (10, [4]), (12, [7])],
    [(0, [5]), (1, [0, 7]), (3, [4]), (4, []), (5, [1]), (7, [3]), (10, []), (12, [7])],
    true,
    [(0, [5]), (1, [0]), (5, [1])],
    by decide, by decide, by decide, by decide, by decide, by decide, by decide, by decide,
    by decide, by decide⟩

end Claims

section Claims2
variable {T : Type} [LinearOrder T]

/-- C3: on a non-empty graph that satisfies I1, each of `basic_reduction`,
    `intermediate_reduction` and `advanced_reduction` returns true exactly when at
    least one reduction step was applied, which is exactly when the resulting graph
    differs from the input; when it returns false the graph is unchanged. -/
theorem reduction_reports_change (g : Graph T) (hwf : WF g) (hI : I1 g) (hne : g ≠ []) :
    (∃ b g1, basic_reduction g = .ok (b, g1) ∧
        (b = true ↔ Relation.TransGen BasicStep g g1) ∧ (b = true ↔ g1 ≠ g) ∧
        (b = false → g1 = g)) ∧
    (∃ b g1, intermediate_reduction g = .ok (b, g1) ∧
        (b = true ↔ Relation.TransGen IntermediateStep g g1) ∧ (b = true ↔ g1 ≠ g) ∧
        (b = false → g1 = g)) ∧
    (∃ b g1, advanced_reduction g = .ok (b, g1) ∧
        (b = true ↔ Relation.TransGen AdvancedStep g g1) ∧ (b = true ↔ g1 ≠ g) ∧
        (b = false → g1 = g)) := by
  refine ⟨?_, ?_, ?_⟩
  · obtain ⟨b, g1, h1, _, _, _, _, h6, h7⟩ := basic_reduction_spec hwf hI hne
    have hdiff : Relation.TransGen BasicStep g g1 → g1 ≠ g := by
      intro ht heq
      have := BasicStep_trans_length hwf hI ht
      rw [heq] at this
      exact lt_irrefl _ this
    refine ⟨b, g1, h1, ⟨h6, ?_⟩, ⟨fun hb => hdiff (h6 hb), ?_⟩, h7⟩
    · intro ht
      cases b with
      | true => rfl
      | false => exact absurd (h7 rfl) (hdiff ht)
    · intro hne'
      cases b with
      | true => rfl
      | false => exact absurd (h7 rfl) hne'
  · obtain ⟨b, g1, h1, _, _, _, _, h6, h7⟩ := intermediate_reduction_spec hwf hI hne
    have hdiff : Relation.TransGen IntermediateStep g g1 → g1 ≠ g := by
      intro ht heq
      have := IntermediateStep_trans_length hwf hI ht
      rw [heq] at this
      exact lt_irrefl _ this
    refine ⟨b, g1, h1, ⟨h6, ?_⟩, ⟨fun hb => hdiff (h6 hb), ?_⟩, h7⟩
    · intro ht
      cases b with
      | true => rfl
      | false => exact absurd (h7 rfl) (hdiff ht)
    · intro hne'
      cases b with
      | true => rfl
      | false => exact absurd (h7 rfl) hne'
  · obtain ⟨b, g1, h1, _, _, _, _, h6, h7⟩ := advanced_reduction_spec hwf hI hne
    have hdiff : Relation.TransGen AdvancedStep g g1 → g1 ≠ g := by
      intro ht heq
      have := AdvancedStep_trans_edges hwf hI ht
      rw [heq] at this
      exact lt_irrefl _ this
    refine ⟨b, g1, h1, ⟨h6, ?_⟩, ⟨fun hb => hdiff (h6 hb), ?_⟩, h7⟩
    · intro ht
      cases b with
      | true => rfl
      | false => exact absurd (h7 rfl) (hdiff ht)
    · intro hne'
      cases b with
      | true => rfl
      | false => exact absurd (h7 rfl) hne'

theorem reduction_reports_change_witness :
    WF cycle_tail_graph ∧ I1 cycle_tail_graph ∧ cycle_tail_graph ≠ [] ∧
    ((∃ b g1, basic_reduction cycle_tail_graph = .ok (b, g1) ∧
        (b = true ↔ Relation.TransGen BasicStep cycle_tail_graph g1) ∧
        (b = true ↔ g1 ≠ cycle_tail_graph) ∧ (b = false → g1 = cycle_tail_graph)) ∧
    (∃ b g1, intermediate_reduction cycle_tail_graph = .ok (b, g1) ∧
        (b = true ↔ Relation.TransGen IntermediateStep cycle_tail_graph g1) ∧
        (b = true ↔ g1 ≠ cycle_tail_graph) ∧ (b = false → g1 = cycle_tail_graph)) ∧
    (∃ b g1, advanced_reduction cycle_tail_graph = .ok (b, g1) ∧
        (b = true ↔ Relation.TransGen AdvancedStep cycle_tail_graph g1) ∧
        (b = true ↔ g1 ≠ cycle_tail_graph) ∧ (b = false → g1 = cycle_tail_graph))) :=
  ⟨by decide, by decide, by decide,
    reduction_reports_change cycle_tail_graph (by decide) (by decide) (by decide)⟩

/-- C4: on a non-empty graph that satisfies I1, `advanced_reduction` returns, and every
    edge `(u, v)` of the resulting graph lies on a directed cycle of it: `u` is reachable
    from `v`. -/
theorem advanced_reduction_leaves_cyclic_edges (g : Graph T) (hwf : WF g) (hI : I1 g)
    (hne : g ≠ []) :
    ∃ b g1, advanced_reduction g = .ok (b, g1) ∧
      ∀ u v, edge g1 u v = true → Reach g1 v u := by
  obtain ⟨b, g1, h1, _, hI1, h4, _⟩ := advanced_reduction_spec hwf hI hne
  refine ⟨b, g1, h1, ?_⟩
  intro u v huv
  obtain ⟨e, he, heiff⟩ := acyclic_exists_spec hI1
  rw [h4] at he
  cases he
  obtain ⟨a, ha, haiff⟩ := acyclic_spec hI1 (edge_contains_left huv)
    (hI1.edge_contains_right huv)
  cases a with
  | true => exact absurd (heiff.mpr ⟨u, v, huv, ha⟩) (by simp)
  | false =>
    by_contra hnr
    have := haiff.mpr (fun h => hnr h.1)
    cases this

theorem advanced_reduction_leaves_cyclic_edges_witness :
    WF cycle_tail_graph ∧ I1 cycle_tail_graph ∧ cycle_tail_graph ≠ [] ∧
      ∃ b g1, advanced_reduction cycle_tail_graph = .ok (b, g1) ∧
        ∀ u v, edge g1 u v = true → Reach g1 v u :=
  ⟨by decide, by decide, by decide,
    advanced_reduction_leaves_cyclic_edges cycle_tail_graph (by decide) (by decide)
      (by decide)⟩

/-- C5: on a non-empty graph that satisfies I1, `intermediate_reduction` returns, and no
    key of the resulting graph that is not a loop has (out-degree 1 and in-degree > 0) or
    (in-degree 1 and out-degree > 0). -/
theorem intermediate_reduction_leaves_no_bypass (g : Graph T) (hwf : WF g) (hI : I1 g)
    (hne : g ≠ []) :
    ∃ b g1, intermediate_reduction g = .ok (b, g1) ∧
      ∀ u, contains_vertex g1 u = true → loop g1 u = false →
        ¬((out_degree g1 u = 1 ∧ in_degree g1 u > 0) ∨
          (in_degree g1 u = 1 ∧ out_degree g1 u > 0)) := by
  obtain ⟨b, g1, h1, _, _, h4, _⟩ := intermediate_reduction_spec hwf hI hne
  refine ⟨b, g1, h1, ?_⟩
  intro u hu hl hby
  obtain ⟨kv, hkv, rfl⟩ := exists_mem_of_contains hu
  have hb : bypass g1 kv.1 = true := by
    unfold bypass
    rw [if_pos hby]
  have : g1.any (fun kv => bypass g1 kv.1 && !loop g1 kv.1) = true :=
    List.any_eq_true.mpr ⟨kv, hkv, by rw [hb, hl]; rfl⟩
  unfold bypass_exists at h4
  rw [h4] at this
  cases this

theorem intermediate_reduction_leaves_no_bypass_witness :
    WF cycle_tail_graph ∧ I1 cycle_tail_graph ∧ cycle_tail_graph ≠ [] ∧
      ∃ b g1, intermediate_reduction cycle_tail_graph = .ok (b, g1) ∧
        ∀ u, contains_vertex g1 u = true → loop g1 u = false →
          ¬((out_degree g1 u = 1 ∧ in_degree g1 u > 0) ∨
            (in_degree g1 u = 1 ∧ out_degree g1 u > 0)) :=
  ⟨by decide, by decide, by decide,
    intermediate_reduction_leaves_no_bypass cycle_tail_graph (by decide) (by decide)
      (by decide)⟩

/-- C6: on a graph that satisfies I1, for every edge `(u, v)` that is present (a
    self-edge included) `acyclic(u, v)` returns, and it returns true exactly when there
    is no directed path (of length `≥ 0`) from `v` back to `u`. -/
theorem acyclic_on_edge (g : Graph T) (hI : I1 g) (u v : T) (he : edge g u v = true) :
    ∃ b, acyclic g u v = .ok b ∧ (b = true ↔ ¬Reach g v u) := by
  obtain ⟨b, hb, hiff⟩ := acyclic_spec hI (edge_contains_left he) (hI.edge_contains_right he)
  refine ⟨b, hb, ?_⟩
  rw [hiff]
  have hdeg : 0 < out_degree g u := (out_degree_pos_iff g u).mpr ⟨v, he⟩
  constructor
  · intro h hr; exact h ⟨hr, hdeg⟩
  · intro h hr; exact h hr.1

theorem acyclic_on_edge_witness :
    I1 cycle_tail_graph ∧ edge cycle_tail_graph 1 2 = true ∧
      ∃ b, acyclic cycle_tail_graph 1 2 = .ok b ∧ (b = true ↔ ¬Reach cycle_tail_graph 2 1) :=
  ⟨by decide, by decide, acyclic_on_edge cycle_tail_graph (by decide) 1 2 (by decide)⟩

/-- C7, as stated, fails: in the graph `0 -> 1` both `0` and `1` are keys and there is
    a directed path from `0` to `1`, yet `cyclic(1, 0)` answers false. -/
theorem cyclic_misses_reachable_sink :
    WF arrow_graph ∧ I1 arrow_graph ∧ contains_vertex arrow_graph 1 = true ∧
      contains_vertex arrow_graph 0 = true ∧ Reach arrow_graph 0 1 ∧
      cyclic arrow_graph 1 0 = .ok false ∧ acyclic arrow_graph 1 0 = .ok true :=
  ⟨by decide, by decide, by decide, by decide,
    Relation.ReflTransGen.single (by decide), by decide, by decide⟩

/-- C7, amended: on a graph that satisfies I1, for keys `u` and `v`, `cyclic(u, v)`
    returns, and it is true (equivalently `acyclic(u, v)` is false) exactly when there is
    a directed path from `v` to `u` and `u` has at least one successor. -/
theorem cyclic_iff_reach_and_successor (g : Graph T) (hI : I1 g) (u v : T)
    (hu : contains_vertex g u = true) (hv : contains_vertex g v = true) :
    ∃ b, cyclic g u v = .ok b ∧ acyclic g u v = .ok (!b) ∧
      (b = true ↔ Reach g v u ∧ 0 < out_degree g u) := by
  obtain ⟨b, hb, hiff⟩ := cyclic_spec hI hu hv
  refine ⟨b, hb, ?_, hiff⟩
  unfold acyclic
  rw [hb]
  cases b <;> rfl

theorem cyclic_iff_reach_and_successor_witness :
    I1 arrow_graph ∧ contains_vertex arrow_graph 1 = true ∧
      contains_vertex arrow_graph 0 = true ∧
      ∃ b, cyclic arrow_graph 1 0 = .ok b ∧ acyclic arrow_graph 1 0 = .ok (!b) ∧
        (b = true ↔ Reach arrow_graph 0 1 ∧ 0 < out_degree arrow_graph 1) :=
  ⟨by decide, by decide, by decide,
    cyclic_iff_reach_and_successor arrow_graph (by decide) 1 0 (by decide) (by decide)⟩

/-- C8: on a graph that satisfies I1, `remove_vertex(u)` returns; afterwards `u` is not
    a key, no successor set contains `u`, a vertex is a key iff it was one and differs
    from `u`, an edge `(a, b)` is present iff it was and neither end is `u`; and when
    `u` was absent the graph is unchanged. -/
theorem remove_vertex_removes_incident (g : Graph T) (hwf : WF g) (hI : I1 g) (u : T) :
    ∃ g1, remove_vertex g u = .ok g1 ∧ contains_vertex g1 u = false ∧
      (∀ kv ∈ g1, u ∉ kv.2) ∧
      (∀ a, contains_vertex g1 a = true ↔ contains_vertex g a = true ∧ a ≠ u) ∧
      (∀ a b, edge g1 a b = true ↔ edge g a b = true ∧ a ≠ u ∧ b ≠ u) ∧
      (contains_vertex g u = false → g1 = g) := by
  refine ⟨clear_vertex g u, remove_vertex_eq hwf hI u, ?_, ?_, contains_clear_vertex g u,
    edge_clear_vertex g u, clear_vertex_of_not_contains hI⟩
  · cases h : contains_vertex (clear_vertex g u) u with
    | false => rfl
    | true => exact absurd rfl ((contains_clear_vertex g u u).mp h).2
  · intro kv hkv hmem
    unfold clear_vertex map_entry at hkv
    obtain ⟨e, _, rfl⟩ := List.mem_map.mp hkv
    exact ((mem_set_erase u u e.2).mp hmem).2 rfl

theorem remove_vertex_removes_incident_witness :
    WF cycle_tail_graph ∧ I1 cycle_tail_graph ∧
      ∃ g1, remove_vertex cycle_tail_graph 1 = .ok g1 ∧ contains_vertex g1 1 = false ∧
        (∀ kv ∈ g1, 1 ∉ kv.2) ∧
        (∀ a, contains_vertex g1 a = true ↔ contains_vertex cycle_tail_graph a = true ∧ a ≠ 1) ∧
        (∀ a b, edge g1 a b = true ↔ edge cycle_tail_graph a b = true ∧ a ≠ 1 ∧ b ≠ 1) ∧
        (contains_vertex cycle_tail_graph 1 = false → g1 = cycle_tail_graph) :=
  ⟨by decide, by decide,
    remove_vertex_removes_incident cycle_tail_graph (by decide) (by decide) 1⟩

/-- C9: on a graph that satisfies I1, `remove_edge(u, v)` returns without a missing-key
    fault for all `u`, `v`; if `(u, v)` or `(v, u)` was present then afterwards neither
    is; the keys are unchanged, every other edge is unchanged, and when neither edge was
    present the graph is unchanged. -/
theorem remove_edge_symmetric (g : Graph T) (hwf : WF g) (hI : I1 g) (u v : T) :
    ∃ g1, remove_edge g u v = .ok g1 ∧
      (edge g u v = true ∨ edge g v u = true → edge g1 u v = false ∧ edge g1 v u = false) ∧
      keys g1 = keys g ∧
      (∀ a b, ¬(a = u ∧ b = v) → ¬(a = v ∧ b = u) → edge g1 a b = edge g a b) ∧
      (edge g u v = false → edge g v u = false → g1 = g) := by
  refine ⟨erase_pair g u v, remove_edge_ok hwf hI u v, ?_, keys_erase_pair g u v, ?_,
    fun h1 h2 => erase_pair_of_no_edge hwf h1 h2⟩
  · intro _
    constructor
    · cases h : edge (erase_pair g u v) u v with
      | false => rfl
      | true => exact absurd ⟨rfl, rfl⟩ ((edge_erase_pair g u v u v).mp h).2.1
    · cases h : edge (erase_pair g u v) v u with
      | false => rfl
      | true => exact absurd ⟨rfl, rfl⟩ ((edge_erase_pair g u v v u).mp h).2.2
  · intro a b h1 h2
    have := edge_erase_pair g u v a b
    cases hx : edge (erase_pair g u v) a b <;> cases hy : edge g a b <;> simp_all

theorem remove_edge_symmetric_witness :
    WF cycle_tail_graph ∧ I1 cycle_tail_graph ∧
      ∃ g1, remove_edge cycle_tail_graph 0 1 = .ok g1 ∧
        (edge cycle_tail_graph 0 1 = true ∨ edge cycle_tail_graph 1 0 = true →
          edge g1 0 1 = false ∧ edge g1 1 0 = false) ∧
        keys g1 = keys cycle_tail_graph ∧
        (∀ a b, ¬(a = 0 ∧ b = 1) → ¬(a = 1 ∧ b = 0) →
          edge g1 a b = edge cycle_tail_graph a b) ∧
        (edge cycle_tail_graph 0 1 = false → edge cycle_tail_graph 1 0 = false →
          g1 = cycle_tail_graph) :=
  ⟨by decide, by decide, remove_edge_symmetric cycle_tail_graph (by decide) (by decide) 0 1⟩

/-- C10: `insert_edge(u, v)` returns; afterwards `u` and `v` are keys and `(u, v)` is an
    edge, every key and edge that was present still is, no key other than `u`, `v` and no
    edge other than `(u, v)` was added; and a second `insert_edge(u, v)` leaves the graph
    exactly as the first call left it. -/
theorem insert_edge_adds_exactly (g : Graph T) (hwf : WF g) (u v : T) :
    ∃ g1, insert_edge g u v = .ok g1 ∧
      contains_vertex g1 u = true ∧ contains_vertex g1 v = true ∧ edge g1 u v = true ∧
      (∀ a, contains_vertex g a = true → contains_vertex g1 a = true) ∧
      (∀ a b, edge g a b = true → edge g1 a b = true) ∧
      (∀ a, contains_vertex g1 a = true → contains_vertex g a = true ∨ a = u ∨ a = v) ∧
      (∀ a b, edge g1 a b = true → edge g a b = true ∨ (a = u ∧ b = v)) ∧
      insert_edge g1 u v = .ok g1 := by
  have hwf2 : WF (insert_vertex (insert_vertex g u) v) :=
    WF_insert_vertex (WF_insert_vertex hwf u) v
  have hc : ∀ a, contains_vertex (add_succ (insert_vertex (insert_vertex g u) v) u v) a = true ↔
      contains_vertex g a = true ∨ a = u ∨ a = v := by
    intro a
    rw [contains_add_succ, contains_insert_vertex, contains_insert_vertex, or_assoc]
  have he : ∀ a b, edge (add_succ (insert_vertex (insert_vertex g u) v) u v) a b = true ↔
      edge g a b = true ∨ (a = u ∧ b = v) := by
    intro a b
    rw [edge_add_succ, edge_insert_vertex, edge_insert_vertex]
    have hu : contains_vertex (insert_vertex (insert_vertex g u) v) u = true :=
      (contains_insert_vertex _ _ _).mpr
        (Or.inl ((contains_insert_vertex _ _ _).mpr (Or.inr rfl)))
    simp only [hu, and_true]
  have huv : edge (add_succ (insert_vertex (insert_vertex g u) v) u v) u v = true :=
    (he u v).mpr (Or.inr ⟨rfl, rfl⟩)
  have hcu := (hc u).mpr (Or.inr (Or.inl rfl))
  have hcv := (hc v).mpr (Or.inr (Or.inr rfl))
  refine ⟨_, insert_edge_eq hwf u v, hcu, hcv, huv, fun a ha => (hc a).mpr (Or.inl ha),
    fun a b hab => (he a b).mpr (Or.inl hab), fun a ha => (hc a).mp ha,
    fun a b hab => (he a b).mp hab, ?_⟩
  rw [insert_edge_eq (WF_add_succ hwf2 u v), insert_vertex_of_contains hcu,
    insert_vertex_of_contains hcv, add_succ_of_edge (WF_add_succ hwf2 u v) huv]

theorem insert_edge_adds_exactly_witness :
    WF arrow_graph ∧
      ∃ g1, insert_edge arrow_graph 1 2 = .ok g1 ∧
        contains_vertex g1 1 = true ∧ contains_vertex g1 2 = true ∧ edge g1 1 2 = true ∧
        (∀ a, contains_vertex arrow_graph a = true → contains_vertex g1 a = true) ∧
        (∀ a b, edge arrow_graph a b = true → edge g1 a b = true) ∧
        (∀ a, contains_vertex g1 a = true → contains_vertex arrow_graph a = true ∨ a = 1 ∨ a = 2) ∧
        (∀ a b, edge g1 a b = true → edge arrow_graph a b = true ∨ (a = 1 ∧ b = 2)) ∧
        insert_edge g1 1 2 = .ok g1 :=
  ⟨by decide, insert_edge_adds_exactly arrow_graph (by decide) 1 2⟩

end Claims2

/-! Graph sequences, refinement and termination. -/

section SequenceLemmas
variable {T : Type} [LinearOrder T]

theorem contains_insert_edge_result (g : Graph T) (u v a : T) :
    contains_vertex (add_succ (insert_vertex (insert_vertex g u) v) u v) a = true ↔
      contains_vertex g a = true ∨ a = u ∨ a = v := by
  rw [contains_add_succ, contains_insert_vertex, contains_insert_vertex, or_assoc]

theorem edge_insert_edge_result (g : Graph T) (u v a b : T) :
    edge (add_succ (insert_vertex (insert_vertex g u) v) u v) a b = true ↔
      edge g a b = true ∨ (a = u ∧ b = v) := by
  rw [edge_add_succ, edge_insert_vertex, edge_insert_vertex]
  have hu : contains_vertex (insert_vertex (insert_vertex g u) v) u = true :=
    (contains_insert_vertex _ _ _).mpr
      (Or.inl ((contains_insert_vertex _ _ _).mpr (Or.inr rfl)))
  simp only [hu, and_true]

theorem WF_insert_edge_result {g : Graph T} (hwf : WF g) (u v : T) :
    WF (add_succ (insert_vertex (insert_vertex g u) v) u v) :=
  WF_add_succ (WF_insert_vertex (WF_insert_vertex hwf u) v) u v

theorem I1_insert_edge_result {g : Graph T} (hwf : WF g) (hI : I1 g) (u v : T) :
    I1 (add_succ (insert_vertex (insert_vertex g u) v) u v) :=
  I1_add_succ (WF_insert_vertex (WF_insert_vertex hwf u) v)
    (I1_insert_vertex (WF_insert_vertex hwf u) (I1_insert_vertex hwf hI u) v)
    ((contains_insert_vertex _ _ _).mpr (Or.inr rfl))

/-- Every modifier returns and keeps the graph well formed with I1. -/
theorem apply_store_spec {g : Graph T} (hwf : WF g) (hI : I1 g) (op : StoreOp T) :
    ∃ g1, apply_store g op = .ok g1 ∧ WF g1 ∧ I1 g1 := by
  cases op with
  | insert_vertex u => exact ⟨_, rfl, WF_insert_vertex hwf u, I1_insert_vertex hwf hI u⟩
  | insert_edge u v =>
    exact ⟨_, insert_edge_eq hwf u v, WF_insert_edge_result hwf u v,
      I1_insert_edge_result hwf hI u v⟩
  | remove_vertex u =>
    exact ⟨_, remove_vertex_eq hwf hI u, WF_clear_vertex hwf u, I1_clear_vertex hwf hI u⟩
  | remove_edge u v =>
    exact ⟨_, remove_edge_ok hwf hI u v, WF_erase_pair hwf u v, I1_erase_pair hwf hI u v⟩

/-- Every call returns and keeps the graph well formed with I1, except a reduction on
    the graph without vertices, which reads `graph.begin()->first` of an empty map. -/
theorem apply_op_spec {g : Graph T} (hwf : WF g) (hI : I1 g) (op : Op T) :
    (∃ g1, apply_op g op = .ok g1 ∧ WF g1 ∧ I1 g1) ∨
      (g = [] ∧ apply_op g op = .error .empty_graph) := by
  cases op with
  | store s => exact Or.inl (apply_store_spec hwf hI s)
  | basic_reduction =>
    by_cases hne : g = []
    · subst hne; exact Or.inr ⟨rfl, rfl⟩
    · obtain ⟨b, g1, h1, h2, h3, _⟩ := basic_reduction_spec hwf hI hne
      exact Or.inl ⟨g1, by simp [apply_op, graph_after, h1], h2, h3⟩
  | intermediate_reduction =>
    by_cases hne : g = []
    · subst hne; exact Or.inr ⟨rfl, rfl⟩
    · obtain ⟨b, g1, h1, h2, h3, _⟩ := intermediate_reduction_spec hwf hI hne
      exact Or.inl ⟨g1, by simp [apply_op, graph_after, h1], h2, h3⟩
  | advanced_reduction =>
    by_cases hne : g = []
    · subst hne; exact Or.inr ⟨rfl, rfl⟩
    · obtain ⟨b, g1, h1, h2, h3, _⟩ := advanced_reduction_spec hwf hI hne
      exact Or.inl ⟨g1, by simp [apply_op, graph_after, h1], h2, h3⟩

theorem run_ops_spec (ops : List (Op T)) :
    ∀ g : Graph T, WF g → I1 g →
      (∃ g1, run_ops ops g = .ok g1 ∧ WF g1 ∧ I1 g1) ∨
        (run_ops ops g = .error .empty_graph ∧
          ∃ pre op post, ops = pre ++ op :: post ∧ run_ops pre g = .ok [] ∧
            apply_op ([] : Graph T) op = .error .empty_graph) := by
  induction ops with
  | nil => intro g hwf hI; exact Or.inl ⟨g, rfl, hwf, hI⟩
  | cons op rest ih =>
    intro g hwf hI
    unfold run_ops at ih ⊢
    rcases apply_op_spec hwf hI op with ⟨g1, h1, h2, h3⟩ | ⟨hg, h1⟩
    · simp only [for_each, h1]
      rcases ih g1 h2 h3 with h | ⟨h, pre, op1, post, e1, e2, e3⟩
      · exact Or.inl h
      · refine Or.inr ⟨h, op :: pre, op1, post, by rw [e1]; rfl, ?_, e3⟩
        simp only [for_each, h1]
        exact e2
    · right
      refine ⟨by simp only [for_each, h1], [], op, rest, rfl, ?_, ?_⟩
      · rw [hg]; rfl
      · rw [← hg]; exact h1

theorem WF_nil : WF ([] : Graph T) := by
  constructor
  · exact List.sorted_nil
  · intro kv h; cases h

theorem I1_nil : I1 ([] : Graph T) := by
  intro kv h; cases h

/-- C11: starting from the empty graph, every finite sequence of `insert_vertex`,
    `insert_edge`, `remove_vertex`, `remove_edge` and reduction calls returns a graph in
    which every vertex of a successor set is a key (I1; the container invariant holds
    too), unless the sequence calls a reduction on a graph without vertices, where the
    run stops at the unguarded `graph.begin()->first`. -/
theorem I1_in_every_reachable_state (ops : List (Op T)) :
    (∃ g, run_ops ops ([] : Graph T) = .ok g ∧ WF g ∧ I1 g) ∨
      (run_ops ops ([] : Graph T) = .error .empty_graph ∧
        ∃ pre op post, ops = pre ++ op :: post ∧ run_ops pre ([] : Graph T) = .ok [] ∧
          apply_op ([] : Graph T) op = .error .empty_graph) :=
  run_ops_spec ops [] WF_nil I1_nil

end SequenceLemmas

section Refinement
variable {T : Type} [LinearOrder T]

theorem mem_edge_pairs {g : Graph T} (hwf : WF g) (a b : T) :
    (a, b) ∈ edge_pairs g ↔ edge g a b = true := by
  unfold edge_pairs
  rw [List.mem_flatMap, edge_iff]
  constructor
  · rintro ⟨kv, hkv, hab⟩
    obtain ⟨v, hv, heq⟩ := List.mem_map.mp hab
    cases heq
    exact ⟨kv.2, map_find_of_mem hwf.nodup_keys hkv, hv⟩
  · rintro ⟨s, hs, hb⟩
    exact ⟨(a, s), map_find_mem hs, List.mem_map.mpr ⟨b, hb, rfl⟩⟩

theorem length_edge_pairs (g : Graph T) : (edge_pairs g).length = num_edges g := by
  unfold edge_pairs num_edges
  induction g with
  | nil => rfl
  | cons kv rest ih => simp [List.flatMap_cons, ih]

theorem nodup_edge_pairs {g : Graph T} (hwf : WF g) : (edge_pairs g).Nodup := by
  obtain ⟨hk, hs⟩ := hwf
  unfold keys at hk
  unfold edge_pairs
  induction g with
  | nil => simp
  | cons kv rest ih =>
    simp only [List.map_cons, List.sorted_cons] at hk
    rw [List.flatMap_cons, List.nodup_append]
    refine ⟨?_, ih hk.2 (fun e he => hs e (List.mem_cons_of_mem _ he)), ?_⟩
    · have hnd : kv.2.Nodup := List.Sorted.nodup (hs kv (List.mem_cons_self _ _))
      exact hnd.map (fun x y hxy => (Prod.mk.inj hxy).2)
    · intro p hp1 hp2
      obtain ⟨v, _, rfl⟩ := List.mem_map.mp hp1
      obtain ⟨e, he, hp⟩ := List.mem_flatMap.mp hp2
      obtain ⟨w, _, heq⟩ := List.mem_map.mp hp
      have hk1 : e.1 = kv.1 := (Prod.mk.inj heq).1
      have := hk.1 e.1 (List.mem_map_of_mem Prod.fst he)
      rw [hk1] at this
      exact lt_irrefl _ this

theorem mem_abstraction_verts (g : Graph T) (a : T) :
    a ∈ (abstraction g).verts ↔ contains_vertex g a = true := by
  unfold abstraction
  rw [List.mem_toFinset, contains_vertex_iff]

theorem mem_abstraction_edges {g : Graph T} (hwf : WF g) (a b : T) :
    (a, b) ∈ (abstraction g).edges ↔ edge g a b = true := by
  unfold abstraction
  rw [List.mem_toFinset, mem_edge_pairs hwf]

theorem card_abstraction_verts {g : Graph T} (hwf : WF g) :
    (abstraction g).verts.card = num_vertices g := by
  unfold abstraction num_vertices
  rw [List.toFinset_card_of_nodup (List.Sorted.nodup hwf.1)]
  simp [keys]

theorem card_abstraction_edges {g : Graph T} (hwf : WF g) :
    (abstraction g).edges.card = num_edges g := by
  unfold abstraction
  rw [List.toFinset_card_of_nodup (nodup_edge_pairs hwf), length_edge_pairs]

theorem RefModel.ext_of {m1 m2 : RefModel T} (hv : ∀ a, a ∈ m1.verts ↔ a ∈ m2.verts)
    (he : ∀ a b, (a, b) ∈ m1.edges ↔ (a, b) ∈ m2.edges) : m1 = m2 := by
  cases m1; cases m2
  simp only [RefModel.mk.injEq]
  exact ⟨Finset.ext hv, Finset.ext (fun ⟨a, b⟩ => he a b)⟩

/-- Each modifier refines its reference semantics. -/
theorem apply_store_refines {g : Graph T} (hwf : WF g) (hI : I1 g) (op : StoreOp T) :
    ∃ g1, apply_store g op = .ok g1 ∧ WF g1 ∧ I1 g1 ∧
      abstraction g1 = (abstraction g).step op := by
  cases op with
  | insert_vertex u =>
    refine ⟨_, rfl, WF_insert_vertex hwf u, I1_insert_vertex hwf hI u, ?_⟩
    apply RefModel.ext_of
    · intro a
      rw [mem_abstraction_verts, contains_insert_vertex]
      simp only [RefModel.step, Finset.mem_insert, mem_abstraction_verts]
      tauto
    · intro a b
      rw [mem_abstraction_edges (WF_insert_vertex hwf u), edge_insert_vertex]
      simp only [RefModel.step, mem_abstraction_edges hwf]
  | insert_edge u v =>
    refine ⟨_, insert_edge_eq hwf u v, WF_insert_edge_result hwf u v,
      I1_insert_edge_result hwf hI u v, ?_⟩
    apply RefModel.ext_of
    · intro a
      rw [mem_abstraction_verts, contains_insert_edge_result]
      simp only [RefModel.step, Finset.mem_insert, mem_abstraction_verts]
      tauto
    · intro a b
      rw [mem_abstraction_edges (WF_insert_edge_result hwf u v), edge_insert_edge_result]
      simp only [RefModel.step, Finset.mem_insert, mem_abstraction_edges hwf, Prod.mk.injEq]
      tauto
  | remove_vertex u =>
    refine ⟨_, remove_vertex_eq hwf hI u, WF_clear_vertex hwf u, I1_clear_vertex hwf hI u, ?_⟩
    by_cases hu : contains_vertex g u = true
    · have hmem : u ∈ (abstraction g).verts := (mem_abstraction_verts g u).mpr hu
      simp only [RefModel.step, if_pos hmem]
      apply RefModel.ext_of
      · intro a
        rw [mem_abstraction_verts, contains_clear_vertex]
        simp only [Finset.mem_erase, mem_abstraction_verts]
        tauto
      · intro a b
        rw [mem_abstraction_edges (WF_clear_vertex hwf u), edge_clear_vertex]
        simp only [Finset.mem_filter, mem_abstraction_edges hwf]
    · have hmem : u ∉ (abstraction g).verts := fun h => hu ((mem_abstraction_verts g u).mp h)
      simp only [RefModel.step, if_neg hmem]
      simp only [Bool.not_eq_true] at hu
      rw [clear_vertex_of_not_contains hI hu]
  | remove_edge u v =>
    refine ⟨_, remove_edge_ok hwf hI u v, WF_erase_pair hwf u v, I1_erase_pair hwf hI u v, ?_⟩
    by_cases he : (u, v) ∈ (abstraction g).edges ∨ (v, u) ∈ (abstraction g).edges
    · simp only [RefModel.step, if_pos he]
      apply RefModel.ext_of
      · intro a
        rw [mem_abstraction_verts, contains_erase_pair, mem_abstraction_verts]
      · intro a b
        rw [mem_abstraction_edges (WF_erase_pair hwf u v), edge_erase_pair]
        simp only [Finset.mem_erase, mem_abstraction_edges hwf, ne_eq, Prod.mk.injEq]
        tauto
    · simp only [RefModel.step, if_neg he]
      rw [mem_abstraction_edges hwf, mem_abstraction_edges hwf] at he
      simp only [not_or, Bool.not_eq_true] at he
      rw [erase_pair_of_no_edge hwf he.1 he.2]

theorem run_store_refines (ops : List (StoreOp T)) :
    ∀ g : Graph T, WF g → I1 g →
      ∃ g1, run_store ops g = .ok g1 ∧ WF g1 ∧ I1 g1 ∧
        abstraction g1 = RefModel.run ops (abstraction g) := by
  induction ops with
  | nil => intro g hwf hI; exact ⟨g, rfl, hwf, hI, rfl⟩
  | cons op rest ih =>
    intro g hwf hI
    obtain ⟨g1, h1, h2, h3, h4⟩ := apply_store_refines hwf hI op
    obtain ⟨g2, e1, e2, e3, e4⟩ := ih g1 h2 h3
    refine ⟨g2, ?_, e2, e3, ?_⟩
    · unfold run_store at e1 ⊢
      simp only [for_each, h1]
      exact e1
    · rw [e4, h4]; rfl

/-- C12: for every finite sequence of `insert_vertex`, `insert_edge`, `remove_vertex` and
    `remove_edge` applied to the empty graph, the run returns a graph whose
    `num_vertices` and `num_edges` are the numbers of vertices and of ordered pairs of
    the reference adjacency model after the same sequence; the vertices of the model are
    the keys and its pairs are the `(u, v)` with `edge(u, v)` true. -/
theorem counts_refine_reference_model (ops : List (StoreOp T)) :
    ∃ g, run_store ops ([] : Graph T) = .ok g ∧
      num_vertices g = (RefModel.run ops RefModel.empty).verts.card ∧
      num_edges g = (RefModel.run ops RefModel.empty).edges.card ∧
      (∀ u, u ∈ (RefModel.run ops RefModel.empty).verts ↔ contains_vertex g u = true) ∧
      (∀ u v, (u, v) ∈ (RefModel.run ops RefModel.empty).edges ↔ edge g u v = true) := by
  obtain ⟨g, h1, h2, _, h4⟩ := run_store_refines ops ([] : Graph T) WF_nil I1_nil
  have h0 : abstraction ([] : Graph T) = RefModel.empty := rfl
  rw [h0] at h4
  refine ⟨g, h1, ?_, ?_, ?_, ?_⟩
  · rw [← h4, card_abstraction_verts h2]
  · rw [← h4, card_abstraction_edges h2]
  · intro u; rw [← h4, mem_abstraction_verts]
  · intro u v; rw [← h4, mem_abstraction_edges h2]

end Refinement

section Bypass
variable {T : Type} [LinearOrder T]

theorem edge_foldl_add_succ {α : Type} (a b : α → T) (L : List α) :
    ∀ g : Graph T, (∀ x ∈ L, contains_vertex g (a x) = true) → ∀ p q : T,
      (edge (L.foldl (fun h x => add_succ h (a x) (b x)) g) p q = true ↔
        edge g p q = true ∨ ∃ x ∈ L, p = a x ∧ q = b x) := by
  induction L with
  | nil => intro g _ p q; simp
  | cons x xs ih =>
    intro g hL p q
    rw [List.foldl_cons, ih (add_succ g (a x) (b x))
      (fun y hy => by rw [contains_add_succ]; exact hL y (List.mem_cons_of_mem _ hy)),
      edge_add_succ]
    have hx := hL x (List.mem_cons_self _ _)
    simp only [hx, and_true, List.mem_cons, exists_eq_or_imp]
    tauto

theorem mem_singleton_of_length {L : List T} {r : T} {rest : List T} (h : L = r :: rest)
    (hlen : L.length = 1) (y : T) : y ∈ L ↔ y = r := by
  subst h
  have : rest = [] := by
    cases rest with
    | nil => rfl
    | cons _ _ => simp at hlen
  subst this
  simp

/-- The edges after the rewiring loops: the old ones, and a shortcut `x -> y` for every
    `x -> u -> y` when `u` has a single successor and a predecessor, or a single
    predecessor and a successor. -/
theorem edge_rewire {g : Graph T} (hwf : WF g) (u x y : T) :
    edge (rewire g u) x y = true ↔
      edge g x y = true ∨
        ((((successors g u).length = 1 ∧ (predecessors g u).length > 0) ∨
            ((predecessors g u).length = 1 ∧ (successors g u).length > 0)) ∧
          edge g x u = true ∧ edge g u y = true) := by
  have hp : ∀ k ∈ predecessors g u, contains_vertex g k = true := fun k hk =>
    edge_contains_left ((mem_predecessors hwf u k).mp hk)
  unfold rewire
  simp only
  by_cases c1 : (successors g u).length = 1 ∧ (predecessors g u).length > 0
  · rw [if_pos c1]
    cases hsu : successors g u with
    | nil => rw [hsu] at c1; simp at c1
    | cons r rest =>
      simp only
      rw [edge_foldl_add_succ (fun k : T => k) (fun _ : T => r) (predecessors g u) g hp]
      have hy : edge g u y = true ↔ y = r := by
        rw [← mem_successors]
        exact mem_singleton_of_length hsu c1.1 y
      have hc : (((r :: rest).length = 1 ∧ (predecessors g u).length > 0) ∨
          ((predecessors g u).length = 1 ∧ (r :: rest).length > 0)) := by
        rw [← hsu]; exact Or.inl c1
      simp only [hc, true_and, hy, mem_predecessors hwf]
      constructor
      · rintro (h | ⟨k, hk, rfl, rfl⟩)
        · exact Or.inl h
        · exact Or.inr ⟨hk, rfl⟩
      · rintro (h | ⟨hk, rfl⟩)
        · exact Or.inl h
        · exact Or.inr ⟨x, hk, rfl, rfl⟩
  · rw [if_neg c1]
    by_cases c2 : (predecessors g u).length = 1 ∧ (successors g u).length > 0
    · rw [if_pos c2]
      cases hpu : predecessors g u with
      | nil => rw [hpu] at c2; simp at c2
      | cons r rest =>
        simp only
        have hr : contains_vertex g r = true := hp r (by rw [hpu]; exact List.mem_cons_self _ _)
        rw [edge_foldl_add_succ (fun _ : T => r) (fun k : T => k) (successors g u) g
          (fun _ _ => hr)]
        have hx : edge g x u = true ↔ x = r := by
          rw [← mem_predecessors hwf]
          exact mem_singleton_of_length hpu c2.1 x
        have hc : (((successors g u).length = 1 ∧ (r :: rest).length > 0) ∨
            ((r :: rest).length = 1 ∧ (successors g u).length > 0)) := by
          rw [← hpu]; exact Or.inr c2
        simp only [hc, true_and, hx, mem_successors]
        constructor
        · rintro (h | ⟨k, hk, rfl, rfl⟩)
          · exact Or.inl h
          · exact Or.inr ⟨rfl, hk⟩
        · rintro (h | ⟨rfl, hk⟩)
          · exact Or.inl h
          · exact Or.inr ⟨y, hk, rfl, rfl⟩
    · rw [if_neg c2]
      simp only [c1, c2, or_self, false_and, or_false]

theorem bypass_iff (g : Graph T) (u : T) :
    bypass g u = true ↔
      ((successors g u).length = 1 ∧ (predecessors g u).length > 0) ∨
        ((predecessors g u).length = 1 ∧ (successors g u).length > 0) := by
  unfold bypass out_degree in_degree
  split_ifs with h
  · simp only [true_iff]; exact h
  · simp only [Bool.false_eq_true, false_iff]; exact h

/-- Paths of the old graph survive the bypass of `u`, with `x -> u -> y` replaced by the
    shortcut `x -> y`. -/
theorem reach1_through_bypass {g g1 : Graph T} {u : T} (hloop : edge g u u = false)
    (hkeep : ∀ x y, edge g x y = true → x ≠ u → y ≠ u → edge g1 x y = true)
    (hshort : ∀ x y, edge g x u = true → edge g u y = true → edge g1 x y = true)
    {a c : T} (hc : c ≠ u) (h : Reach1 g a c) :
    (a ≠ u → Reach1 g1 a c) ∧ (a = u → ∀ x, edge g x u = true → Reach1 g1 x c) := by
  unfold Reach1 at h ⊢
  induction h using Relation.TransGen.head_induction_on with
  | @base a hac =>
    constructor
    · intro ha; exact Relation.TransGen.single (hkeep a c hac ha hc)
    · intro ha x hx
      subst ha
      exact Relation.TransGen.single (hshort x c hx hac)
  | @ih a m ham _ ih =>
    constructor
    · intro ha
      by_cases hm : m = u
      · subst hm
        exact ih.2 rfl a ham
      · exact Relation.TransGen.head (hkeep a m ham ha hm) (ih.1 hm)
    · intro ha x hx
      subst ha
      have hm : m ≠ a := by
        rintro rfl
        rw [hloop] at ham
        exact Bool.noConfusion ham
      exact Relation.TransGen.head (hshort x m hx ham) (ih.1 hm)

theorem reach1_of_edges {g g1 : Graph T}
    (hE : ∀ x y, edge g1 x y = true → Reach1 g x y) {a c : T} (h : Reach1 g1 a c) :
    Reach1 g a c := by
  unfold Reach1 at h
  induction h with
  | single h => exact hE _ _ h
  | tail _ h ih => exact Relation.TransGen.trans ih (hE _ _ h)

/-- One intermediate reduction keeps the paths between the surviving keys. -/
theorem IntermediateStep_reach {g g1 : Graph T} (hwf : WF g) (hI : I1 g)
    (h : IntermediateStep g g1) :
    (∀ a, contains_vertex g1 a = true → contains_vertex g a = true) ∧
      ∀ a c, contains_vertex g1 a = true → contains_vertex g1 c = true →
        (Reach1 g1 a c ↔ Reach1 g a c) := by
  obtain ⟨u, hu, hstep⟩ := h
  rw [apply_intermediate_reduction2_eq hwf hI] at hstep
  obtain ⟨_, e2, e3, e4⟩ := rewire_spec hwf hI u
  split_ifs at hstep with hcond
  · cases hstep
    simp only [Bool.and_eq_true, Bool.not_eq_true'] at hcond
    obtain ⟨hby, hloop⟩ := hcond
    rw [loop_eq_edge] at hloop
    have hbc := (bypass_iff g u).mp hby
    have hedge : ∀ x y, edge (clear_vertex (rewire g u) u) x y = true ↔
        (edge g x y = true ∨ (edge g x u = true ∧ edge g u y = true)) ∧ x ≠ u ∧ y ≠ u := by
      intro x y
      rw [edge_clear_vertex, edge_rewire hwf]
      simp only [hbc, true_and]
    have hkeys : ∀ a, contains_vertex (clear_vertex (rewire g u) u) a = true ↔
        contains_vertex g a = true ∧ a ≠ u := by
      intro a
      rw [contains_clear_vertex, contains_of_keys_eq e4]
    refine ⟨fun a ha => ((hkeys a).mp ha).1, ?_⟩
    intro a c ha hc
    have hau := ((hkeys a).mp ha).2
    have hcu := ((hkeys c).mp hc).2
    constructor
    · apply reach1_of_edges
      intro x y hxy
      rcases ((hedge x y).mp hxy).1 with h1 | ⟨h1, h2⟩
      · exact Relation.TransGen.single h1
      · exact Relation.TransGen.head h1 (Relation.TransGen.single h2)
    · intro hr
      refine (reach1_through_bypass hloop ?_ ?_ hcu hr).1 hau
      · intro x y hxy hx hy
        exact (hedge x y).mpr ⟨Or.inl hxy, hx, hy⟩
      · intro x y hxu huy
        refine (hedge x y).mpr ⟨Or.inr ⟨hxu, huy⟩, ?_, ?_⟩
        · rintro rfl; rw [hloop] at hxu; exact Bool.noConfusion hxu
        · rintro rfl; rw [hloop] at huy; exact Bool.noConfusion huy
  · cases hstep

theorem IntermediateStep_steps_reach {g g1 : Graph T} (hwf : WF g) (hI : I1 g)
    (h : Relation.ReflTransGen IntermediateStep g g1) :
    (∀ a, contains_vertex g1 a = true → contains_vertex g a = true) ∧
      ∀ a c, contains_vertex g1 a = true → contains_vertex g1 c = true →
        (Reach1 g1 a c ↔ Reach1 g a c) := by
  induction h with
  | refl => exact ⟨fun _ h => h, fun _ _ _ _ => Iff.rfl⟩
  | tail hsteps hstep ih =>
    obtain ⟨hw, hi, _⟩ := IntermediateStep_steps_length hwf hI hsteps
    obtain ⟨k1, r1⟩ := IntermediateStep_reach hw hi hstep
    obtain ⟨k0, r0⟩ := ih
    refine ⟨fun a ha => k0 a (k1 a ha), ?_⟩
    intro a c ha hc
    rw [r1 a c ha hc, r0 a c (k1 a ha) (k1 c hc)]

/-- C13: on a non-empty graph that satisfies I1, `intermediate_reduction` returns, and
    for all keys `a`, `c` of the resulting graph there is a directed path of length
    `≥ 1` from `a` to `c` in the result if and only if there was one in the input. -/
theorem intermediate_reduction_preserves_reachability (g : Graph T) (hwf : WF g) (hI : I1 g)
    (hne : g ≠ []) :
    ∃ b g1, intermediate_reduction g = .ok (b, g1) ∧
      ∀ a c, contains_vertex g1 a = true → contains_vertex g1 c = true →
        (Reach1 g1 a c ↔ Reach1 g a c) := by
  obtain ⟨b, g1, h1, _, _, _, hsteps, _⟩ := intermediate_reduction_spec hwf hI hne
  exact ⟨b, g1, h1, (IntermediateStep_steps_reach hwf hI hsteps).2⟩

end Bypass

section AcyclicEdges
variable {T : Type} [LinearOrder T]

theorem reach_of_edges {g g1 : Graph T}
    (hE : ∀ x y, edge g1 x y = true → edge g x y = true) {a c : T} (h : Reach g1 a c) :
    Reach g a c :=
  Relation.ReflTransGen.mono (fun x y hxy => hE x y hxy) h

/-- A path of the graph either survives the removal of the edge `u -> k`, or it runs
    through that edge. -/
theorem reach_split_at_edge {g g1 : Graph T} {u k : T}
    (hE : ∀ x y, edge g1 x y = true ↔ edge g x y = true ∧ ¬(x = u ∧ y = k))
    {x y : T} (h : Reach g x y) :
    Reach g1 x y ∨ (Reach g x u ∧ Reach g k y) := by
  unfold Reach at h ⊢
  induction h with
  | refl => exact Or.inl Relation.ReflTransGen.refl
  | @tail c y hxc hcy ih =>
    rcases ih with h1 | ⟨h1, h2⟩
    · by_cases huk : c = u ∧ y = k
      · obtain ⟨rfl, rfl⟩ := huk
        exact Or.inr ⟨hxc, Relation.ReflTransGen.refl⟩
      · exact Or.inl (Relation.ReflTransGen.tail h1 ((hE c y).mpr ⟨hcy, huk⟩))
    · exact Or.inr ⟨h1, Relation.ReflTransGen.tail h2 hcy⟩

theorem set_erase_length_exact {v : T} {s : List T} (hs : s.Sorted (fun a b => a < b))
    (hv : v ∈ s) : (set_erase v s).length + 1 = s.length := by
  induction s with
  | nil => simp at hv
  | cons y ys ih =>
    have hs' := List.sorted_cons.mp hs
    by_cases hy : y = v
    · subst hy
      have hnot : y ∉ ys := fun h => lt_irrefl _ (hs'.1 y h)
      have h1 : set_erase y (y :: ys) = set_erase y ys := by simp [set_erase]
      rw [h1, set_erase_of_not_mem hnot]
      rfl
    · have hv' : v ∈ ys := by
        rcases List.mem_cons.mp hv with h | h
        · exact absurd h.symm hy
        · exact h
      have h1 : set_erase v (y :: ys) = y :: set_erase v ys := by simp [set_erase, hy]
      rw [h1, List.length_cons, List.length_cons, ih hs'.2 hv']

/-- Rewriting the successor set of one key changes `num_edges` by the change of that
    set. -/
theorem num_edges_map_entry_at {g : Graph T} (hwf : WF g) (f : T → List T → List T) {u : T}
    {s : List T} (hu : map_find g u = some s) (hf : ∀ x t, x ≠ u → f x t = t) :
    num_edges (map_entry f g) + s.length = num_edges g + (f u s).length := by
  have hnd := hwf.nodup_keys
  clear hwf
  induction g with
  | nil => simp [map_find] at hu
  | cons kv rest ih =>
    obtain ⟨k, t⟩ := kv
    simp only [List.map_cons, List.nodup_cons] at hnd
    have hcons : map_entry f ((k, t) :: rest) = (k, f k t) :: map_entry f rest := rfl
    rw [hcons, num_edges_cons, num_edges_cons]
    simp only
    unfold map_find at hu
    split_ifs at hu with hk
    · cases hu
      subst hk
      have hrest : map_entry f rest = rest := by
        apply map_entry_id
        intro e he
        apply hf
        rintro heq
        exact hnd.1 (heq ▸ List.mem_map_of_mem Prod.fst he)
      rw [hrest]
      omega
    · have := ih hu hnd.2
      rw [hf k t (fun h => hk h.symm)]
      omega

theorem num_edges_erase_pair_exact {g : Graph T} (hwf : WF g) {u k : T}
    (huk : edge g u k = true) (hku : edge g k u = false) :
    num_edges (erase_pair g u k) + 1 = num_edges g := by
  obtain ⟨s, hs, hk⟩ := (edge_iff g u k).mp huk
  have hne : k ≠ u := by
    rintro rfl
    rw [huk] at hku
    exact Bool.noConfusion hku
  have heq : erase_pair g u k = map_entry (fun x t => if x = u then set_erase k t else t) g := by
    apply map_entry_congr
    intro kv hkv
    show (if kv.1 = k then set_erase u else id) ((if kv.1 = u then set_erase k else id) kv.2) =
      if kv.1 = u then set_erase k kv.2 else kv.2
    have hfind := map_find_of_mem hwf.nodup_keys hkv
    by_cases h1 : kv.1 = u
    · rw [if_pos h1, if_pos h1, if_neg (fun h => hne (h.symm.trans h1))]
      rfl
    · rw [if_neg h1, if_neg h1]
      by_cases h2 : kv.1 = k
      · rw [if_pos h2]
        apply set_erase_of_not_mem
        intro hmem
        have : edge g k u = true := (edge_iff g k u).mpr ⟨kv.2, h2 ▸ hfind, hmem⟩
        rw [hku] at this
        exact Bool.noConfusion this
      · rw [if_neg h2]; rfl
  rw [heq]
  have h := num_edges_map_entry_at hwf (fun x t => if x = u then set_erase k t else t) hs
    (fun x t hx => if_neg hx)
  simp only [if_true] at h
  have h2 : (set_erase k s).length + 1 = s.length :=
    set_erase_length_exact (hwf.2 (u, s) (map_find_mem hs)) hk
  omega

/-- One advanced reduction removes exactly one edge, which lies on no cycle, and so
    keeps every edge that lies on a cycle, together with its cycle. -/
theorem AdvancedStep_edges {g g1 : Graph T} (hwf : WF g) (hI : I1 g)
    (h : AdvancedStep g g1) :
    (∀ a b, edge g1 a b = true → edge g a b = true) ∧
      (∀ a b, edge g a b = true → Reach g b a → edge g1 a b = true ∧ Reach g1 b a) ∧
      num_edges g1 + 1 = num_edges g := by
  obtain ⟨u, hu, hstep⟩ := h
  obtain ⟨b, g2, h1, _, h3, _⟩ := apply_advanced_reduction2_spec hwf hI hu
  rw [hstep] at h1
  cases h1
  obtain ⟨k, hk, hak, rfl⟩ := h3 rfl
  obtain ⟨b', hb', hiff⟩ := acyclic_spec hI hu (hI.edge_contains_right hk)
  rw [hak] at hb'
  cases hb'
  have hnr : ¬Reach g k u := fun hr =>
    (hiff.mp rfl) ⟨hr, (out_degree_pos_iff g u).mpr ⟨k, hk⟩⟩
  have hku : edge g k u = false := by
    cases h : edge g k u with
    | false => rfl
    | true =>
      have hr : Reach g k u := Relation.ReflTransGen.single h
      exact absurd hr hnr
  have hE : ∀ x y, edge (erase_pair g u k) x y = true ↔
      edge g x y = true ∧ ¬(x = u ∧ y = k) := by
    intro x y
    rw [edge_erase_pair]
    constructor
    · rintro ⟨e1, e2, _⟩; exact ⟨e1, e2⟩
    · rintro ⟨e1, e2⟩
      refine ⟨e1, e2, ?_⟩
      rintro ⟨rfl, rfl⟩
      rw [hku] at e1
      exact Bool.noConfusion e1
  refine ⟨fun a b hab => ((hE a b).mp hab).1, ?_, num_edges_erase_pair_exact hwf hk hku⟩
  intro a b hab hr
  have hab_step : Reach g a b := Relation.ReflTransGen.single hab
  constructor
  · refine (hE a b).mpr ⟨hab, ?_⟩
    rintro ⟨rfl, rfl⟩
    exact hnr hr
  · rcases reach_split_at_edge hE hr with h1 | ⟨h1, h2⟩
    · exact h1
    · exact absurd (Relation.ReflTransGen.trans h2 (Relation.ReflTransGen.trans hab_step h1)) hnr

theorem AdvancedStep_steps_cyclic {g g1 : Graph T} (hwf : WF g) (hI : I1 g)
    (h : Relation.ReflTransGen AdvancedStep g g1) :
    (∀ a b, edge g1 a b = true → edge g a b = true) ∧
      (∀ a b, edge g a b = true → Reach g b a → edge g1 a b = true ∧ Reach g1 b a) := by
  induction h with
  | refl => exact ⟨fun _ _ h => h, fun _ _ h1 h2 => ⟨h1, h2⟩⟩
  | tail hsteps hstep ih =>
    obtain ⟨hw, hi, _⟩ := AdvancedStep_steps_edges hwf hI hsteps
    obtain ⟨s1, s2, _⟩ := AdvancedStep_edges hw hi hstep
    obtain ⟨i1, i2⟩ := ih
    refine ⟨fun a b hab => i1 a b (s1 a b hab), ?_⟩
    intro a b hab hr
    obtain ⟨e1, e2⟩ := i2 a b hab hr
    exact s2 a b e1 e2

/-- At the fixpoint of the advanced reduction every edge lies on a cycle. -/
theorem cyclic_of_no_acyclic {g : Graph T} (hI : I1 g) (h : acyclic_exists g = .ok false)
    {u v : T} (huv : edge g u v = true) : Reach g v u := by
  obtain ⟨e, he, heiff⟩ := acyclic_exists_spec hI
  rw [h] at he
  cases he
  obtain ⟨a, ha, haiff⟩ := acyclic_spec hI (edge_contains_left huv) (hI.edge_contains_right huv)
  cases a with
  | true => exact absurd (heiff.mpr ⟨u, v, huv, ha⟩) (by simp)
  | false =>
    by_contra hnr
    have := haiff.mpr (fun h => hnr h.1)
    cases this

/-- C14: on a non-empty graph that satisfies I1, `advanced_reduction` returns with the
    key set unchanged, and `(u, v)` is an edge of the result if and only if it was an
    edge of the input that lay on a directed cycle of the input. -/
theorem advanced_reduction_keeps_cyclic_edges (g : Graph T) (hwf : WF g) (hI : I1 g)
    (hne : g ≠ []) :
    ∃ b g1, advanced_reduction g = .ok (b, g1) ∧ keys g1 = keys g ∧
      ∀ u v, edge g1 u v = true ↔ edge g u v = true ∧ Reach g v u := by
  obtain ⟨b, g1, h1, _, hI1, h4, hsteps, _⟩ := advanced_reduction_spec hwf hI hne
  obtain ⟨_, _, _, hkeys⟩ := AdvancedStep_steps_edges hwf hI hsteps
  obtain ⟨c1, c2⟩ := AdvancedStep_steps_cyclic hwf hI hsteps
  refine ⟨b, g1, h1, hkeys, ?_⟩
  intro u v
  constructor
  · intro huv
    exact ⟨c1 u v huv, reach_of_edges c1 (cyclic_of_no_acyclic hI1 h4 huv)⟩
  · rintro ⟨huv, hr⟩
    exact (c2 u v huv hr).1

end AcyclicEdges

section EmptyGraph
variable {T : Type} [LinearOrder T]

theorem basic_reduction_apply_nil (x : T) :
    basic_reduction_apply 1 ([] : Graph T) x = .ok (true, []) := by
  simp [basic_reduction_apply, basic_reduction_apply2, loop, sink, out_degree, successors,
    map_find, remove_vertex, predecessors, for_each, map_erase, loop_sink_exists]

theorem apply_intermediate_reduction_nil (x : T) :
    apply_intermediate_reduction 1 ([] : Graph T) x = .ok (false, []) := by
  simp [apply_intermediate_reduction, apply_intermediate_reduction2, bypass, out_degree,
    in_degree, successors, predecessors, map_find, bypass_exists]

theorem apply_advanced_reduction_nil (x : T) :
    apply_advanced_reduction 1 ([] : Graph T) x = .ok (false, []) := by
  simp [apply_advanced_reduction, apply_advanced_reduction2, apply_advanced_reduction2_scan,
    successors, map_find, acyclic_exists, first_true]

/-- A second `basic_reduction` on a result that still has a vertex returns false and
    changes nothing. -/
theorem basic_reduction_again {g : Graph T} (hwf : WF g) (hI : I1 g)
    (hfix : loop_sink_exists g = false) (hne : g ≠ []) :
    basic_reduction g = .ok (false, g) := by
  cases g with
  | nil => exact absurd rfl hne
  | cons kv rest =>
    obtain ⟨k, s⟩ := kv
    have hk : (loop ((k, s) :: rest) k || sink ((k, s) :: rest) k) = false := by
      cases hc : (loop ((k, s) :: rest) k || sink ((k, s) :: rest) k) with
      | false => rfl
      | true =>
        have : loop_sink_exists ((k, s) :: rest) = true :=
          List.any_eq_true.mpr ⟨(k, s), List.mem_cons_self _ _, hc⟩
        rw [hfix] at this
        cases this
    show basic_reduction_apply (num_vertices ((k, s) :: rest) + 1) ((k, s) :: rest) k = _
    unfold basic_reduction_apply
    rw [basic_reduction_apply2_eq hwf hI, hk]
    simp [hfix]

/-- C15, the code at the failing input: on the graph without vertices the entry points
    read `graph.begin()->first` of an empty map, for which the source has no guard
    (marked `empty_graph`); and whatever vertex `x` that read yields, the bodies return
    normally, `basic_reduction` with true and the other two with false, instead of
    failing. -/
theorem reductions_on_empty_graph (x : T) :
    basic_reduction ([] : Graph T) = .error .empty_graph ∧
    intermediate_reduction ([] : Graph T) = .error .empty_graph ∧
    advanced_reduction ([] : Graph T) = .error .empty_graph ∧
    basic_reduction_apply (num_vertices ([] : Graph T) + 1) [] x = .ok (true, []) ∧
    apply_intermediate_reduction (num_vertices ([] : Graph T) + 1) [] x = .ok (false, []) ∧
    apply_advanced_reduction (num_edges ([] : Graph T) + 1) [] x = .ok (false, []) :=
  ⟨rfl, rfl, rfl, basic_reduction_apply_nil x, apply_intermediate_reduction_nil x,
    apply_advanced_reduction_nil x⟩

/-- C16, the code at the failing input: the first `basic_reduction` on the graph with
    the single vertex `0` removes it and returns true; the second call is then made on
    the graph without vertices, where it reads `graph.begin()->first` of an empty map
    and, whatever vertex that read yields, returns true again rather than false. -/
theorem second_basic_reduction_on_emptied_graph :
    WF ([(0, [])] : Graph Nat) ∧ I1 ([(0, [])] : Graph Nat) ∧
    basic_reduction ([(0, [])] : Graph Nat) = .ok (true, []) ∧
    basic_reduction ([] : Graph Nat) = .error .empty_graph ∧
    ∀ x : Nat, basic_reduction_apply (num_vertices ([] : Graph Nat) + 1) [] x = .ok (true, []) :=
  ⟨by decide, by decide, by decide, rfl, fun x => basic_reduction_apply_nil x⟩

end EmptyGraph

section AcyclicFault
variable {T : Type} [LinearOrder T]

theorem cyclic_missing_key (g : Graph T) (u v : T)
    (h : contains_vertex g u = false ∨ contains_vertex g v = false) :
    cyclic g u v = .error .missing_key := by
  unfold cyclic apply_cyclic
  simp only [map_at, map_find_init]
  by_cases hu : contains_vertex g u = true
  · have hv : contains_vertex g v = false := by
      rcases h with h | h
      · rw [hu] at h; cases h
      · exact h
    simp [hu, hv]
  · simp only [Bool.not_eq_true] at hu
    simp [hu]

/-- C17: on a graph that satisfies I1, `acyclic(u, v)` fails with a missing-key fault if
    and only if `u` or `v` is not a key, and returns a boolean when both are keys; on
    the graph without vertices it therefore fails for all `u`, `v`. -/
theorem acyclic_fails_iff_missing_key (g : Graph T) (hI : I1 g) (u v : T) :
    acyclic ([] : Graph T) u v = .error .missing_key ∧
    (acyclic g u v = .error .missing_key ↔
      contains_vertex g u = false ∨ contains_vertex g v = false) ∧
    (contains_vertex g u = true → contains_vertex g v = true →
      ∃ b, acyclic g u v = .ok b) := by
  have hfault : ∀ (h : Graph T) (a b : T),
      contains_vertex h a = false ∨ contains_vertex h b = false →
        acyclic h a b = .error .missing_key := by
    intro h a b hab
    unfold acyclic
    rw [cyclic_missing_key h a b hab]
  refine ⟨hfault [] u v (Or.inl rfl), ⟨?_, hfault g u v⟩, ?_⟩
  · intro herr
    by_contra hcon
    simp only [not_or, Bool.not_eq_false] at hcon
    obtain ⟨b, hb, _⟩ := acyclic_spec hI hcon.1 hcon.2
    rw [hb] at herr
    cases herr
  · intro hu hv
    obtain ⟨b, hb, _⟩ := acyclic_spec hI hu hv
    exact ⟨b, hb⟩

theorem acyclic_fails_iff_missing_key_witness :
    I1 arrow_graph ∧
    acyclic ([] : Graph Nat) 0 2 = .error .missing_key ∧
    (acyclic arrow_graph 0 2 = .error .missing_key ↔
      contains_vertex arrow_graph 0 = false ∨ contains_vertex arrow_graph 2 = false) ∧
    (contains_vertex arrow_graph 0 = true → contains_vertex arrow_graph 2 = true →
      ∃ b, acyclic arrow_graph 0 2 = .ok b) :=
  ⟨by decide, acyclic_fails_iff_missing_key arrow_graph (by decide) 0 2⟩

end AcyclicFault

section Visualization

theorem string_a_lt_b : ("a" : String) < "b" := by
  rw [String.lt_iff_toList_lt]
  decide

theorem ab_graph_eq : ab_graph = .ok [("a", ["b"]), ("b", [])] := by
  have h1 : ("a" : String) < "b" := string_a_lt_b
  have h2 : ¬ ("b" : String) < "a" := not_lt.mpr h1.le
  have h3 : ("b" : String) ≠ "a" := ne_of_gt h1
  have h4 : ("a" : String) ≠ "b" := ne_of_lt h1
  simp [ab_graph, insert_edge, insert_vertex, contains_vertex, edge, map_find, map_insert, map_at,
    map_assign, set_insert, h1, h2, h3, h4]

/-- C18, as stated, fails: the graph built by `insert_vertex("a")` and
    `insert_edge("a", "b")` has the two keys `a` and `b`, and `graphviz` does not return
    the text with the single vertex line. -/
theorem graphviz_ab_is_not_single_vertex_text :
    ∃ g, ab_graph = .ok g ∧ num_vertices g = 2 ∧
      graphviz string_value g ≠ "digraph \x7b\n a;\n a -> b;\n\x7d\n" :=
  ⟨[("a", ["b"]), ("b", [])], ab_graph_eq, rfl, by decide⟩

/-- C18, amended: for the graph built by `insert_vertex("a")` and
    `insert_edge("a", "b")`, `graphviz` returns exactly the header line, the vertex
    lines for `a` and for `b`, the edge line for `a -> b` and the closing line. -/
theorem graphviz_ab_text :
    ∃ g, ab_graph = .ok g ∧
      graphviz string_value g = "digraph \x7b\n a;\n b;\n a -> b;\n\x7d\n" :=
  ⟨[("a", ["b"]), ("b", [])], ab_graph_eq, by decide⟩

end Visualization

section Termination
variable {T : Type} [LinearOrder T]

theorem basic_reduction_apply_mono :
    ∀ (fuel : Nat) (g : Graph T) (u : T) (r : Bool × Graph T),
      basic_reduction_apply fuel g u = .ok r → basic_reduction_apply (fuel + 1) g u = .ok r := by
  intro fuel
  induction fuel with
  | zero => intro g u r h; simp [basic_reduction_apply] at h
  | succ n ih =>
    intro g u r h
    unfold basic_reduction_apply at h ⊢
    cases h2 : basic_reduction_apply2 g u with
    | error e => rw [h2] at h; cases h
    | ok p =>
      obtain ⟨applied, g1⟩ := p
      rw [h2] at h
      simp only at h ⊢
      by_cases hex : loop_sink_exists g1 = true
      · rw [if_pos hex] at h ⊢
        cases hf : g1.find? (fun kv => loop g1 kv.1 || sink g1 kv.1) with
        | none => rw [hf] at h; cases h
        | some kv =>
          rw [hf] at h
          simp only at h ⊢
          exact ih g1 kv.1 r h
      · rw [if_neg hex] at h ⊢
        exact h

theorem apply_intermediate_reduction_mono :
    ∀ (fuel : Nat) (g : Graph T) (u : T) (r : Bool × Graph T),
      apply_intermediate_reduction fuel g u = .ok r →
        apply_intermediate_reduction (fuel + 1) g u = .ok r := by
  intro fuel
  induction fuel with
  | zero => intro g u r h; simp [apply_intermediate_reduction] at h
  | succ n ih =>
    intro g u r h
    unfold apply_intermediate_reduction at h ⊢
    cases h2 : apply_intermediate_reduction2 g u with
    | error e => rw [h2] at h; cases h
    | ok p =>
      obtain ⟨applied, g1⟩ := p
      rw [h2] at h
      simp only at h ⊢
      by_cases hex : bypass_exists g1 = true
      · rw [if_pos hex] at h ⊢
        cases hf : g1.find? (fun kv => bypass g1 kv.1 && !loop g1 kv.1) with
        | none => rw [hf] at h; cases h
        | some kv =>
          rw [hf] at h
          simp only at h ⊢
          exact ih g1 kv.1 r h
      · rw [if_neg hex] at h ⊢
        exact h

theorem apply_advanced_reduction_mono :
    ∀ (fuel : Nat) (g : Graph T) (u : T) (r : Bool × Graph T),
      apply_advanced_reduction fuel g u = .ok r →
        apply_advanced_reduction (fuel + 1) g u = .ok r := by
  intro fuel
  induction fuel with
  | zero => intro g u r h; simp [apply_advanced_reduction] at h
  | succ n ih =>
    intro g u r h
    unfold apply_advanced_reduction at h ⊢
    cases h2 : apply_advanced_reduction2 g u with
    | error e => rw [h2] at h; cases h
    | ok p =>
      obtain ⟨applied, g1⟩ := p
      rw [h2] at h
      simp only at h ⊢
      cases h3 : acyclic_exists g1 with
      | error e => rw [h3] at h; cases h
      | ok e =>
        rw [h3] at h
        cases e with
        | false => exact h
        | true =>
          simp only at h ⊢
          cases h4 : first_acyclic_vertex g1 g1 with
          | error e => rw [h4] at h; cases h
          | ok w =>
            rw [h4] at h
            cases w with
            | none => cases h
            | some w =>
              simp only at h ⊢
              exact ih g1 w r h

/-- A result obtained within some recursion budget is obtained within every larger one. -/
theorem fuel_ge_of_mono {α β : Type} (f : Nat → α → Except Fault β)
    (hmono : ∀ n a r, f n a = .ok r → f (n + 1) a = .ok r) {n : Nat} {a : α} {r : β}
    (h : f n a = .ok r) : ∀ m, n ≤ m → f m a = .ok r := by
  intro m hm
  induction m with
  | zero =>
    have : n = 0 := Nat.le_zero.mp hm
    subst this
    exact h
  | succ k ih =>
    by_cases hk : n ≤ k
    · exact hmono k a r (ih hk)
    · have : n = k + 1 := by omega
      subst this
      exact h

theorem apply_cyclic_fuel_independent {g : Graph T} (hI : I1 g) {vis : Visited T} {u v : T}
    (hdom : ∀ x, contains_vertex g x = true → (map_find vis x).isSome = true)
    (hu : contains_vertex g u = true) (hv : contains_vertex g v = true) :
    ∃ b, ∀ fuel, unmarked vis < fuel → apply_cyclic g fuel u v vis = .ok b := by
  obtain ⟨b, _, hiff⟩ := apply_cyclic_spec hI (unmarked vis + 1) vis u v hdom hu hv
    (Nat.lt_succ_self _)
  refine ⟨b, ?_⟩
  intro fuel hfuel
  obtain ⟨b', hb', hiff'⟩ := apply_cyclic_spec hI fuel vis u v hdom hu hv hfuel
  have : b' = b := by
    cases b <;> cases b' <;> simp_all
  rw [hb', this]

end Termination

section TerminationClaims
variable {T : Type} [LinearOrder T]

theorem basic_reduction_apply_total {g : Graph T} (hwf : WF g) (hI : I1 g) {u : T}
    (hu : contains_vertex g u = true) :
    ∃ r, ∀ fuel, num_vertices g + 1 ≤ fuel → basic_reduction_apply fuel g u = .ok r := by
  obtain ⟨b, g1, h1, _⟩ := basic_reduction_apply_spec (num_vertices g + 1) g u hwf hI hu
    (by unfold num_vertices; split_ifs <;> omega)
  exact ⟨(b, g1), fun fuel hfuel =>
    @fuel_ge_of_mono (Graph T × T) (Bool × Graph T)
      (fun n p => basic_reduction_apply n p.1 p.2)
      (fun n p r h => basic_reduction_apply_mono n p.1 p.2 r h)
      (num_vertices g + 1) (g, u) (b, g1) h1 fuel hfuel⟩

theorem apply_intermediate_reduction_total {g : Graph T} (hwf : WF g) (hI : I1 g) {u : T}
    (hu : contains_vertex g u = true) :
    ∃ r, ∀ fuel, num_vertices g + 1 ≤ fuel →
      apply_intermediate_reduction fuel g u = .ok r := by
  obtain ⟨b, g1, h1, _⟩ := apply_intermediate_reduction_spec (num_vertices g + 1) g u hwf hI hu
    (by unfold num_vertices; split_ifs <;> omega)
  exact ⟨(b, g1), fun fuel hfuel =>
    @fuel_ge_of_mono (Graph T × T) (Bool × Graph T)
      (fun n p => apply_intermediate_reduction n p.1 p.2)
      (fun n p r h => apply_intermediate_reduction_mono n p.1 p.2 r h)
      (num_vertices g + 1) (g, u) (b, g1) h1 fuel hfuel⟩

theorem apply_advanced_reduction_total {g : Graph T} (hwf : WF g) (hI : I1 g) {u : T}
    (hu : contains_vertex g u = true) :
    ∃ r, ∀ fuel, num_edges g + 1 ≤ fuel → apply_advanced_reduction fuel g u = .ok r := by
  obtain ⟨b, g1, h1, _⟩ := apply_advanced_reduction_spec (num_edges g + 1) g u hwf hI hu
    (by split_ifs <;> omega)
  exact ⟨(b, g1), fun fuel hfuel =>
    @fuel_ge_of_mono (Graph T × T) (Bool × Graph T)
      (fun n p => apply_advanced_reduction n p.1 p.2)
      (fun n p r h => apply_advanced_reduction_mono n p.1 p.2 r h)
      (num_edges g + 1) (g, u) (b, g1) h1 fuel hfuel⟩

/-- C19: on a non-empty graph that satisfies I1 every reduction returns.  The recursion
    budget counts the nested calls of the driver: started at any key, the driver returns
    the same result within every budget of at least `num_vertices + 1` (basic,
    intermediate) or `num_edges + 1` (advanced) calls, that is after at most
    `num_vertices` or `num_edges` re-entries, because each reduction step removes
    exactly one vertex, respectively exactly one edge. -/
theorem reductions_terminate (g : Graph T) (hwf : WF g) (hI : I1 g) (hne : g ≠ []) :
    ((∃ r, basic_reduction g = .ok r) ∧
      (∀ u, contains_vertex g u = true →
        ∃ r, ∀ fuel, num_vertices g + 1 ≤ fuel → basic_reduction_apply fuel g u = .ok r) ∧
      (∀ g1, BasicStep g g1 → num_vertices g1 + 1 = num_vertices g)) ∧
    ((∃ r, intermediate_reduction g = .ok r) ∧
      (∀ u, contains_vertex g u = true →
        ∃ r, ∀ fuel, num_vertices g + 1 ≤ fuel →
          apply_intermediate_reduction fuel g u = .ok r) ∧
      (∀ g1, IntermediateStep g g1 → num_vertices g1 + 1 = num_vertices g)) ∧
    ((∃ r, advanced_reduction g = .ok r) ∧
      (∀ u, contains_vertex g u = true →
        ∃ r, ∀ fuel, num_edges g + 1 ≤ fuel → apply_advanced_reduction fuel g u = .ok r) ∧
      (∀ g1, AdvancedStep g g1 → num_edges g1 + 1 = num_edges g)) := by
  refine ⟨⟨?_, fun u hu => basic_reduction_apply_total hwf hI hu,
      fun g1 h => (BasicStep_spec hwf hI h).2.2⟩,
    ⟨?_, fun u hu => apply_intermediate_reduction_total hwf hI hu,
      fun g1 h => (IntermediateStep_spec hwf hI h).2.2⟩,
    ⟨?_, fun u hu => apply_advanced_reduction_total hwf hI hu,
      fun g1 h => (AdvancedStep_edges hwf hI h).2.2⟩⟩
  · obtain ⟨b, g1, h1, _⟩ := basic_reduction_spec hwf hI hne
    exact ⟨(b, g1), h1⟩
  · obtain ⟨b, g1, h1, _⟩ := intermediate_reduction_spec hwf hI hne
    exact ⟨(b, g1), h1⟩
  · obtain ⟨b, g1, h1, _⟩ := advanced_reduction_spec hwf hI hne
    exact ⟨(b, g1), h1⟩

theorem reductions_terminate_witness :
    WF cycle_tail_graph ∧ I1 cycle_tail_graph ∧ cycle_tail_graph ≠ [] ∧
    (((∃ r, basic_reduction cycle_tail_graph = .ok r) ∧
      (∀ u, contains_vertex cycle_tail_graph u = true →
        ∃ r, ∀ fuel, num_vertices cycle_tail_graph + 1 ≤ fuel →
          basic_reduction_apply fuel cycle_tail_graph u = .ok r) ∧
      (∀ g1, BasicStep cycle_tail_graph g1 →
        num_vertices g1 + 1 = num_vertices cycle_tail_graph)) ∧
    ((∃ r, intermediate_reduction cycle_tail_graph = .ok r) ∧
      (∀ u, contains_vertex cycle_tail_graph u = true →
        ∃ r, ∀ fuel, num_vertices cycle_tail_graph + 1 ≤ fuel →
          apply_intermediate_reduction fuel cycle_tail_graph u = .ok r) ∧
      (∀ g1, IntermediateStep cycle_tail_graph g1 →
        num_vertices g1 + 1 = num_vertices cycle_tail_graph)) ∧
    ((∃ r, advanced_reduction cycle_tail_graph = .ok r) ∧
      (∀ u, contains_vertex cycle_tail_graph u = true →
        ∃ r, ∀ fuel, num_edges cycle_tail_graph + 1 ≤ fuel →
          apply_advanced_reduction fuel cycle_tail_graph u = .ok r) ∧
      (∀ g1, AdvancedStep cycle_tail_graph g1 →
        num_edges g1 + 1 = num_edges cycle_tail_graph))) :=
  ⟨by decide, by decide, by decide,
    reductions_terminate cycle_tail_graph (by decide) (by decide) (by decide)⟩

/-- C20: on a graph that satisfies I1, for keys `u` and `v`, `cyclic(u, v)` returns.
    The recursion budget counts the nested calls of `apply_cyclic`: the search returns
    the same answer within every budget of at least `num_vertices + 1` calls, because
    the `visited` map starts with `num_vertices` false entries, marking an unmarked
    vertex leaves strictly fewer of them, and a nested call that received `visited` with
    `k` false entries returns within every budget above `k`. -/
theorem cycle_detector_terminates (g : Graph T) (hI : I1 g) (u v : T)
    (hu : contains_vertex g u = true) (hv : contains_vertex g v = true) :
    (∃ b, cyclic g u v = .ok b ∧
      ∀ fuel, num_vertices g + 1 ≤ fuel →
        apply_cyclic g fuel u v (g.map (fun kv => (kv.1, false))) = .ok b) ∧
    unmarked (g.map (fun kv => (kv.1, false))) = num_vertices g ∧
    (∀ (vis : Visited T) (w : T), map_find vis w = some false →
      unmarked (mark vis w) < unmarked vis) ∧
    (∀ (vis : Visited T) (w : T),
      (∀ x, contains_vertex g x = true → (map_find vis x).isSome = true) →
      contains_vertex g w = true →
      ∃ b, ∀ fuel, unmarked vis < fuel → apply_cyclic g fuel u w vis = .ok b) := by
  refine ⟨?_, unmarked_init g, fun vis w h => unmarked_mark_lt h,
    fun vis w hdom hw => apply_cyclic_fuel_independent hI hdom hu hw⟩
  obtain ⟨b, hb⟩ := @apply_cyclic_fuel_independent T _ g hI (g.map (fun kv => (kv.1, false)))
    u v (fun x hx => by rw [map_find_init, hx]; rfl) hu hv
  refine ⟨b, ?_, ?_⟩
  · unfold cyclic
    exact hb _ (by rw [unmarked_init]; exact Nat.lt_succ_self _)
  · intro fuel hfuel
    exact hb fuel (by rw [unmarked_init]; unfold num_vertices at hfuel; omega)

theorem cycle_detector_terminates_witness :
    I1 cycle_tail_graph ∧ contains_vertex cycle_tail_graph 0 = true ∧
    contains_vertex cycle_tail_graph 1 = true ∧
    ((∃ b, cyclic cycle_tail_graph 0 1 = .ok b ∧
      ∀ fuel, num_vertices cycle_tail_graph + 1 ≤ fuel →
        apply_cyclic cycle_tail_graph fuel 0 1
          (cycle_tail_graph.map (fun kv => (kv.1, false))) = .ok b) ∧
    unmarked (cycle_tail_graph.map (fun kv => (kv.1, false))) = num_vertices cycle_tail_graph ∧
    (∀ (vis : Visited Nat) (w : Nat), map_find vis w = some false →
      unmarked (mark vis w) < unmarked vis) ∧
    (∀ (vis : Visited Nat) (w : Nat),
      (∀ x, contains_vertex cycle_tail_graph x = true → (map_find vis x).isSome = true) →
      contains_vertex cycle_tail_graph w = true →
      ∃ b, ∀ fuel, unmarked vis < fuel → apply_cyclic cycle_tail_graph fuel 0 w vis = .ok b)) :=
  ⟨by decide, by decide, by decide,
    cycle_detector_terminates cycle_tail_graph (by decide) 0 1 (by decide) (by decide)⟩

end TerminationClaims

section MoreWitnesses

theorem intermediate_reduction_preserves_reachability_witness :
    WF cycle_tail_graph ∧ I1 cycle_tail_graph ∧ cycle_tail_graph ≠ [] ∧
      ∃ b g1, intermediate_reduction cycle_tail_graph = .ok (b, g1) ∧
        ∀ a c, contains_vertex g1 a = true → contains_vertex g1 c = true →
          (Reach1 g1 a c ↔ Reach1 cycle_tail_graph a c) :=
  ⟨by decide, by decide, by decide,
    intermediate_reduction_preserves_reachability cycle_tail_graph (by decide) (by decide)
      (by decide)⟩

theorem advanced_reduction_keeps_cyclic_edges_witness :
    WF cycle_tail_graph ∧ I1 cycle_tail_graph ∧ cycle_tail_graph ≠ [] ∧
      ∃ b g1, advanced_reduction cycle_tail_graph = .ok (b, g1) ∧
        keys g1 = keys cycle_tail_graph ∧
        ∀ u v, edge g1 u v = true ↔ edge cycle_tail_graph u v = true ∧ Reach cycle_tail_graph v u :=
  ⟨by decide, by decide, by decide,
    advanced_reduction_keeps_cyclic_edges cycle_tail_graph (by decide) (by decide) (by decide)⟩

end MoreWitnesses

section CanonicalLemmas
variable {T : Type} [LinearOrder T]

/-- One basic reduction keeps the graph an induced subgraph of the start graph and keeps
    every loop-free, sink-free vertex set inside the keys. -/
theorem BasicStep_canonical {g0 g g1 : Graph T} (hwf : WF g) (hI : I1 g)
    (hind : InducedBy g0 g)
    (hmax : ∀ S, LoopSinkFree g0 S → ∀ a, S a → contains_vertex g a = true)
    (h : BasicStep g g1) :
    InducedBy g0 g1 ∧ ∀ S, LoopSinkFree g0 S → ∀ a, S a → contains_vertex g1 a = true := by
  obtain ⟨u, hu, hstep⟩ := h
  rw [basic_reduction_apply2_eq hwf hI] at hstep
  split_ifs at hstep with hls
  · cases hstep
    obtain ⟨hsub, hedge⟩ := hind
    refine ⟨⟨?_, ?_⟩, ?_⟩
    · intro a ha
      exact hsub a ((contains_clear_vertex g u a).mp ha).1
    · intro a c
      rw [edge_clear_vertex, contains_clear_vertex, contains_clear_vertex, hedge a c]
      tauto
    · intro S hS a ha
      have hnoloop := hS.2.1
      have hsucc := hS.2.2
      refine (contains_clear_vertex g u a).mpr ⟨hmax S hS a ha, ?_⟩
      rintro rfl
      rw [Bool.or_eq_true] at hls
      rcases hls with hl | hs
      · rw [loop_eq_edge] at hl
        have := ((hedge a a).mp hl).2.2
        rw [hnoloop a ha] at this
        exact Bool.noConfusion this
      · obtain ⟨c, hc, hac⟩ := hsucc a ha
        have hgac : edge g a c = true :=
          (hedge a c).mpr ⟨hmax S hS a ha, hmax S hS c hc, hac⟩
        have hpos := (out_degree_pos_iff g a).mpr ⟨c, hgac⟩
        unfold sink at hs
        split_ifs at hs with h0
        omega
  · cases hstep

theorem BasicStep_steps_canonical {g g1 : Graph T} (hwf : WF g) (hI : I1 g)
    (h : Relation.ReflTransGen BasicStep g g1) :
    InducedBy g g1 ∧ ∀ S, LoopSinkFree g S → ∀ a, S a → contains_vertex g1 a = true := by
  induction h with
  | refl =>
    refine ⟨⟨fun _ h => h, ?_⟩, fun S hS a ha => hS.1 a ha⟩
    intro a c
    constructor
    · intro hac
      exact ⟨edge_contains_left hac, hI.edge_contains_right hac, hac⟩
    · rintro ⟨_, _, hac⟩; exact hac
  | tail hsteps hstep ih =>
    obtain ⟨hw, hi, _⟩ := BasicStep_steps_length hwf hI hsteps
    exact BasicStep_canonical hw hi ih.1 ih.2 hstep

/-- The keys of a fixpoint of the basic reduction form a loop-free, sink-free set. -/
theorem fixpoint_loop_sink_free {g g1 : Graph T} (hind : InducedBy g g1)
    (hfix : loop_sink_exists g1 = false) :
    LoopSinkFree g (fun a => contains_vertex g1 a = true) := by
  have hno : ∀ a, contains_vertex g1 a = true → loop g1 a = false ∧ sink g1 a = false := by
    intro a ha
    obtain ⟨kv, hkv, rfl⟩ := exists_mem_of_contains ha
    have hnot : (loop g1 kv.1 || sink g1 kv.1) = false := by
      cases hc : (loop g1 kv.1 || sink g1 kv.1) with
      | false => rfl
      | true =>
        have : g1.any (fun kv => loop g1 kv.1 || sink g1 kv.1) = true :=
          List.any_eq_true.mpr ⟨kv, hkv, hc⟩
        unfold loop_sink_exists at hfix
        rw [hfix] at this
        cases this
    exact Bool.or_eq_false_iff.mp hnot
  obtain ⟨hsub, hedge⟩ := hind
  refine ⟨hsub, ?_, ?_⟩
  · intro a ha
    cases h : edge g a a with
    | false => rfl
    | true =>
      have : edge g1 a a = true := (hedge a a).mpr ⟨ha, ha, h⟩
      rw [← loop_eq_edge, (hno a ha).1] at this
      exact Bool.noConfusion this
  · intro a ha
    have hs := (hno a ha).2
    unfold sink at hs
    split_ifs at hs with h0
    obtain ⟨c, hc⟩ := (out_degree_pos_iff g1 a).mp (Nat.pos_of_ne_zero h0)
    obtain ⟨_, hc1, hc2⟩ := (hedge a c).mp hc
    exact ⟨c, hc1, hc2⟩

/-- C21: on a non-empty graph `g` that satisfies I1, `basic_reduction` returns a graph
    `g1` whose key set is the greatest set of vertices of `g` in which no vertex has a
    self-edge in `g` and every vertex has a successor in the set; `g1` is the subgraph of
    `g` induced by that set; and every other order of basic reductions that ends in a
    graph without loop or sink ends in the same keys and edges. -/
theorem basic_reduction_canonical (g : Graph T) (hwf : WF g) (hI : I1 g) (hne : g ≠ []) :
    ∃ b g1, basic_reduction g = .ok (b, g1) ∧
      LoopSinkFree g (fun a => contains_vertex g1 a = true) ∧
      (∀ S, LoopSinkFree g S → ∀ a, S a → contains_vertex g1 a = true) ∧
      (∀ a, contains_vertex g1 a = true → contains_vertex g a = true) ∧
      (∀ a c, edge g1 a c = true ↔
        contains_vertex g1 a = true ∧ contains_vertex g1 c = true ∧ edge g a c = true) ∧
      (∀ g2, Relation.ReflTransGen BasicStep g g2 → loop_sink_exists g2 = false →
        (∀ a, contains_vertex g2 a = true ↔ contains_vertex g1 a = true) ∧
        (∀ a c, edge g2 a c = true ↔ edge g1 a c = true)) := by
  obtain ⟨b, g1, h1, _, _, hfix, hsteps, _⟩ := basic_reduction_spec hwf hI hne
  obtain ⟨hind, hmax⟩ := BasicStep_steps_canonical hwf hI hsteps
  have hfree := fixpoint_loop_sink_free hind hfix
  refine ⟨b, g1, h1, hfree, hmax, hind.1, hind.2, ?_⟩
  intro g2 hsteps2 hfix2
  obtain ⟨hind2, hmax2⟩ := BasicStep_steps_canonical hwf hI hsteps2
  have hfree2 := fixpoint_loop_sink_free hind2 hfix2
  have hkeys : ∀ a, contains_vertex g2 a = true ↔ contains_vertex g1 a = true :=
    fun a => ⟨fun ha => hmax _ hfree2 a ha, fun ha => hmax2 _ hfree a ha⟩
  refine ⟨hkeys, ?_⟩
  intro a c
  rw [hind2.2 a c, hind.2 a c, hkeys a, hkeys c]

theorem basic_reduction_canonical_witness :
    WF chain_cycle_graph ∧ I1 chain_cycle_graph ∧ chain_cycle_graph ≠ [] ∧
    ∃ b g1, basic_reduction chain_cycle_graph = .ok (b, g1) ∧
      LoopSinkFree chain_cycle_graph (fun a => contains_vertex g1 a = true) ∧
      (∀ S, LoopSinkFree chain_cycle_graph S → ∀ a, S a → contains_vertex g1 a = true) ∧
      (∀ a, contains_vertex g1 a = true → contains_vertex chain_cycle_graph a = true) ∧
      (∀ a c, edge g1 a c = true ↔
        contains_vertex g1 a = true ∧ contains_vertex g1 c = true ∧
          edge chain_cycle_graph a c = true) ∧
      (∀ g2, Relation.ReflTransGen BasicStep chain_cycle_graph g2 →
        loop_sink_exists g2 = false →
        (∀ a, contains_vertex g2 a = true ↔ contains_vertex g1 a = true) ∧
        (∀ a c, edge g2 a c = true ↔ edge g1 a c = true)) :=
  ⟨by decide, by decide, by decide,
    basic_reduction_canonical chain_cycle_graph (by decide) (by decide) (by decide)⟩

end CanonicalLemmas

end Digraph
